import Mathlib

/-!
# speedtest-extract: catalog index and filter engine

A shallow embedding of `src/speedtest-extract/extracts.go`, of the helper `contains` of
`util.go` and of two fragments of `ExtractHandler` of `main.go`: the use of the cache file
around `GetExtracts`, and the counts of the downloads.

Conventions of the embedding.

* A Go `string` is a Lean `String`; `strings.Index` counts characters where Go counts bytes.
  The search patterns of the program are ASCII, so the prefix cut by `DatasetName` is the same.
* A Go `map[string]V` is an association list with distinct keys, kept in insertion order. The
  order in which `range` visits a map is not fixed by Go; it is a parameter (`MapOrder`).
* `time.Time` is an instant, a number of nanoseconds relative to the Unix epoch.
* Memory is explicit. A `Record` is an `ExtractItem` struct in memory, a pointer is the
  address of a record in a `Heap`, and `GetExtracts` runs on the heap: a record that the
  program reaches from several places of the tree is one record in the model too.
* `FilterFiles` only reads the memory. It is written over `ExtractItem`, the tree that a
  pointer unfolds to (`view`): each node carries in `ptr` the address of its record, so
  equality of pointers is equality of `ptr`.
* A function that can panic, or whose recursion is driven by the answers of the remote
  service, returns an `Option`; `none` means that the call did not return normally within
  the given fuel.
-/

set_option autoImplicit false

namespace Speedtest

/-! ## Strings (`strings.Index`, `strings.Contains`, `strings.Trim`, `strings.Split`) -/

/-- Search of `sub` in `s`, left to right; `i` is the position of the head of `s` in the
string the search started from. -/
def indexFrom (sub : List Char) : List Char → Nat → Option Nat
  | [], i => if sub.isPrefixOf [] then some i else none
  | c :: cs, i => if sub.isPrefixOf (c :: cs) then some i else indexFrom sub cs (i + 1)

/-- Go `strings.Index(s, substr)`: the index of the first instance of `substr` in `s`, or
`-1` if `substr` is not present in `s`. -/
def stringsIndex (s substr : String) : Int :=
  match indexFrom substr.data s.data 0 with
  | some i => (i : Int)
  | none => -1

/-- Go `strings.Contains(s, substr)`, which is `Index(s, substr) >= 0`. -/
def stringsContains (s substr : String) : Bool :=
  decide (stringsIndex s substr ≥ 0)

/-- Go slice expression `s[:hi]`; it panics (`none`) when `hi` is out of range. -/
def sliceTo (s : String) (hi : Int) : Option String :=
  if 0 ≤ hi ∧ hi ≤ (s.data.length : Int) then some (String.mk (s.data.take hi.toNat)) else none

/-- Go `strings.Trim(s, "/")`: `s` without its leading and trailing slashes. -/
def stringsTrim (s : String) : String :=
  String.mk ((s.data.dropWhile (fun c => c == '/')).reverse.dropWhile (fun c => c == '/')).reverse

/-- Splitting of a character list at every slash; `cur` holds, reversed, the characters of
the piece being read. -/
def splitAux : List Char → List Char → List String
  | [], cur => [String.mk cur.reverse]
  | c :: cs, cur => if c == '/' then String.mk cur.reverse :: splitAux cs [] else splitAux cs (c :: cur)

/-- Go `strings.Split(s, "/")`. The result is never empty: `Split("", "/")` is `[""]`. -/
def stringsSplit (s : String) : List String :=
  splitAux s.data []

/-- Go `contains(str, list)` of `util.go`. -/
def contains (str : String) : List String → Bool
  | [] => false
  | entry :: list => if entry = str then true else contains str list

/-! ## Data model -/

/-- An instant: nanoseconds relative to the Unix epoch (`time.Time`). -/
abbrev Time := Int

/-- Go `time.UnixMilli(msec).UTC()`. -/
def UnixMilli (msec : Int) : Time := msec * 1000000

/-- The zero value `time.Time{}`: 1 January of year 1, 00:00:00 UTC. -/
def zeroTime : Time := -62135596800 * 1000000000

/-- Go `t.IsZero()`. -/
def Time.IsZero (t : Time) : Bool := decide (t = zeroTime)

/-- Go `type ExtractItem struct`, as a function that only reads the memory sees it through
a pointer: `ptr` is the address of the record, the other fields are those of the struct
(`Typ` for `Type`), each pointer replaced by what it points to. -/
inductive ExtractItem where
  | mk (ptr : Nat) (Name Url Typ : String) (Modified Size : Int)
      (Datasets : List (String × List ExtractItem)) (Latest : List (String × ExtractItem))
      (Children : List ExtractItem) (Groups : List String)

namespace ExtractItem

def ptr : ExtractItem → Nat
  | mk p _ _ _ _ _ _ _ _ _ => p

def Name : ExtractItem → String
  | mk _ n _ _ _ _ _ _ _ _ => n

def Url : ExtractItem → String
  | mk _ _ u _ _ _ _ _ _ _ => u

def Typ : ExtractItem → String
  | mk _ _ _ t _ _ _ _ _ _ => t

def Modified : ExtractItem → Int
  | mk _ _ _ _ m _ _ _ _ _ => m

def Size : ExtractItem → Int
  | mk _ _ _ _ _ s _ _ _ _ => s

def Datasets : ExtractItem → List (String × List ExtractItem)
  | mk _ _ _ _ _ _ d _ _ _ => d

def Latest : ExtractItem → List (String × ExtractItem)
  | mk _ _ _ _ _ _ _ l _ _ => l

def Children : ExtractItem → List ExtractItem
  | mk _ _ _ _ _ _ _ _ c _ => c

def Groups : ExtractItem → List String
  | mk _ _ _ _ _ _ _ _ _ g => g

/-- Go `func (e *ExtractItem) IsDirectory() bool`. -/
def IsDirectory (e : ExtractItem) : Bool :=
  decide (e.Typ = "dir")

/-- Go `func (e *ExtractItem) IsDataset() bool`. -/
def IsDataset (e : ExtractItem) : Bool :=
  decide (e.Typ = "file") &&
    !stringsContains e.Name "headers" &&
    stringsContains e.Name "_20"

/-- Go `func (e *ExtractItem) DatasetName() string`: `e.Name[:strings.Index(e.Name, "_20")]`,
which panics when the index is `-1`. -/
def DatasetName (e : ExtractItem) : Option String :=
  sliceTo e.Name (stringsIndex e.Name "_20")

end ExtractItem

/-- Go `type ExtractFile struct`. -/
structure ExtractFile where
  Dataset : String
  Name : String
  Latest : Bool
  Updated : Time
  Item : ExtractItem

/-- Go `error` values a catalog request can end with: the four sentinels of `util.go` that
`GetExtracts` returns, and the errors of the HTTP client, which are none of them. -/
inductive GoError where
  | ErrAuth
  | ErrNoExtract
  | ErrServerError
  | ErrUnknownStatus
  | transport (msg : String)
  deriving DecidableEq, Repr

/-- One element of the JSON array of a listing: the fields of `ExtractItem` that carry a
`json` name (`name`, `url`, `type`, `mtime`, `size`). -/
structure RawItem where
  name : String
  url : String
  type : String
  mtime : Int
  size : Int
  deriving DecidableEq, Repr

/-- What `GetExtracts` reads of a `*resty.Response`: the status code, and `Result`, the
array that the client has decoded into `extracts` (`SetResult(&extracts)`). -/
structure Response where
  StatusCode : Nat
  Result : List RawItem

/-- The method `IsError` of resty's `Response`: `r.StatusCode() > 399`. -/
def Response.IsError (r : Response) : Bool :=
  decide (r.StatusCode > 399)

/-- Go `type ExtractsCache struct`. `Responses` holds, for each URL, the JSON content of
the listing stored under it; it is `none` for the nil map, which a cache file without
`responses` decodes to. -/
structure ExtractsCache where
  Timestamp : Time
  Responses : Option (List (String × List RawItem))
  deriving DecidableEq

/-- Go `type Config struct` of `config.go`. -/
structure Config where
  ApiKey : String
  ApiSecret : String
  ExtractUrl : String
  StorageDirectory : String
  CacheFilename : String
  CacheDurationMinutes : Int

/-- Go `var DefaultConfig`. -/
def DefaultConfig : Config :=
  { ApiKey := "my-api-key"
    ApiSecret := "my-api-secret"
    ExtractUrl := "https://intelligence.speedtest.net/extracts"
    StorageDirectory := "."
    CacheFilename := ".extracts-cache.json"
    CacheDurationMinutes := -1 }

/-! ## Maps -/

/-- Go `m[k]` with the `ok` flag. -/
def mapGet {V : Type} : List (String × V) → String → Option V
  | [], _ => none
  | (k', v) :: m, k => if k' = k then some v else mapGet m k

/-- Go `m[k] = v`. -/
def mapSet {V : Type} : List (String × V) → String → V → List (String × V)
  | [], k, v => [(k, v)]
  | (k', v') :: m, k, v => if k' = k then (k, v) :: m else (k', v') :: mapSet m k v

/-- The keys of a map. -/
def mapKeys {V : Type} (m : List (String × V)) : List String :=
  m.map Prod.fst

/-- An order in which `range` may visit the entries of a map: Go leaves it unspecified. -/
structure MapOrder where
  run : List (String × List ExtractItem) → List (String × List ExtractItem)
  perm : ∀ m, (run m).Perm m

/-- The order of insertion. -/
def MapOrder.insertion : MapOrder :=
  { run := fun m => m
    perm := fun m => List.Perm.refl m }

/-! ## `FilterFiles` -/

/-- Lines 244 to 253 of `FilterFiles`: the loop `for _, g := range groups`, started from
`matched`. -/
def matchGroups (groupFilter : List String) : List String → Bool → Bool
  | [], matched => matched
  | g :: groups, matched => matchGroups groupFilter groups (if contains g groupFilter then true else matched)

/-- Pointer comparison `d == i.Latest[name]`; a missing key gives the nil pointer. -/
def isLatest (i : ExtractItem) (name : String) (d : ExtractItem) : Bool :=
  match mapGet i.Latest name with
  | none => false
  | some latest => decide (d.ptr = latest.ptr)

/-- Lines 260 to 263 of `FilterFiles`: the three nested conditions under which the file `d`
of the dataset `name` of the directory `i` is appended to `files`. -/
def keeps (i : ExtractItem) (name : String) (filenameFilter : List String) (since : Option Time)
    (latestOnly : Bool) (d : ExtractItem) : Bool :=
  (decide (filenameFilter.length = 0) || contains d.Name filenameFilter) &&
  (!latestOnly || isLatest i name d) &&
  (match since with
    | none => true
    | some s => decide (UnixMilli d.Modified = s) || decide (UnixMilli d.Modified > s))

/-- Lines 270 to 276 of `FilterFiles`: the `ExtractFile` appended for the file `d` of the
dataset `name` of the directory `i`. -/
def fileOf (i : ExtractItem) (name : String) (d : ExtractItem) : ExtractFile :=
  { Dataset := name, Name := d.Name, Latest := isLatest i name d,
    Updated := UnixMilli d.Modified, Item := d }

/-- Lines 258 to 280 of `FilterFiles`: the loop `for _, d := range datasets`. -/
def emitFiles (i : ExtractItem) (name : String) (filenameFilter : List String)
    (since : Option Time) (latestOnly : Bool) : List ExtractItem → List ExtractFile → List ExtractFile
  | [], files => files
  | d :: datasets, files =>
    emitFiles i name filenameFilter since latestOnly datasets
      (if keeps i name filenameFilter since latestOnly d then files ++ [fileOf i name d] else files)

/-- Lines 256 to 281 of `FilterFiles`: the loop `for name, datasets := range i.Datasets`,
over the entries in the order chosen for the map. -/
def emitDatasets (i : ExtractItem) (filenameFilter : List String) (since : Option Time)
    (latestOnly : Bool) : List (String × List ExtractItem) → List ExtractFile → List ExtractFile
  | [], files => files
  | (name, datasets) :: m, files =>
    emitDatasets i filenameFilter since latestOnly m
      (emitFiles i name filenameFilter since latestOnly datasets files)

mutual
/-- Lines 240 to 285 of `FilterFiles`: the loop `for _, i := range items`. -/
def filterLoop (o : MapOrder) (groupFilter filenameFilter : List String) (since : Option Time)
    (latestOnly : Bool) : List ExtractItem → List ExtractFile → List ExtractFile
  | [], files => files
  | i :: items, files =>
    filterLoop o groupFilter filenameFilter since latestOnly items
      (filterItem o groupFilter filenameFilter since latestOnly i files)
/-- Lines 241 to 284 of `FilterFiles`: the body of the loop. The recursive call
`FilterFiles(i.Children, ...)` is written as its body: the two statements at its entry, then
the loop. -/
def filterItem (o : MapOrder) (groupFilter filenameFilter : List String) (since : Option Time)
    (latestOnly : Bool) : ExtractItem → List ExtractFile → List ExtractFile
  | ExtractItem.mk p n u t m s ds l c g, files =>
    if t = "dir" then
      let i := ExtractItem.mk p n u t m s ds l c g
      let groups := g
      let matchedGroup := matchGroups groupFilter groups (decide (groupFilter.length = 0))
      let files := if matchedGroup then
          emitDatasets i filenameFilter since latestOnly (o.run ds) files
        else files
      filterLoop o groupFilter filenameFilter since (if since.isSome then false else latestOnly) c files
    else files
end

/-- Go `func FilterFiles(items, groupFilter, filenameFilter, since, latestOnly, files)`. -/
def FilterFiles (o : MapOrder) (items : List ExtractItem) (groupFilter filenameFilter : List String)
    (since : Option Time) (latestOnly : Bool) (files : List ExtractFile) : List ExtractFile :=
  filterLoop o groupFilter filenameFilter since (if since.isSome then false else latestOnly) items files

/-! ## Records in memory -/

/-- An `ExtractItem` in memory: the fields of the struct, a pointer being the address of the
record it points to. Two fields are not in the program, which never reads them: `listing`,
the path whose listing the record was decoded for, and `indexed`, the number of times
line 202 has reset the children of the record. -/
structure Record where
  Name : String
  Url : String
  Typ : String
  Modified : Int
  Size : Int
  Datasets : List (String × List Nat)
  Latest : List (String × Nat)
  Children : List Nat
  Groups : List String
  listing : String
  indexed : Nat

/-- Go `func (e *ExtractItem) IsDirectory() bool`, on a record. -/
def Record.IsDirectory (e : Record) : Bool :=
  decide (e.Typ = "dir")

/-- Go `func (e *ExtractItem) IsDataset() bool`, on a record. -/
def Record.IsDataset (e : Record) : Bool :=
  decide (e.Typ = "file") &&
    !stringsContains e.Name "headers" &&
    stringsContains e.Name "_20"

/-- Go `func (e *ExtractItem) DatasetName() string`, on a record. -/
def Record.DatasetName (e : Record) : Option String :=
  sliceTo e.Name (stringsIndex e.Name "_20")

/-- The memory: the records allocated so far, the address of a record being its position. -/
abbrev Heap := List Record

/-- What stands at an address that holds no record. -/
def Record.zero : Record :=
  { Name := "", Url := "", Typ := "", Modified := 0, Size := 0, Datasets := [], Latest := [],
    Children := [], Groups := [], listing := "", indexed := 0 }

/-- The record at the address `p`. -/
def Heap.read (h : Heap) (p : Nat) : Record :=
  h.getD p Record.zero

/-- The memory after the record at the address `p` has been changed by `f`. -/
def Heap.update : Heap → Nat → (Record → Record) → Heap
  | [], _, _ => []
  | r :: h, 0, f => f r :: h
  | r :: h, p + 1, f => r :: Heap.update h p f

/-- JSON decoding of one element of the listing of `path`: a new record, the fields marked
`json:"-"` at their zero value. -/
def Record.ofRaw (path : String) (r : RawItem) : Record :=
  { Name := r.name, Url := r.url, Typ := r.type, Modified := r.mtime, Size := r.size,
    Datasets := [], Latest := [], Children := [], Groups := [], listing := path, indexed := 0 }

/-- JSON decoding of the listing of `path` into `[]*ExtractItem`: the records are allocated
at the end of the memory; the result is the memory and the addresses of the records. -/
def decode (h : Heap) (path : String) (l : List RawItem) : Heap × List Nat :=
  (h ++ l.map (Record.ofRaw path), List.range' h.length l.length)

/-! ## `GetExtracts` -/

/-- The remote service seen through `client.R().SetResult(&extracts).Get(url)`: from a
state `σ` of the outside world and a URL, the error or the response of the request and the
next state of the world. -/
abbrev Client (σ : Type) := σ → String → Except GoError Response × σ

/-- The state a run of `GetExtracts` reads and writes: the outside world, the cache (`none`
for the nil pointer: caching disabled) and the memory. `served` gives, for each URL whose
listing has been taken from the cache, the addresses of the records of that listing: the
cache holds one slice of pointers for each URL and hands out the same pointers every time.
`again` is not in the program: it records that a listing was taken from the cache that had
been taken from it before. -/
structure Run (σ : Type) where
  world : σ
  cache : Option ExtractsCache
  heap : Heap
  served : List (String × List Nat)
  again : Bool

/-- The state at the start of a run: nothing in memory yet. -/
def Run.start {σ : Type} (world : σ) (cache : Option ExtractsCache) : Run σ :=
  { world := world, cache := cache, heap := [], served := [], again := false }

/-- Result of a call of `GetExtracts`: `none` when the call does not return normally,
otherwise the pair returned (an error, or the addresses of the entries of the listing) and
the state left behind. -/
abbrev Outcome (σ : Type) := Option (Except GoError (List Nat) × Run σ)

/-- Lines 150 to 158 of `GetExtracts`: the listing stored for `url`, when caching is enabled
and an existing cache was found (its timestamp is not zero). -/
def cacheLookup (cache : Option ExtractsCache) (url : String) : Option (List RawItem) :=
  match cache with
  | none => none
  | some c =>
    if !c.Timestamp.IsZero then
      match c.Responses with
      | none => none
      | some responses => mapGet responses url
    else none

/-- Lines 170 to 179 of `GetExtracts`: the error chosen from the status code. -/
def statusError (status : Nat) : GoError :=
  if status = 401 ∨ status = 403 then GoError.ErrAuth
  else if status = 404 then GoError.ErrNoExtract
  else if status = 500 then GoError.ErrServerError
  else GoError.ErrUnknownStatus

/-- Lines 184 to 187 of `GetExtracts`: a fetched listing is recorded and the timestamp of
the cache is reset. The result is the cache left behind, or `none` when the assignment
panics (entry of a nil map). -/
def cacheRecord (cache : Option ExtractsCache) (url : String) (listing : List RawItem) :
    Option (Option ExtractsCache) :=
  match cache with
  | none => some none
  | some c =>
    match c.Responses with
    | none => none
    | some responses =>
      some (some { Timestamp := zeroTime, Responses := some (mapSet responses url listing) })

/-- The split of the trimmed URL: `strings.Split(strings.Trim(url, "/"), "/")`. -/
def groupsOf (url : String) : List String :=
  stringsSplit (stringsTrim url)

/-- Lines 217 to 225 of `GetExtracts`: the dataset file at the address `child`, of dataset
`name`, is recorded in `Datasets` and `Latest` of the directory `dir` (`extracts[i]`);
`latest.Modified` is read in the memory `h`. The nil map is the empty list: `Latest`
receives an entry as soon as it is made, so it is never an empty map that is not nil. -/
def recordDataset (h : Heap) (dir : Record) (name : String) (child : Nat) : Record :=
  let dir := if dir.Latest.isEmpty then { dir with Latest := [], Datasets := [] } else dir
  let dir := { dir with
    Datasets := mapSet dir.Datasets name ((mapGet dir.Datasets name).getD [] ++ [child]) }
  match mapGet dir.Latest name with
  | none => { dir with Latest := mapSet dir.Latest name child }
  | some latest =>
    if dir.Modified > (h.read latest).Modified then
      { dir with Latest := mapSet dir.Latest name child }
    else dir

/-- Lines 204 to 226 of `GetExtracts`: one iteration of `for _, child := range children`,
on the directory at the address `i` (`extracts[i]`), whose URL is `subDir`. -/
def indexChild (subDir : String) (i : Nat) (h : Heap) (child : Nat) : Option Heap :=
  let c := h.read child
  let retained := c.IsDirectory || c.IsDataset
  let h := if retained then
      h.update i (fun e => { e with Children := e.Children ++ [child] })
    else h
  let h := if retained then
      h.update child (fun e => { e with
        Groups := groupsOf (if c.IsDataset then subDir else c.Url) })
    else h
  if c.IsDataset then
    match c.DatasetName with
    | none => none
    | some name => some (h.update i (fun e => recordDataset h e name child))
  else some h

/-- Lines 203 to 227 of `GetExtracts`: the loop `for _, child := range children`. -/
def indexChildren (subDir : String) (i : Nat) : List Nat → Heap → Option Heap
  | [], h => some h
  | child :: children, h =>
    match indexChild subDir i h child with
    | none => none
    | some h => indexChildren subDir i children h

/-- Lines 193 to 195 of `GetExtracts`: the groups of the directory at the address `i` are
set when it has none. -/
def setGroups (h : Heap) (i : Nat) : Heap :=
  if (h.read i).Groups.length = 0 then
    h.update i (fun e => { e with Groups := groupsOf e.Url })
  else h

/-- Line 202 of `GetExtracts`: the children of the directory at the address `i` are reset. -/
def resetChildren (h : Heap) (i : Nat) : Heap :=
  h.update i (fun e => { e with Children := [], indexed := e.indexed + 1 })

/-- Lines 191 to 229 of `GetExtracts`: the loop `for i, e := range extracts`, over the
addresses of the entries; `recur` is the recursive call `GetExtracts(client, subDir, cache)`.
The result is the error returned from inside the loop, if any. -/
def indexLoop {σ : Type} (recur : String → Run σ → Outcome σ) :
    List Nat → Run σ → Option (Option GoError × Run σ)
  | [], st => some (none, st)
  | i :: rest, st =>
    if (st.heap.read i).IsDirectory then
      let st : Run σ := { st with heap := setGroups st.heap i }
      let subDir := (st.heap.read i).Url
      match recur subDir st with
      | none => none
      | some (Except.error err, st) => some (some err, st)
      | some (Except.ok children, st) =>
        match indexChildren subDir i children (resetChildren st.heap i) with
        | none => none
        | some heap => indexLoop recur rest { st with heap := heap }
    else indexLoop recur rest st

/-- Lines 146 to 189 of `GetExtracts`: the listing for `path`, taken from the cache or
requested from the service. A listing taken from the cache is the slice of pointers that
the cache holds for the URL (line 154): its records are given addresses the first time it
is taken, and the same addresses are returned every time after. A listing decoded from a
response is made of new records. -/
def fetchListing {σ : Type} (config : Config) (client : Client σ) (path : String) (st : Run σ) :
    Outcome σ :=
  let url := config.ExtractUrl ++ path
  match cacheLookup st.cache url with
  | some extractItems =>
    match mapGet st.served url with
    | some extracts => some (Except.ok extracts, { st with again := true })
    | none =>
      let (heap, extracts) := decode st.heap path extractItems
      some (Except.ok extracts,
        { st with heap := heap, served := mapSet st.served url extracts })
  | none =>
    match client st.world url with
    | (Except.error err, world) => some (Except.error err, { st with world := world })
    | (Except.ok resp, world) =>
      if path.length = 0 ∧ resp.IsError = true then
        some (Except.error (statusError resp.StatusCode), { st with world := world })
      else
        match cacheRecord st.cache url resp.Result with
        | none => none
        | some cache =>
          let (heap, extracts) := decode st.heap path resp.Result
          some (Except.ok extracts, { st with world := world, cache := cache, heap := heap })

/-- Go `func GetExtracts(client, path, cache)`, with `fuel` bounding the depth of the
recursion: the listing is obtained, then indexed. -/
def GetExtracts {σ : Type} (config : Config) (client : Client σ) :
    Nat → String → Run σ → Outcome σ
  | 0, _, _ => none
  | fuel + 1, path, st =>
    match fetchListing config client path st with
    | none => none
    | some (Except.error err, st) => some (Except.error err, st)
    | some (Except.ok extracts, st) =>
      match indexLoop (GetExtracts config client fuel) extracts st with
      | none => none
      | some (some err, st) => some (Except.error err, st)
      | some (none, st) => some (Except.ok extracts, st)

/-! ## The tree of an address -/

/-- The trees of the addresses `ps`, each given by `f`. -/
def viewList (f : Nat → Option ExtractItem) : List Nat → Option (List ExtractItem)
  | [] => some []
  | p :: ps =>
    match f p, viewList f ps with
    | some e, some es => some (e :: es)
    | _, _ => none

/-- The map `Datasets` of a record, addresses replaced by trees. -/
def viewDatasets (f : Nat → Option ExtractItem) :
    List (String × List Nat) → Option (List (String × List ExtractItem))
  | [] => some []
  | (n, ps) :: m =>
    match viewList f ps, viewDatasets f m with
    | some es, some m => some ((n, es) :: m)
    | _, _ => none

/-- The map `Latest` of a record, addresses replaced by trees. -/
def viewLatest (f : Nat → Option ExtractItem) :
    List (String × Nat) → Option (List (String × ExtractItem))
  | [] => some []
  | (n, p) :: m =>
    match f p, viewLatest f m with
    | some e, some m => some ((n, e) :: m)
    | _, _ => none

/-- The record at the address `p` with everything it points to, as an `ExtractItem` whose
`ptr` is `p`: what a function that only reads the memory, as `FilterFiles` does, sees
through the pointer. `depth` bounds the depth of the tree. -/
def view (h : Heap) : Nat → Nat → Option ExtractItem
  | 0, _ => none
  | depth + 1, p =>
    let r := h.read p
    match viewDatasets (view h depth) r.Datasets, viewLatest (view h depth) r.Latest,
      viewList (view h depth) r.Children with
    | some ds, some l, some c =>
      some (ExtractItem.mk p r.Name r.Url r.Typ r.Modified r.Size ds l c r.Groups)
    | _, _, _ => none

/-- The trees of the addresses of a listing. -/
def viewAll (h : Heap) (depth : Nat) (ps : List Nat) : Option (List ExtractItem) :=
  viewList (view h depth) ps
/-! ## Vocabulary of the properties -/

mutual
/-- The directories of a tree, in the order `FilterFiles` visits them: each directory of the
listing, followed by the directories below it. -/
def directories : List ExtractItem → List ExtractItem
  | [] => []
  | i :: items => directoriesOf i ++ directories items
/-- The directory `i` and the directories below it; nothing when `i` is not a directory. -/
def directoriesOf : ExtractItem → List ExtractItem
  | ExtractItem.mk p n u t m s ds l c g =>
    if t = "dir" then ExtractItem.mk p n u t m s ds l c g :: directories c else []
end

/-- The files `FilterFiles` appends when it visits the directory `d`. -/
def emits (o : MapOrder) (groupFilter filenameFilter : List String) (since : Option Time)
    (latestOnly : Bool) (d : ExtractItem) : List ExtractFile :=
  if matchGroups groupFilter d.Groups (decide (groupFilter.length = 0)) then
    emitDatasets d filenameFilter since latestOnly (o.run d.Datasets) []
  else []

/-- The test `child.IsDataset() && child.DatasetName() == name`. -/
def isNamed (name : String) (c : ExtractItem) : Bool :=
  c.IsDataset && (c.DatasetName == some name)

/-- The pairs (directory of the tree, key of its `Datasets`), directories in the order of
the visit and keys in the order of the iteration. -/
def datasetPairs (o : MapOrder) (tree : List ExtractItem) : List (ExtractItem × String) :=
  (directories tree).flatMap (fun d => (mapKeys (o.run d.Datasets)).map (fun n => (d, n)))

/-- The `ExtractFile` of the entry `d.Latest[n]`, when the key is present. -/
def latestFile (d : ExtractItem) (n : String) : Option ExtractFile :=
  (mapGet d.Latest n).map (fileOf d n)

/-- The fields of a record that the program never changes. -/
def Record.header (r : Record) : String × String × String × Int × Int × String :=
  (r.Name, r.Url, r.Typ, r.Modified, r.Size, r.listing)

/-- The test `child.IsDataset() && child.DatasetName() == name`, on the record at `c`. -/
def Heap.isNamed (h : Heap) (name : String) (c : Nat) : Bool :=
  (h.read c).IsDataset && ((h.read c).DatasetName == some name)

/-- How the program changes the memory, from `h` to `h'`: records are added, the fields
decoded from JSON stay, groups that are set stay, and `indexed` does not decrease. -/
structure Step (h h' : Heap) : Prop where
  length_le : h.length ≤ h'.length
  header : ∀ q, q < h.length → (h'.read q).header = (h.read q).header
  groups : ∀ q, (h.read q).Groups ≠ [] → (h'.read q).Groups = (h.read q).Groups
  indexed : ∀ q, (h.read q).indexed ≤ (h'.read q).indexed

/-- What holds, in every run, of the pointers of a record `r` in the memory `h`: they are
addresses of records; the maps have the same keys; every child that is a dataset file is
in `Datasets` under its name; the entries of `Datasets[n]` are dataset files named `n`, of
the listing of the URL of `r`, with the groups of that URL; `Latest[n]` is an entry of
`Datasets[n]`. When the children of `r` were reset once, `Datasets[n]` is the list of the
children that are dataset files named `n`, and the children are distinct. -/
structure Pointers (h : Heap) (r : Record) : Prop where
  children_lt : ∀ c, c ∈ r.Children → c < h.length
  fresh : r.indexed = 0 → r.Children = [] ∧ r.Datasets = [] ∧ r.Latest = []
  keys_nodup : (mapKeys r.Datasets).Nodup
  keys_eq : mapKeys r.Latest = mapKeys r.Datasets
  listed : ∀ c, c ∈ r.Children → (h.read c).IsDataset = true →
    ∃ name ds, (h.read c).DatasetName = some name ∧ mapGet r.Datasets name = some ds ∧ c ∈ ds
  datasets : ∀ n ds c, mapGet r.Datasets n = some ds → c ∈ ds →
    c < h.length ∧ h.isNamed n c = true ∧ (h.read c).listing = r.Url ∧
      (h.read c).Groups = groupsOf r.Url
  latest : ∀ n l, mapGet r.Latest n = some l → ∃ ds, mapGet r.Datasets n = some ds ∧ l ∈ ds
  once : r.indexed = 1 →
    (∀ n ds, mapGet r.Datasets n = some ds → ds = r.Children.filter (h.isNamed n)) ∧
    (∀ n, mapGet r.Datasets n = none → r.Children.filter (h.isNamed n) = []) ∧
    r.Children.Pairwise (fun a b => a < b)

/-- What holds, in every run, of the groups of a record: when set, they are the split of
the URL of the record (a directory) or of the path of its listing (a dataset file); they
are set in a directory whose children were reset. -/
structure OwnGroups (r : Record) : Prop where
  file : r.IsDataset = true → r.Groups = [] ∨ r.Groups = groupsOf r.listing
  dir : r.IsDirectory = true → r.Groups = [] ∨ r.Groups = groupsOf r.Url
  processed : r.IsDirectory = true → 1 ≤ r.indexed → r.Groups = groupsOf r.Url

/-- What holds of the memory in every run. -/
structure HeapInv (h : Heap) : Prop where
  pointers : ∀ p, Pointers h (h.read p)
  groups : ∀ p, OwnGroups (h.read p)

/-- What holds of a list of addresses that `GetExtracts` returns for `path`: they are
increasing addresses of records of the listing of `path`. -/
structure Listing (h : Heap) (path : String) (ps : List Nat) : Prop where
  lt : ∀ c, c ∈ ps → c < h.length
  listing : ∀ c, c ∈ ps → (h.read c).listing = path
  sorted : ps.Pairwise (fun a b => a < b)

/-- What holds of a state in every run: the memory is well formed, and the listings taken
from the cache are listings of their URL. -/
structure RunInv {σ : Type} (config : Config) (st : Run σ) : Prop where
  heap : HeapInv st.heap
  served : ∀ url ps, mapGet st.served url = some ps →
    ps.Pairwise (fun a b => a < b) ∧
    ∀ c, c ∈ ps → c < st.heap.length ∧ config.ExtractUrl ++ (st.heap.read c).listing = url


/-- What a call that serves no listing a second time does to the counts `indexed`, from
the memory `h` to `h'`: those of the records of `h` stay, and those of the new records are
at most 1. -/
def Frame (h h' : Heap) : Prop :=
  (∀ q, q < h.length → (h'.read q).indexed = (h.read q).indexed) ∧
    (∀ q, h.length ≤ q → (h'.read q).indexed ≤ 1)

/-- What holds when `GetExtracts` for `path`, started in `st`, returns `res` in `st'`. -/
structure Post {σ : Type} (config : Config) (path : String) (st : Run σ)
    (res : Except GoError (List Nat)) (st' : Run σ) : Prop where
  inv : RunInv config st'
  step : Step st.heap st'.heap
  again : st.again = true → st'.again = true
  listing : ∀ ps, res = Except.ok ps → Listing st'.heap path ps
  frame : st'.again = false → Frame st.heap st'.heap

/-- What holds, in every run, of a directory `d` of a tree of `GetExtracts`: the maps have
the same keys; every child that is a dataset file is in `Datasets` under its name; the
entries of `Datasets[n]` are dataset files named `n` with the groups of `d`; `Latest[n]` is
an entry of `Datasets[n]`. -/
structure Listed (d : ExtractItem) : Prop where
  keys_nodup : (mapKeys d.Datasets).Nodup
  keys_eq : mapKeys d.Latest = mapKeys d.Datasets
  listed : ∀ e, e ∈ d.Children → e.IsDataset = true →
    ∃ name ds, e.DatasetName = some name ∧ mapGet d.Datasets name = some ds ∧ e ∈ ds
  datasets : ∀ n ds e, mapGet d.Datasets n = some ds → e ∈ ds →
    isNamed n e = true ∧ e.Groups = d.Groups
  latest : ∀ n l, mapGet d.Latest n = some l → ∃ ds, mapGet d.Datasets n = some ds ∧ l ∈ ds

/-- What holds of a directory `d` whose children were reset at most once: `Datasets[n]` is
the list of the children that are dataset files named `n`, and the children are distinct
entries of one listing. -/
structure Once (d : ExtractItem) : Prop where
  datasets : ∀ n ds, mapGet d.Datasets n = some ds → ds = d.Children.filter (isNamed n)
  ptrs : (d.Children.map ExtractItem.ptr).Pairwise (fun a b => a < b)
/-! ## The cache file (`ReadExtractsCache`, `WriteExtractsCache`) -/

/-- The largest `time.Duration`, in nanoseconds. -/
def maxDuration : Int := 9223372036854775807

/-- The smallest `time.Duration`, in nanoseconds. -/
def minDuration : Int := -9223372036854775808

/-- Go `t.Sub(u)`: the duration `t - u`, or the largest (smallest) duration when the
difference does not fit in a `Duration`. -/
def Time.Sub (t u : Time) : Int :=
  if t - u > maxDuration then maxDuration
  else if t - u < minDuration then minDuration
  else t - u

/-- The value of an `int64` computation whose exact result is `x`: it wraps around. -/
def wrapInt64 (x : Int) : Int :=
  (x + 9223372036854775808) % 18446744073709551616 - 9223372036854775808

/-- Go `time.Duration(config.CacheDurationMinutes)*time.Minute`, in nanoseconds. -/
def cacheDuration (config : Config) : Int :=
  wrapInt64 (config.CacheDurationMinutes * 60000000000)

/-- What `os.ReadFile` and `json.Unmarshal` make of the cache file: the file cannot be read,
its content is not the JSON of an `ExtractsCache`, its content is the JSON value `null`
(decoding succeeds and leaves the pointer nil), or it decodes to a snapshot. -/
inductive CacheFile where
  | unreadable
  | malformed
  | null
  | snapshot (c : ExtractsCache)
  deriving DecidableEq

/-- The cache `ReadExtractsCache` starts when it finds no valid one: a zero timestamp and
an empty map. -/
def newCache : ExtractsCache :=
  { Timestamp := zeroTime, Responses := some [] }

/-- Go `func ReadExtractsCache() *ExtractsCache`, at the time `now` and on the cache file
`file`. The inner `none` is the nil pointer (caching disabled); the outer `none` is the
panic of `cache.Timestamp` on the nil pointer that the JSON value `null` decodes to. -/
def ReadExtractsCache (config : Config) (now : Time) (file : CacheFile) :
    Option (Option ExtractsCache) :=
  if config.CacheDurationMinutes > 0 then
    match file with
    | CacheFile.unreadable => some (some newCache)
    | CacheFile.malformed => some (some newCache)
    | CacheFile.null => none
    | CacheFile.snapshot cache =>
      let cacheDiff := Time.Sub now cache.Timestamp
      if cacheDiff < cacheDuration config then some (some cache) else some (some newCache)
  else some none

/-- Whether `json.Marshal` accepts the time `t`: its year is in the range 0 to 9999. -/
def marshalOk (t : Time) : Bool :=
  decide (-62167219200 * 1000000000 ≤ t ∧ t < 253402300800 * 1000000000)

/-- Go `func WriteExtractsCache(cache *ExtractsCache)`, at the time `now`: the cache and
the cache file it leaves. `writeFile out file` is the file that `os.WriteFile` leaves when
asked to write the snapshot `out` over `file`; its failures are ignored. -/
def WriteExtractsCache (config : Config) (now : Time)
    (writeFile : ExtractsCache → CacheFile → CacheFile) (cache : Option ExtractsCache)
    (file : CacheFile) : Option ExtractsCache × CacheFile :=
  if config.CacheDurationMinutes > 0 then
    match cache with
    | none => (none, file)
    | some c =>
      if c.Timestamp.IsZero then
        let out : ExtractsCache := { Timestamp := now, Responses := c.Responses }
        (some out, if marshalOk now then writeFile out file else file)
      else (some c, file)
  else (cache, file)

/-- An `os.WriteFile` that succeeds. -/
def writeFileOk : ExtractsCache → CacheFile → CacheFile :=
  fun out _ => CacheFile.snapshot out

/-- Lines 263 to 270 of `ExtractHandler`: the cache is read, the tree is built from the
root, and the cache is written when the tree was built without error. The result is what
`GetExtracts` returned and the cache file left behind. -/
def ExtractHandlerTree {σ : Type} (config : Config) (client : Client σ)
    (writeFile : ExtractsCache → CacheFile → CacheFile) (fuel : Nat) (readTime writeTime : Time)
    (world : σ) (file : CacheFile) : Option (Except GoError (List Nat) × CacheFile) :=
  match ReadExtractsCache config readTime file with
  | none => none
  | some cache =>
    match GetExtracts config client fuel "" (Run.start world cache) with
    | none => none
    | some (Except.error err, _) => some (Except.error err, file)
    | some (Except.ok extracts, st) =>
      some (Except.ok extracts, (WriteExtractsCache config writeTime writeFile st.cache file).2)

/-! ## The counts of the downloads (`ExtractHandler`) -/

/-- Modelled from the spec: the Go type `DownloadResult`, which `main.go` uses (fields
`success` and `err`) and no file under `src/` declares. A Download Outcome is, per file, a
success flag and an optional error. -/
structure DownloadResult where
  success : Bool
  err : Option GoError

/-- The three counters of `ExtractHandler`. -/
structure DownloadCounts where
  downloaded : Nat
  skipped : Nat
  errors : Nat
  deriving DecidableEq, Repr

/-- Lines 337 to 348 of `ExtractHandler`: the loop `for result := range resultChan`, over
the results in the order they leave the channel. -/
def countResults : List DownloadResult → DownloadCounts → DownloadCounts
  | [], counts => counts
  | result :: results, counts =>
    countResults results
      (match result.err with
        | some _ => { counts with errors := counts.errors + 1 }
        | none =>
          if result.success then { counts with downloaded := counts.downloaded + 1 }
          else { counts with skipped := counts.skipped + 1 })

/-- Lines 334 to 348 of `ExtractHandler`: the counters start at zero. -/
def ExtractHandlerCounts (results : List DownloadResult) : DownloadCounts :=
  countResults results { downloaded := 0, skipped := 0, errors := 0 }

/-- How a call of `GetExtracts` may leave the cache `after`, from the cache `before`: as it
was, or with a zero timestamp. -/
def CacheStep (before after : Option ExtractsCache) : Prop :=
  after = before ∨ ∃ c, after = some c ∧ c.Timestamp = zeroTime


/-! ## Concrete inputs -/

/-- A dataset file of the `android` dataset. -/
def sampleFile : ExtractItem :=
  ExtractItem.mk 0 "android_2022-05-01.zip" "/android/a" "file" 1651363200000 10 [] [] [] []

/-- A configuration with a short base URL. -/
def sampleConfig : Config :=
  { ApiKey := "key", ApiSecret := "secret", ExtractUrl := "http://h/extracts",
    StorageDirectory := ".", CacheFilename := ".extracts-cache.json", CacheDurationMinutes := -1 }

/-- The start of a run with caching disabled. -/
def sampleStart : Run Unit :=
  Run.start () none

/-- A service with two directories and one dataset file at the root. The listing of
`/android/` gives the newer file first; the directories are newer than their files. -/
def sampleClient : Client Unit := fun w url =>
  if url = "http://h/extracts" then
    (Except.ok { StatusCode := 200, Result := [
      { name := "android", url := "/android/", type := "dir", mtime := 3000, size := 0 },
      { name := "desktop", url := "/desktop/", type := "dir", mtime := 3000, size := 0 },
      { name := "summary_2022-05-01.zip", url := "/summary_2022-05-01.zip", type := "file",
        mtime := 2500, size := 7 }] }, w)
  else if url = "http://h/extracts/android/" then
    (Except.ok { StatusCode := 200, Result := [
      { name := "android_2022-05-01.zip", url := "/android/android_2022-05-01.zip",
        type := "file", mtime := 2000, size := 10 },
      { name := "android_2022-04-01.zip", url := "/android/android_2022-04-01.zip",
        type := "file", mtime := 1000, size := 10 },
      { name := "android_headers_2022.csv", url := "/android/android_headers_2022.csv",
        type := "file", mtime := 1000, size := 1 }] }, w)
  else if url = "http://h/extracts/desktop/" then
    (Except.ok { StatusCode := 200, Result := [
      { name := "desktop_2022-04-01.zip", url := "/desktop/desktop_2022-04-01.zip",
        type := "file", mtime := 1000, size := 10 }] }, w)
  else (Except.error (GoError.transport "no route"), w)

/-- The addresses `GetExtracts` returns for the root of `sampleClient`. -/
def samplePtrs : List Nat := [0, 1, 2]

/-- The state in which `GetExtracts` returns for the root of `sampleClient`: the records
of the root listing at the addresses 0 to 2, those of `/android/` at 3 to 5, that of
`/desktop/` at 6. -/
def sampleEnd : Run Unit :=
  { world := (), cache := none, served := [], again := false,
    heap := [
      { Name := "android", Url := "/android/", Typ := "dir", Modified := 3000, Size := 0,
        Datasets := [("android", [3, 4])], Latest := [("android", 4)], Children := [3, 4],
        Groups := ["android"], listing := "", indexed := 1 },
      { Name := "desktop", Url := "/desktop/", Typ := "dir", Modified := 3000, Size := 0,
        Datasets := [("desktop", [6])], Latest := [("desktop", 6)], Children := [6],
        Groups := ["desktop"], listing := "", indexed := 1 },
      { Name := "summary_2022-05-01.zip", Url := "/summary_2022-05-01.zip", Typ := "file",
        Modified := 2500, Size := 7, Datasets := [], Latest := [], Children := [],
        Groups := [], listing := "", indexed := 0 },
      { Name := "android_2022-05-01.zip", Url := "/android/android_2022-05-01.zip",
        Typ := "file", Modified := 2000, Size := 10, Datasets := [], Latest := [],
        Children := [], Groups := ["android"], listing := "/android/", indexed := 0 },
      { Name := "android_2022-04-01.zip", Url := "/android/android_2022-04-01.zip",
        Typ := "file", Modified := 1000, Size := 10, Datasets := [], Latest := [],
        Children := [], Groups := ["android"], listing := "/android/", indexed := 0 },
      { Name := "android_headers_2022.csv", Url := "/android/android_headers_2022.csv",
        Typ := "file", Modified := 1000, Size := 1, Datasets := [], Latest := [],
        Children := [], Groups := [], listing := "/android/", indexed := 0 },
      { Name := "desktop_2022-04-01.zip", Url := "/desktop/desktop_2022-04-01.zip",
        Typ := "file", Modified := 1000, Size := 10, Datasets := [], Latest := [],
        Children := [], Groups := ["desktop"], listing := "/desktop/", indexed := 0 }] }

/-- The newer file of `/android/`, seen at the address 3 of `sampleEnd`. -/
def sampleChild : ExtractItem :=
  ExtractItem.mk 3 "android_2022-05-01.zip" "/android/android_2022-05-01.zip" "file" 2000 10
    [] [] [] ["android"]

/-- The older file of `/android/`, seen at the address 4 of `sampleEnd`. -/
def sampleOlder : ExtractItem :=
  ExtractItem.mk 4 "android_2022-04-01.zip" "/android/android_2022-04-01.zip" "file" 1000 10
    [] [] [] ["android"]

/-- The file of `/desktop/`, seen at the address 6 of `sampleEnd`. -/
def sampleDesktopFile : ExtractItem :=
  ExtractItem.mk 6 "desktop_2022-04-01.zip" "/desktop/desktop_2022-04-01.zip" "file" 1000 10
    [] [] [] ["desktop"]

/-- The directory `android`, seen at the address 0 of `sampleEnd`. -/
def sampleDir : ExtractItem :=
  ExtractItem.mk 0 "android" "/android/" "dir" 3000 0
    [("android", [sampleChild, sampleOlder])] [("android", sampleOlder)]
    [sampleChild, sampleOlder] ["android"]

/-- The directory `desktop`, seen at the address 1 of `sampleEnd`. -/
def sampleDesktop : ExtractItem :=
  ExtractItem.mk 1 "desktop" "/desktop/" "dir" 3000 0
    [("desktop", [sampleDesktopFile])] [("desktop", sampleDesktopFile)]
    [sampleDesktopFile] ["desktop"]

/-- The file `summary_2022-05-01.zip` of the root listing, seen at the address 2 of
`sampleEnd`. -/
def sampleRootFile : ExtractItem :=
  ExtractItem.mk 2 "summary_2022-05-01.zip" "/summary_2022-05-01.zip" "file" 2500 7
    [] [] [] []

/-- The tree `GetExtracts` returns for the root of `sampleClient`: what is seen at the
addresses `samplePtrs` of `sampleEnd`. -/
def sampleTree : List ExtractItem :=
  [sampleDir, sampleDesktop, sampleRootFile]

/-- A service that answers the root request with status 304 and no body. -/
def notModifiedClient : Client Unit := fun w _ =>
  (Except.ok { StatusCode := 304, Result := [] }, w)

/-- A service whose root lists one directory and that answers the request for the listing
of that directory with status 404. -/
def missingDirClient : Client Unit := fun w url =>
  if url = "http://h/extracts" then
    (Except.ok { StatusCode := 200, Result := [
      { name := "android", url := "/android/", type := "dir", mtime := 3000, size := 0 }] }, w)
  else (Except.ok { StatusCode := 404, Result := [] }, w)

/-- A service whose root lists two directories; the request for the second one fails. -/
def failingClient : Client Unit := fun w url =>
  if url = "http://h/extracts" then
    (Except.ok { StatusCode := 200, Result := [
      { name := "android", url := "/android/", type := "dir", mtime := 3000, size := 0 },
      { name := "desktop", url := "/desktop/", type := "dir", mtime := 3000, size := 0 }] }, w)
  else if url = "http://h/extracts/android/" then
    (Except.ok { StatusCode := 200, Result := [
      { name := "android_2022-05-01.zip", url := "/android/android_2022-05-01.zip",
        type := "file", mtime := 2000, size := 10 }] }, w)
  else (Except.error (GoError.transport "timeout"), w)

/-- The state of the root call for `failingClient` when the root listing is decoded:
the two directories at the addresses 0 and 1. -/
def failingFetched : Run Unit :=
  { world := (), cache := none, served := [], again := false,
    heap := [
      { Name := "android", Url := "/android/", Typ := "dir", Modified := 3000, Size := 0,
        Datasets := [], Latest := [], Children := [], Groups := [], listing := "",
        indexed := 0 },
      { Name := "desktop", Url := "/desktop/", Typ := "dir", Modified := 3000, Size := 0,
        Datasets := [], Latest := [], Children := [], Groups := [], listing := "",
        indexed := 0 }] }

/-- The state of the root call for `failingClient` when the directory `android` is
indexed: its file is at the address 2. -/
def failingIndexed : Run Unit :=
  { world := (), cache := none, served := [], again := false,
    heap := [
      { Name := "android", Url := "/android/", Typ := "dir", Modified := 3000, Size := 0,
        Datasets := [("android", [2])], Latest := [("android", 2)], Children := [2],
        Groups := ["android"], listing := "", indexed := 1 },
      { Name := "desktop", Url := "/desktop/", Typ := "dir", Modified := 3000, Size := 0,
        Datasets := [], Latest := [], Children := [], Groups := [], listing := "",
        indexed := 0 },
      { Name := "android_2022-05-01.zip", Url := "/android/android_2022-05-01.zip",
        Typ := "file", Modified := 2000, Size := 10, Datasets := [], Latest := [],
        Children := [], Groups := ["android"], listing := "/android/", indexed := 0 }] }

/-- The state in which the root call for `failingClient` returns: that of
`failingIndexed` with the groups of the directory `desktop` set. -/
def failingEnd : Run Unit :=
  { world := (), cache := none, served := [], again := false,
    heap := [
      { Name := "android", Url := "/android/", Typ := "dir", Modified := 3000, Size := 0,
        Datasets := [("android", [2])], Latest := [("android", 2)], Children := [2],
        Groups := ["android"], listing := "", indexed := 1 },
      { Name := "desktop", Url := "/desktop/", Typ := "dir", Modified := 3000, Size := 0,
        Datasets := [], Latest := [], Children := [], Groups := ["desktop"], listing := "",
        indexed := 0 },
      { Name := "android_2022-05-01.zip", Url := "/android/android_2022-05-01.zip",
        Typ := "file", Modified := 2000, Size := 10, Datasets := [], Latest := [],
        Children := [], Groups := ["android"], listing := "/android/", indexed := 0 }] }

/-- The state in which the root call for `missingDirClient` returns: the directory
`android`, at the address 0, is indexed and has no children. -/
def missingDirEnd : Run Unit :=
  { world := (), cache := none, served := [], again := false,
    heap := [
      { Name := "android", Url := "/android/", Typ := "dir", Modified := 3000, Size := 0,
        Datasets := [], Latest := [], Children := [], Groups := ["android"], listing := "",
        indexed := 1 }] }

/-- A service that answers every request with status 403. -/
def forbiddenClient : Client Unit := fun w _ =>
  (Except.ok { StatusCode := 403, Result := [] }, w)

/-- The first file `FilterFiles` returns on `sampleTree` for the group filter `android`. -/
def sampleMatch : ExtractFile :=
  match FilterFiles MapOrder.insertion sampleTree ["android"] [] none false [] with
  | f :: _ => f
  | [] => fileOf sampleFile "" sampleFile

/-- The first file `FilterFiles` returns on `sampleTree` for the cutoff 1500 ms. -/
def sampleRecent : ExtractFile :=
  match FilterFiles MapOrder.insertion sampleTree [] [] (some (UnixMilli 1500)) true [] with
  | f :: _ => f
  | [] => fileOf sampleFile "" sampleFile

/-- The first file `FilterFiles` returns on `sampleTree` for the filename filter of two
names, with `latestOnly`. -/
def sampleNamed : ExtractFile :=
  match FilterFiles MapOrder.insertion sampleTree []
      ["android_2022-04-01.zip", "desktop_2022-04-01.zip"] none true [] with
  | f :: _ => f
  | [] => fileOf sampleFile "" sampleFile

/-- The configuration `sampleConfig` with a cache of one hour. -/
def cachingConfig : Config :=
  { ApiKey := "key", ApiSecret := "secret", ExtractUrl := "http://h/extracts",
    StorageDirectory := ".", CacheFilename := ".extracts-cache.json", CacheDurationMinutes := 60 }

/-- The time at which the snapshots below were written: 14 November 2023. -/
def snapshotTime : Time := 1700000000 * 1000000000

/-- One minute after `snapshotTime`: the time of `ReadExtractsCache`. -/
def readTime : Time := 1700000060 * 1000000000

/-- Two minutes after `snapshotTime`: the time of `WriteExtractsCache`. -/
def writeTime : Time := 1700000120 * 1000000000

/-- A snapshot written under another base URL: it holds no listing for `cachingConfig`. -/
def otherSnapshot : ExtractsCache :=
  { Timestamp := snapshotTime,
    Responses := some [("http://old/extracts", [
      { name := "summary_2022-05-01.zip", url := "/summary_2022-05-01.zip", type := "file",
        mtime := 2500, size := 7 }])] }

/-- A snapshot that holds every listing of the tree of `cachingConfig`. -/
def fullSnapshot : ExtractsCache :=
  { Timestamp := snapshotTime,
    Responses := some [
      ("http://h/extracts", [
        { name := "android", url := "/android/", type := "dir", mtime := 3000, size := 0 }]),
      ("http://h/extracts/android/", [
        { name := "android_2022-05-01.zip", url := "/android/android_2022-05-01.zip",
          type := "file", mtime := 2000, size := 10 }])] }

/-- The state in which `GetExtracts` returns for the root of `fullSnapshot`. -/
def cachedEnd : Run Unit :=
  { world := (), cache := some fullSnapshot, again := false,
    served := [("http://h/extracts", [0]), ("http://h/extracts/android/", [1])],
    heap := [
      { Name := "android", Url := "/android/", Typ := "dir", Modified := 3000, Size := 0,
        Datasets := [("android", [1])], Latest := [("android", 1)], Children := [1],
        Groups := ["android"], listing := "", indexed := 1 },
      { Name := "android_2022-05-01.zip", Url := "/android/android_2022-05-01.zip",
        Typ := "file", Modified := 2000, Size := 10, Datasets := [], Latest := [],
        Children := [], Groups := ["android"], listing := "/android/", indexed := 0 }] }

/-- A snapshot in which two directories of the root listing have the same URL `/a/`: the
listing of `/a/` holds the directory `b`, older than its files, and the listing of `/a/b/`
holds two files of the dataset `android`. -/
def sharedSnapshot : ExtractsCache :=
  { Timestamp := snapshotTime,
    Responses := some [
      ("http://h/extracts", [
        { name := "a1", url := "/a/", type := "dir", mtime := 3000, size := 0 },
        { name := "a2", url := "/a/", type := "dir", mtime := 3000, size := 0 }]),
      ("http://h/extracts/a/", [
        { name := "b", url := "/a/b/", type := "dir", mtime := 500, size := 0 }]),
      ("http://h/extracts/a/b/", [
        { name := "android_2022-05-01.zip", url := "/a/b/android_2022-05-01.zip",
          type := "file", mtime := 2000, size := 10 },
        { name := "android_2022-04-01.zip", url := "/a/b/android_2022-04-01.zip",
          type := "file", mtime := 1000, size := 10 }])] }

/-- The state in which `GetExtracts` returns for the root of `sharedSnapshot`: the listing
of `/a/` was taken from the cache twice, and the children of the directory `b`, at the
address 2, were reset twice. -/
def sharedEnd : Run Unit :=
  { world := (), cache := some sharedSnapshot, again := true,
    served := [("http://h/extracts", [0, 1]), ("http://h/extracts/a/", [2]),
      ("http://h/extracts/a/b/", [3, 4])],
    heap := [
      { Name := "a1", Url := "/a/", Typ := "dir", Modified := 3000, Size := 0,
        Datasets := [], Latest := [], Children := [2], Groups := ["a"], listing := "",
        indexed := 1 },
      { Name := "a2", Url := "/a/", Typ := "dir", Modified := 3000, Size := 0,
        Datasets := [], Latest := [], Children := [2], Groups := ["a"], listing := "",
        indexed := 1 },
      { Name := "b", Url := "/a/b/", Typ := "dir", Modified := 500, Size := 0,
        Datasets := [("android", [3, 4, 3, 4])], Latest := [("android", 3)],
        Children := [3, 4], Groups := ["a", "b"], listing := "/a/", indexed := 2 },
      { Name := "android_2022-05-01.zip", Url := "/a/b/android_2022-05-01.zip",
        Typ := "file", Modified := 2000, Size := 10, Datasets := [], Latest := [],
        Children := [], Groups := ["a", "b"], listing := "/a/b/", indexed := 0 },
      { Name := "android_2022-04-01.zip", Url := "/a/b/android_2022-04-01.zip",
        Typ := "file", Modified := 1000, Size := 10, Datasets := [], Latest := [],
        Children := [], Groups := ["a", "b"], listing := "/a/b/", indexed := 0 }] }

/-- The newer file of `/a/b/`, seen at the address 3 of `sharedEnd`. -/
def sharedChild : ExtractItem :=
  ExtractItem.mk 3 "android_2022-05-01.zip" "/a/b/android_2022-05-01.zip" "file" 2000 10
    [] [] [] ["a", "b"]

/-- The older file of `/a/b/`, seen at the address 4 of `sharedEnd`. -/
def sharedOlder : ExtractItem :=
  ExtractItem.mk 4 "android_2022-04-01.zip" "/a/b/android_2022-04-01.zip" "file" 1000 10
    [] [] [] ["a", "b"]

/-- The directory `b`, seen at the address 2 of `sharedEnd`. -/
def sharedDir : ExtractItem :=
  ExtractItem.mk 2 "b" "/a/b/" "dir" 500 0
    [("android", [sharedChild, sharedOlder, sharedChild, sharedOlder])]
    [("android", sharedChild)] [sharedChild, sharedOlder] ["a", "b"]

/-- The tree `GetExtracts` returns for the root of `sharedSnapshot`: what is seen at the
addresses 0 and 1 of `sharedEnd`, the two directories of the root listing, each with the
directory `b` as its only child. -/
def sharedTree : List ExtractItem :=
  [ExtractItem.mk 0 "a1" "/a/" "dir" 3000 0 [] [] [sharedDir] ["a"],
   ExtractItem.mk 1 "a2" "/a/" "dir" 3000 0 [] [] [sharedDir] ["a"]]

/-! ## Dataset names -/

theorem indexFrom_some (sub : List Char) : ∀ (s : List Char) (i j : Nat),
    indexFrom sub s i = some j →
    ∃ k, j = i + k ∧ k ≤ s.length ∧ sub <+: s.drop k ∧ ∀ k', k' < k → ¬ sub <+: s.drop k'
  | [], i, j, h => by
    unfold indexFrom at h
    split at h
    · rename_i hp
      refine ⟨0, by simpa using (Option.some.inj h).symm, by simp, ?_, by simp⟩
      simpa [List.isPrefixOf_iff_prefix] using hp
    · simp at h
  | c :: cs, i, j, h => by
    unfold indexFrom at h
    split at h
    · rename_i hp
      refine ⟨0, by simpa using (Option.some.inj h).symm, by simp, ?_, by simp⟩
      simpa [List.isPrefixOf_iff_prefix] using hp
    · rename_i hp
      obtain ⟨k, hj, hk, hpre, hmin⟩ := indexFrom_some sub cs (i + 1) j h
      refine ⟨k + 1, by omega, by simp; omega, by simpa using hpre, ?_⟩
      intro k' hk'
      cases k' with
      | zero => simpa [List.isPrefixOf_iff_prefix] using hp
      | succ n => simpa using hmin n (by omega)

theorem stringsContains_iff (s sub : String) :
    stringsContains s sub = true ↔ ∃ j, indexFrom sub.data s.data 0 = some j := by
  unfold stringsContains stringsIndex
  cases h : indexFrom sub.data s.data 0 with
  | none => simp
  | some j => simp

/-- A dataset file has a dataset name: `DatasetName` does not panic on it. -/
theorem DatasetName_defined (e : ExtractItem) (h : e.IsDataset = true) :
    ∃ name, e.DatasetName = some name := by
  have hc : stringsContains e.Name "_20" = true := by
    unfold ExtractItem.IsDataset at h
    simp only [Bool.and_eq_true] at h
    exact h.2
  obtain ⟨j, hj⟩ := (stringsContains_iff _ _).1 hc
  obtain ⟨k, hjk, hk, _, _⟩ := indexFrom_some _ _ _ _ hj
  have hidx : stringsIndex e.Name "_20" = (k : Int) := by
    unfold stringsIndex
    rw [hj]
    simp [hjk]
  refine ⟨String.mk (e.Name.data.take k), ?_⟩
  unfold ExtractItem.DatasetName sliceTo
  rw [hidx]
  have hk2 : (k : Int) ≤ (e.Name.data.length : Int) := by exact_mod_cast hk
  rw [if_pos ⟨by omega, hk2⟩]
  simp

/-- C9: for every entry that is a dataset file, `strings.Index(e.Name, "_20")` is not `-1`,
`DatasetName` is defined, and it is the part of the name before the first occurrence of
`_20`: the name is `DatasetName ++ "_20" ++ rest`, and `_20` does not occur at any position
before the length of `DatasetName`. -/
theorem DatasetName_of_IsDataset (e : ExtractItem) (h : e.IsDataset = true) :
    stringsIndex e.Name "_20" ≠ -1 ∧
    ∃ name rest : String, e.DatasetName = some name ∧ e.Name = name ++ "_20" ++ rest ∧
      ∀ k, k < name.length → ¬ ("_20".data <+: e.Name.data.drop k) := by
  have hc : stringsContains e.Name "_20" = true := by
    unfold ExtractItem.IsDataset at h
    simp only [Bool.and_eq_true] at h
    exact h.2
  obtain ⟨j, hj⟩ := (stringsContains_iff _ _).1 hc
  obtain ⟨k, hjk, hk, hpre, hmin⟩ := indexFrom_some _ _ _ _ hj
  have hidx : stringsIndex e.Name "_20" = (k : Int) := by
    unfold stringsIndex
    rw [hj]
    simp [hjk]
  obtain ⟨t, ht⟩ := hpre
  refine ⟨by rw [hidx]; omega, String.mk (e.Name.data.take k), String.mk t, ?_, ?_, ?_⟩
  · unfold ExtractItem.DatasetName sliceTo
    rw [hidx]
    have hk2 : (k : Int) ≤ (e.Name.data.length : Int) := by exact_mod_cast hk
    rw [if_pos ⟨by omega, hk2⟩]
    simp
  · apply String.ext
    simp only [String.data_append]
    rw [List.append_assoc, ht, List.take_append_drop]
  · intro k' hk'
    apply hmin
    have hlen : (String.mk (e.Name.data.take k)).length = (e.Name.data.take k).length := rfl
    rw [hlen, List.length_take] at hk'
    omega

theorem DatasetName_of_IsDataset_witness :
    sampleFile.IsDataset = true ∧
    (stringsIndex sampleFile.Name "_20" ≠ -1 ∧
      ∃ name rest : String, sampleFile.DatasetName = some name ∧
        sampleFile.Name = name ++ "_20" ++ rest ∧
        ∀ k, k < name.length → ¬ ("_20".data <+: sampleFile.Name.data.drop k)) :=
  ⟨by decide, DatasetName_of_IsDataset sampleFile (by decide)⟩

/-! ## `FilterFiles` as a list of emissions -/

theorem emitFiles_eq (i : ExtractItem) (name : String) (ff : List String) (since : Option Time)
    (lo : Bool) : ∀ (ds : List ExtractItem) (files : List ExtractFile),
    emitFiles i name ff since lo ds files
      = files ++ (ds.filter (keeps i name ff since lo)).map (fileOf i name)
  | [], files => by simp [emitFiles]
  | d :: ds, files => by
    rw [emitFiles, emitFiles_eq i name ff since lo ds]
    by_cases h : keeps i name ff since lo d = true
    · simp [h, List.filter_cons]
    · simp [h, List.filter_cons]

theorem emitDatasets_eq (i : ExtractItem) (ff : List String) (since : Option Time) (lo : Bool) :
    ∀ (m : List (String × List ExtractItem)) (files : List ExtractFile),
    emitDatasets i ff since lo m files
      = files ++ m.flatMap (fun kv => (kv.2.filter (keeps i kv.1 ff since lo)).map (fileOf i kv.1))
  | [], files => by simp [emitDatasets]
  | (name, ds) :: m, files => by
    rw [emitDatasets, emitDatasets_eq i ff since lo m, emitFiles_eq]
    simp [List.append_assoc]

/-- Clearing of `latestOnly` at the entry of `FilterFiles`. -/
theorem norm_idem (since : Option Time) (lo : Bool) :
    (if since.isSome then false else (if since.isSome then false else lo))
      = (if since.isSome then false else lo) := by
  cases since <;> simp

mutual
theorem filterLoop_eq (o : MapOrder) (gf ff : List String) (since : Option Time) (lo : Bool)
    (hlo : (if since.isSome then false else lo) = lo) :
    ∀ (items : List ExtractItem) (files : List ExtractFile),
    filterLoop o gf ff since lo items files
      = files ++ (directories items).flatMap (emits o gf ff since lo)
  | [], files => by simp [filterLoop, directories]
  | i :: items, files => by
    rw [filterLoop, filterItem_eq o gf ff since lo hlo i, filterLoop_eq o gf ff since lo hlo items]
    simp [directories, List.append_assoc]
theorem filterItem_eq (o : MapOrder) (gf ff : List String) (since : Option Time) (lo : Bool)
    (hlo : (if since.isSome then false else lo) = lo) :
    ∀ (i : ExtractItem) (files : List ExtractFile),
    filterItem o gf ff since lo i files
      = files ++ (directoriesOf i).flatMap (emits o gf ff since lo)
  | ExtractItem.mk p n u t m s ds l c g, files => by
    rw [filterItem, directoriesOf]
    by_cases ht : t = "dir"
    · simp only [ht, if_true]
      rw [hlo, filterLoop_eq o gf ff since lo hlo c]
      simp only [List.flatMap_cons, emits, ExtractItem.Groups, ExtractItem.Datasets]
      split
      · rw [emitDatasets_eq _ _ _ _ _ files, emitDatasets_eq _ _ _ _ _ []]
        simp [List.append_assoc]
      · simp
    · simp [ht]
end

theorem FilterFiles_eq (o : MapOrder) (items : List ExtractItem) (gf ff : List String)
    (since : Option Time) (lo : Bool) (files : List ExtractFile) :
    FilterFiles o items gf ff since lo files
      = files ++ (directories items).flatMap
          (emits o gf ff since (if since.isSome then false else lo)) := by
  unfold FilterFiles
  exact filterLoop_eq o gf ff since _ (norm_idem since lo) items files

/-- The recursive call in the body of the loop is a call of `FilterFiles`. -/
theorem filterLoop_eq_FilterFiles (o : MapOrder) (gf ff : List String) (since : Option Time)
    (lo : Bool) (items : List ExtractItem) (files : List ExtractFile) :
    filterLoop o gf ff since (if since.isSome then false else lo) items files
      = FilterFiles o items gf ff since lo files := rfl

theorem mem_emits {o : MapOrder} {gf ff : List String} {since : Option Time} {lo : Bool}
    {d : ExtractItem} {f : ExtractFile} :
    f ∈ emits o gf ff since lo d ↔
      matchGroups gf d.Groups (decide (gf.length = 0)) = true ∧
      ∃ name ds x, (name, ds) ∈ d.Datasets ∧ x ∈ ds ∧ keeps d name ff since lo x = true ∧
        f = fileOf d name x := by
  unfold emits
  by_cases hm : matchGroups gf d.Groups (decide (gf.length = 0)) = true
  · simp only [hm, if_true, true_and, emitDatasets_eq, List.nil_append, List.mem_flatMap,
      List.mem_map, List.mem_filter]
    constructor
    · rintro ⟨⟨name, ds⟩, hkv, x, ⟨hx, hk⟩, rfl⟩
      exact ⟨name, ds, x, (o.perm _).mem_iff.1 hkv, hx, hk, rfl⟩
    · rintro ⟨name, ds, x, hkv, hx, hk, rfl⟩
      exact ⟨(name, ds), (o.perm _).mem_iff.2 hkv, x, ⟨hx, hk⟩, rfl⟩
  · rw [if_neg hm]
    constructor
    · intro h
      cases h
    · rintro ⟨h, _⟩
      exact absurd h hm
/-- C6: with a cutoff `s`, for every tree and every group filter, filename filter and
`latestOnly`, each file returned by `FilterFiles` has `Updated` equal to the instant
`Item.Modified` milliseconds after the Unix epoch, and that instant is `s` or later. -/
theorem FilterFiles_since (o : MapOrder) (tree : List ExtractItem) (gf ff : List String)
    (s : Time) (lo : Bool) (f : ExtractFile)
    (hf : f ∈ FilterFiles o tree gf ff (some s) lo []) :
    f.Updated = UnixMilli f.Item.Modified ∧ s ≤ f.Updated := by
  rw [FilterFiles_eq] at hf
  simp only [List.nil_append, List.mem_flatMap] at hf
  obtain ⟨d, _, hfd⟩ := hf
  obtain ⟨_, name, ds, x, _, _, hk, rfl⟩ := mem_emits.1 hfd
  refine ⟨rfl, ?_⟩
  unfold keeps at hk
  simp only [Bool.and_eq_true, Bool.or_eq_true, decide_eq_true_eq] at hk
  show s ≤ UnixMilli x.Modified
  rcases hk.2 with h | h
  · exact le_of_eq h.symm
  · exact le_of_lt h

/-! ## Maps -/

theorem mapGet_mapSet_self {V : Type} (k : String) (v : V) :
    ∀ m : List (String × V), mapGet (mapSet m k v) k = some v
  | [] => by simp [mapSet, mapGet]
  | (k', v') :: m => by
    unfold mapSet
    by_cases h : k' = k
    · simp [h, mapGet]
    · simp [h, mapGet, mapGet_mapSet_self k v m]

theorem mapGet_mapSet_ne {V : Type} (k k' : String) (v : V) (hne : k ≠ k') :
    ∀ m : List (String × V), mapGet (mapSet m k v) k' = mapGet m k'
  | [] => by simp [mapSet, mapGet, hne]
  | (k₀, v₀) :: m => by
    unfold mapSet
    by_cases h : k₀ = k
    · subst h
      simp [mapGet, hne]
    · by_cases h' : k₀ = k'
      · subst h'
        simp [h, mapGet]
      · simp [h, h', mapGet, mapGet_mapSet_ne k k' v hne m]

theorem mapGet_eq_none_iff {V : Type} (k : String) :
    ∀ m : List (String × V), mapGet m k = none ↔ k ∉ mapKeys m
  | [] => by simp [mapGet, mapKeys]
  | (k', v') :: m => by
    have ih := mapGet_eq_none_iff k m
    unfold mapGet
    by_cases h : k' = k
    · simp [h, mapKeys]
    · have h2 : ¬ k = k' := fun e => h e.symm
      simp only [h, if_false, ih, mapKeys, List.map_cons, List.mem_cons, h2, false_or]

theorem mapKeys_mapSet {V : Type} (k : String) (v : V) :
    ∀ m : List (String × V),
      mapKeys (mapSet m k v) = if k ∈ mapKeys m then mapKeys m else mapKeys m ++ [k]
  | [] => by simp [mapSet, mapKeys]
  | (k', v') :: m => by
    have ih := mapKeys_mapSet k v m
    unfold mapSet
    by_cases h : k' = k
    · subst h
      simp [mapKeys]
    · have h2 : ¬ k = k' := fun e => h e.symm
      simp only [h, if_false]
      unfold mapKeys at ih ⊢
      simp only [List.map_cons, List.mem_cons, h2, false_or, ih]
      split <;> simp

theorem mem_of_mapGet {V : Type} (k : String) (v : V) :
    ∀ m : List (String × V), mapGet m k = some v → (k, v) ∈ m
  | [] => by simp [mapGet]
  | (k', v') :: m => by
    unfold mapGet
    by_cases h : k' = k
    · subst h
      simp only [if_true, Option.some.injEq]
      rintro rfl
      exact List.mem_cons_self _ _
    · simp only [h, if_false]
      intro hm
      exact List.mem_cons_of_mem _ (mem_of_mapGet k v m hm)

theorem mapGet_of_mem {V : Type} (k : String) (v : V) :
    ∀ m : List (String × V), (mapKeys m).Nodup → (k, v) ∈ m → mapGet m k = some v
  | [] => by simp
  | (k', v') :: m => by
    intro hnd hmem
    unfold mapKeys at hnd
    simp only [List.map_cons, List.nodup_cons] at hnd
    unfold mapGet
    rcases List.mem_cons.1 hmem with heq | hin
    · cases heq
      simp
    · have hk : k ∈ m.map Prod.fst := List.mem_map.2 ⟨(k, v), hin, rfl⟩
      have hne : ¬ k' = k := by
        rintro rfl
        exact hnd.1 hk
      simp only [hne, if_false]
      exact mapGet_of_mem k v m hnd.2 hin

theorem mapKeys_nodup_mapSet {V : Type} (k : String) (v : V) (m : List (String × V))
    (h : (mapKeys m).Nodup) : (mapKeys (mapSet m k v)).Nodup := by
  rw [mapKeys_mapSet]
  split
  · exact h
  · rename_i hk
    rw [List.nodup_append]
    refine ⟨h, List.nodup_singleton k, ?_⟩
    intro a ha hb
    rw [List.mem_singleton] at hb
    subst hb
    exact hk ha

/-! ## The memory -/

theorem Heap.length_update : ∀ (h : Heap) (p : Nat) (f : Record → Record),
    (h.update p f).length = h.length
  | [], _, _ => rfl
  | _ :: _, 0, _ => rfl
  | r :: h, p + 1, f => by
    show (r :: Heap.update h p f).length = (r :: h).length
    simp [Heap.length_update h p f]

theorem Heap.read_update_self : ∀ (h : Heap) (p : Nat) (f : Record → Record),
    p < h.length → (h.update p f).read p = f (h.read p)
  | [], _, _, hp => by cases hp
  | _ :: _, 0, _, _ => rfl
  | r :: h, p + 1, f, hp => by
    have := Heap.read_update_self h p f (Nat.lt_of_succ_lt_succ hp)
    simpa [Heap.read, Heap.update] using this

theorem Heap.read_update_ne : ∀ (h : Heap) (p q : Nat) (f : Record → Record),
    q ≠ p → (h.update p f).read q = h.read q
  | [], _, _, _, _ => rfl
  | _ :: _, 0, 0, _, hne => absurd rfl hne
  | _ :: _, 0, q + 1, _, _ => rfl
  | _ :: _, p + 1, 0, _, _ => rfl
  | r :: h, p + 1, q + 1, f, hne => by
    have := Heap.read_update_ne h p q f (fun e => hne (by rw [e]))
    simpa [Heap.read, Heap.update] using this

theorem Heap.read_of_ge (h : Heap) (q : Nat) (hq : h.length ≤ q) : h.read q = Record.zero := by
  unfold Heap.read
  rw [List.getD_eq_getElem?_getD, List.getElem?_eq_none hq]
  rfl

theorem Heap.update_of_ge : ∀ (h : Heap) (p : Nat) (f : Record → Record),
    h.length ≤ p → h.update p f = h
  | [], _, _, _ => rfl
  | _ :: _, 0, _, hp => by simp at hp
  | r :: h, p + 1, f, hp => by
    show r :: Heap.update h p f = r :: h
    rw [Heap.update_of_ge h p f (by simpa using hp)]

/-- The record at `q` after the record at `p` was changed by `f`. -/
theorem Heap.read_update (h : Heap) (p q : Nat) (f : Record → Record) :
    (h.update p f).read q = if q = p ∧ p < h.length then f (h.read p) else h.read q := by
  by_cases hq : q = p
  · subst hq
    by_cases hp : q < h.length
    · simp [hp, Heap.read_update_self h q f hp]
    · simp [hp, Heap.update_of_ge h q f (by omega)]
  · simp [hq, Heap.read_update_ne h p q f hq]

theorem Heap.read_append_left (h l : Heap) (q : Nat) (hq : q < h.length) :
    (h ++ l).read q = h.read q := by
  unfold Heap.read
  rw [List.getD_eq_getElem?_getD, List.getD_eq_getElem?_getD, List.getElem?_append_left hq]

theorem Heap.read_append_right (h l : Heap) (k : Nat) :
    (h ++ l).read (h.length + k) = l.read k := by
  unfold Heap.read
  rw [List.getD_eq_getElem?_getD, List.getD_eq_getElem?_getD,
    List.getElem?_append_right (by omega)]
  simp

theorem splitAux_ne_nil : ∀ (s cur : List Char), splitAux s cur ≠ []
  | [], cur => by simp [splitAux]
  | c :: cs, cur => by
    unfold splitAux
    split
    · simp
    · exact splitAux_ne_nil cs (c :: cur)

theorem groupsOf_ne_nil (url : String) : groupsOf url ≠ [] :=
  splitAux_ne_nil _ _

/-- A dataset file has a dataset name: `DatasetName` does not panic on it. -/
theorem Record_DatasetName_defined (r : Record) (h : r.IsDataset = true) :
    ∃ name, r.DatasetName = some name := by
  exact DatasetName_defined
    (ExtractItem.mk 0 r.Name r.Url r.Typ r.Modified r.Size [] [] [] r.Groups) h

theorem Record_not_dir_of_dataset (r : Record) (h : r.IsDataset = true) :
    r.IsDirectory = false := by
  unfold Record.IsDataset at h
  simp only [Bool.and_eq_true, decide_eq_true_eq] at h
  unfold Record.IsDirectory
  rw [h.1.1]
  decide
/-! ## Steps of the memory -/

theorem Step_refl (h : Heap) : Step h h :=
  ⟨Nat.le_refl _, fun _ _ => rfl, fun _ _ => rfl, fun _ => Nat.le_refl _⟩

theorem Step_trans {h h' h'' : Heap} (s1 : Step h h') (s2 : Step h' h'') : Step h h'' := by
  refine ⟨Nat.le_trans s1.length_le s2.length_le, ?_, ?_, ?_⟩
  · intro q hq
    rw [s2.header q (Nat.lt_of_lt_of_le hq s1.length_le), s1.header q hq]
  · intro q hq
    have h1 := s1.groups q hq
    rw [s2.groups q (by rw [h1]; exact hq), h1]
  · intro q
    exact Nat.le_trans (s1.indexed q) (s2.indexed q)

theorem header_eq {a b : Record} (h : a.header = b.header) :
    a.Name = b.Name ∧ a.Url = b.Url ∧ a.Typ = b.Typ ∧ a.Modified = b.Modified ∧
      a.Size = b.Size ∧ a.listing = b.listing := by
  unfold Record.header at h
  simp only [Prod.mk.injEq] at h
  exact h

theorem IsDataset_of_header {a b : Record} (h : a.header = b.header) :
    a.IsDataset = b.IsDataset := by
  obtain ⟨h1, _, h3, _⟩ := header_eq h
  unfold Record.IsDataset
  rw [h1, h3]

theorem IsDirectory_of_header {a b : Record} (h : a.header = b.header) :
    a.IsDirectory = b.IsDirectory := by
  obtain ⟨_, _, h3, _⟩ := header_eq h
  unfold Record.IsDirectory
  rw [h3]

theorem DatasetName_of_header {a b : Record} (h : a.header = b.header) :
    a.DatasetName = b.DatasetName := by
  obtain ⟨h1, _⟩ := header_eq h
  unfold Record.DatasetName
  rw [h1]

theorem Step_isNamed {h h' : Heap} (s : Step h h') (n : String) (q : Nat) (hq : q < h.length) :
    h'.isNamed n q = h.isNamed n q := by
  unfold Heap.isNamed
  rw [IsDataset_of_header (s.header q hq), DatasetName_of_header (s.header q hq)]

theorem Step_update (h : Heap) (p : Nat) (f : Record → Record)
    (hf : (f (h.read p)).header = (h.read p).header)
    (hg : (h.read p).Groups ≠ [] → (f (h.read p)).Groups = (h.read p).Groups)
    (hi : (h.read p).indexed ≤ (f (h.read p)).indexed) : Step h (h.update p f) := by
  refine ⟨by rw [Heap.length_update], ?_, ?_, ?_⟩
  · intro q _
    rw [Heap.read_update]
    split
    · rename_i hq
      rw [hq.1]
      exact hf
    · rfl
  · intro q hq
    rw [Heap.read_update]
    split
    · rename_i hqp
      rw [hqp.1] at hq ⊢
      exact hg hq
    · rfl
  · intro q
    rw [Heap.read_update]
    split
    · rename_i hqp
      rw [hqp.1]
      exact hi
    · exact Nat.le_refl _

theorem Step_append (h l : Heap) : Step h (h ++ l) := by
  refine ⟨by simp, ?_, ?_, ?_⟩
  · intro q hq
    rw [Heap.read_append_left h l q hq]
  · intro q hq
    by_cases hlt : q < h.length
    · rw [Heap.read_append_left h l q hlt]
    · rw [Heap.read_of_ge h q (by omega)] at hq
      exact absurd rfl hq
  · intro q
    by_cases hlt : q < h.length
    · rw [Heap.read_append_left h l q hlt]
    · rw [Heap.read_of_ge h q (by omega)]
      exact Nat.zero_le _

/-- What holds of the pointers of a record still holds after a step of the memory that
leaves the record alone. -/
theorem Pointers_step {h h' : Heap} {r : Record} (hp : Pointers h r) (s : Step h h') :
    Pointers h' r := by
  have hfil : ∀ n, r.Children.filter (h'.isNamed n) = r.Children.filter (h.isNamed n) := by
    intro n
    apply List.filter_congr
    intro c hc
    exact Step_isNamed s n c (hp.children_lt c hc)
  refine ⟨?_, hp.fresh, hp.keys_nodup, hp.keys_eq, ?_, ?_, hp.latest, ?_⟩
  · intro c hc
    exact Nat.lt_of_lt_of_le (hp.children_lt c hc) s.length_le
  · intro c hc hd
    have hlt := hp.children_lt c hc
    rw [IsDataset_of_header (s.header c hlt)] at hd
    obtain ⟨name, ds, hn, hm, hin⟩ := hp.listed c hc hd
    exact ⟨name, ds, by rw [DatasetName_of_header (s.header c hlt)]; exact hn, hm, hin⟩
  · intro n ds c hm hc
    obtain ⟨hlt, hnamed, hl, hg⟩ := hp.datasets n ds c hm hc
    refine ⟨Nat.lt_of_lt_of_le hlt s.length_le, by rw [Step_isNamed s n c hlt]; exact hnamed, ?_, ?_⟩
    · rw [(header_eq (s.header c hlt)).2.2.2.2.2]
      exact hl
    · rw [s.groups c (by rw [hg]; exact groupsOf_ne_nil _)]
      exact hg
  · intro h1
    obtain ⟨h_some, h_none, h_pw⟩ := hp.once h1
    refine ⟨?_, ?_, h_pw⟩
    · intro n ds hm
      rw [hfil]
      exact h_some n ds hm
    · intro n hm
      rw [hfil]
      exact h_none n hm

/-- What holds of the pointers of a record depends on its pointers, its URL and the number
of times its children were reset. -/
theorem Pointers_congr {h : Heap} {r r' : Record} (hp : Pointers h r)
    (hc : r'.Children = r.Children) (hd : r'.Datasets = r.Datasets) (hl : r'.Latest = r.Latest)
    (hu : r'.Url = r.Url) (hi : r'.indexed = r.indexed) : Pointers h r' := by
  refine ⟨?_, ?_, ?_, ?_, ?_, ?_, ?_, ?_⟩
  · rw [hc]; exact hp.children_lt
  · rw [hc, hd, hl, hi]; exact hp.fresh
  · rw [hd]; exact hp.keys_nodup
  · rw [hd, hl]; exact hp.keys_eq
  · rw [hc, hd]; exact hp.listed
  · rw [hd, hu]; exact hp.datasets
  · rw [hd, hl]; exact hp.latest
  · rw [hc, hd, hi]; exact hp.once

theorem Pointers_zero (h : Heap) : Pointers h Record.zero := by
  refine ⟨?_, ?_, ?_, ?_, ?_, ?_, ?_, ?_⟩
  · intro c hc; cases hc
  · intro _; exact ⟨rfl, rfl, rfl⟩
  · exact List.nodup_nil
  · rfl
  · intro c hc; cases hc
  · intro n ds c hm; simp [Record.zero, mapGet] at hm
  · intro n l hm; simp [Record.zero, mapGet] at hm
  · intro h1; simp [Record.zero] at h1

theorem Pointers_ofRaw (h : Heap) (path : String) (raw : RawItem) :
    Pointers h (Record.ofRaw path raw) := by
  refine ⟨?_, ?_, ?_, ?_, ?_, ?_, ?_, ?_⟩
  · intro c hc; cases hc
  · intro _; exact ⟨rfl, rfl, rfl⟩
  · exact List.nodup_nil
  · rfl
  · intro c hc; cases hc
  · intro n ds c hm; simp [Record.ofRaw, mapGet] at hm
  · intro n l hm; simp [Record.ofRaw, mapGet] at hm
  · intro h1; simp [Record.ofRaw] at h1

theorem OwnGroups_empty (r : Record) (hg : r.Groups = []) (hi : r.indexed = 0) : OwnGroups r :=
  ⟨fun _ => Or.inl hg, fun _ => Or.inl hg, fun _ h1 => by omega⟩
/-! ## The memory is well formed after each statement -/

theorem read_decoded (path : String) (l : List RawItem) (k : Nat) :
    (∃ raw, Heap.read (l.map (Record.ofRaw path)) k = Record.ofRaw path raw ∧
        k < l.length) ∨
      (Heap.read (l.map (Record.ofRaw path)) k = Record.zero ∧ l.length ≤ k) := by
  by_cases hk : k < l.length
  · left
    refine ⟨l[k], ?_, hk⟩
    unfold Heap.read
    rw [List.getD_eq_getElem?_getD, List.getElem?_map, List.getElem?_eq_getElem hk]
    rfl
  · right
    exact ⟨Heap.read_of_ge _ k (by simpa using hk), by omega⟩

/-- Line 163 of `GetExtracts`, or a listing taken from the cache for the first time: the
decoded records are well formed, and their addresses are a listing of `path`. -/
theorem HeapInv_decode (h : Heap) (path : String) (l : List RawItem) (hinv : HeapInv h) :
    HeapInv (decode h path l).1 ∧ Step h (decode h path l).1 ∧
      Listing (decode h path l).1 path (decode h path l).2 ∧
      ∀ c, c ∈ (decode h path l).2 → h.length ≤ c ∧ ((decode h path l).1.read c).indexed = 0 := by
  unfold decode
  simp only []
  have hs := Step_append h (l.map (Record.ofRaw path))
  have hread : ∀ c, h.length ≤ c →
      (∃ raw, (h ++ l.map (Record.ofRaw path)).read c = Record.ofRaw path raw ∧
        c < h.length + l.length) ∨
      (h ++ l.map (Record.ofRaw path)).read c = Record.zero := by
    intro c hc
    obtain ⟨k, rfl⟩ : ∃ k, c = h.length + k := ⟨c - h.length, by omega⟩
    rw [Heap.read_append_right]
    rcases read_decoded path l k with ⟨raw, hr, hk⟩ | ⟨hz, _⟩
    · exact Or.inl ⟨raw, hr, by omega⟩
    · exact Or.inr hz
  refine ⟨⟨?_, ?_⟩, hs, ⟨?_, ?_, ?_⟩, ?_⟩
  · intro p
    by_cases hp : p < h.length
    · rw [Heap.read_append_left h _ p hp]
      exact Pointers_step (hinv.pointers p) hs
    · rcases hread p (by omega) with ⟨raw, hr, _⟩ | hz
      · rw [hr]; exact Pointers_ofRaw _ _ _
      · rw [hz]; exact Pointers_zero _
  · intro p
    by_cases hp : p < h.length
    · rw [Heap.read_append_left h _ p hp]
      exact hinv.groups p
    · rcases hread p (by omega) with ⟨raw, hr, _⟩ | hz
      · rw [hr]; exact OwnGroups_empty _ rfl rfl
      · rw [hz]; exact OwnGroups_empty _ rfl rfl
  · intro c hc
    rw [List.mem_range'_1] at hc
    simp only [List.length_append, List.length_map]
    omega
  · intro c hc
    rw [List.mem_range'_1] at hc
    obtain ⟨k, rfl⟩ : ∃ k, c = h.length + k := ⟨c - h.length, by omega⟩
    rw [Heap.read_append_right]
    rcases read_decoded path l k with ⟨raw, hr, _⟩ | ⟨_, hk⟩
    · rw [hr]; rfl
    · omega
  · exact List.pairwise_lt_range' _ _
  · intro c hc
    rw [List.mem_range'_1] at hc
    refine ⟨hc.1, ?_⟩
    rcases hread c hc.1 with ⟨raw, hr, _⟩ | hz
    · rw [hr]; rfl
    · rw [hz]; rfl

theorem OwnGroups_congr {r r' : Record} (ho : OwnGroups r) (hh : r'.header = r.header)
    (hg : r'.Groups = r.Groups) (hi : r'.indexed = r.indexed) : OwnGroups r' := by
  obtain ⟨_, hu, _, _, _, hl⟩ := header_eq hh
  refine ⟨?_, ?_, ?_⟩
  · rw [IsDataset_of_header hh, hg, hl]; exact ho.file
  · rw [IsDirectory_of_header hh, hg, hu]; exact ho.dir
  · rw [IsDirectory_of_header hh, hg, hu, hi]; exact ho.processed

/-- A statement that changes one record, and of it neither the pointers nor the URL nor
`indexed`, leaves the memory well formed when it is a step and the groups of the record
are as they must be. -/
theorem HeapInv_update_groups (h : Heap) (c : Nat) (f : Record → Record) (hinv : HeapInv h)
    (hs : Step h (h.update c f))
    (hc : (f (h.read c)).Children = (h.read c).Children)
    (hd : (f (h.read c)).Datasets = (h.read c).Datasets)
    (hl : (f (h.read c)).Latest = (h.read c).Latest)
    (hu : (f (h.read c)).Url = (h.read c).Url)
    (hi : (f (h.read c)).indexed = (h.read c).indexed)
    (hown : OwnGroups (f (h.read c))) : HeapInv (h.update c f) := by
  refine ⟨?_, ?_⟩
  · intro p
    rw [Heap.read_update]
    split
    · exact Pointers_congr (Pointers_step (hinv.pointers c) hs) hc hd hl hu hi
    · exact Pointers_step (hinv.pointers p) hs
  · intro p
    rw [Heap.read_update]
    split
    · exact hown
    · exact hinv.groups p

/-- Lines 193 to 195 of `GetExtracts`. -/
theorem HeapInv_setGroups (h : Heap) (i : Nat) (hinv : HeapInv h)
    (hdir : (h.read i).IsDirectory = true) (hi : i < h.length) :
    HeapInv (setGroups h i) ∧ Step h (setGroups h i) ∧
      ((setGroups h i).read i).Groups = groupsOf (h.read i).Url := by
  unfold setGroups
  split
  · rename_i hlen
    have hnil : (h.read i).Groups = [] := List.eq_nil_of_length_eq_zero hlen
    have hs : Step h (h.update i (fun e => { e with Groups := groupsOf e.Url })) :=
      Step_update h i _ rfl (fun hne => absurd hnil hne) (Nat.le_refl _)
    refine ⟨HeapInv_update_groups h i _ hinv hs rfl rfl rfl rfl rfl ?_, hs, ?_⟩
    · have ho := hinv.groups i
      refine ⟨?_, fun _ => Or.inr rfl, fun _ _ => rfl⟩
      intro hds
      have : (h.read i).IsDataset = true := hds
      rw [Record_not_dir_of_dataset _ this] at hdir
      cases hdir
    · rw [Heap.read_update_self h i _ hi]
  · rename_i hlen
    refine ⟨hinv, Step_refl h, ?_⟩
    rcases (hinv.groups i).dir hdir with hnil | hg
    · rw [hnil] at hlen
      exact absurd rfl hlen
    · exact hg

/-- Line 202 of `GetExtracts`. -/
theorem HeapInv_resetChildren (h : Heap) (i : Nat) (hinv : HeapInv h)
    (hg : (h.read i).IsDirectory = true → (h.read i).Groups = groupsOf (h.read i).Url) :
    HeapInv (resetChildren h i) ∧ Step h (resetChildren h i) := by
  unfold resetChildren
  have hs : Step h (h.update i (fun e => { e with Children := [], indexed := e.indexed + 1 })) :=
    Step_update h i _ rfl (fun _ => rfl) (Nat.le_succ _)
  refine ⟨⟨?_, ?_⟩, hs⟩
  · intro p
    rw [Heap.read_update]
    split
    · have hp := Pointers_step (hinv.pointers i) hs
      refine ⟨?_, ?_, hp.keys_nodup, hp.keys_eq, ?_, hp.datasets, hp.latest, ?_⟩
      · intro c hc; cases hc
      · intro h0; simp at h0
      · intro c hc; cases hc
      · intro h1
        have h0 : (h.read i).indexed = 0 := by simpa using h1
        obtain ⟨_, hD, _⟩ := hp.fresh h0
        refine ⟨?_, ?_, List.Pairwise.nil⟩
        · intro n ds hm
          simp only [] at hm
          rw [hD] at hm
          cases hm
        · intro n _
          rfl
    · exact Pointers_step (hinv.pointers p) hs
  · intro p
    rw [Heap.read_update]
    split
    · have ho := hinv.groups i
      refine ⟨ho.file, ho.dir, ?_⟩
      intro hdir _
      exact hg hdir
    · exact hinv.groups p
/-! ## A dataset file is recorded -/

theorem mapKeys_eq_nil {V : Type} (m : List (String × V)) (h : mapKeys m = []) : m = [] := by
  cases m with
  | nil => rfl
  | cons a m => simp [mapKeys] at h

/-- The record after lines 217 to 225: `Datasets` has the child appended under its name, and
`Latest` either has the child under that name or is as it was. -/
theorem recordDataset_form (hX : Heap) (r : Record) (name : String) (child : Nat)
    (hk : mapKeys r.Latest = mapKeys r.Datasets) :
    ∃ L', recordDataset hX r name child =
        { r with
          Datasets := mapSet r.Datasets name ((mapGet r.Datasets name).getD [] ++ [child]),
          Latest := L' } ∧
      ((mapGet r.Latest name = none ∧ L' = mapSet r.Latest name child) ∨
        ((∃ l, mapGet r.Latest name = some l) ∧
          (L' = mapSet r.Latest name child ∨ L' = r.Latest))) := by
  have hreset : (if r.Latest.isEmpty then { r with Latest := [], Datasets := [] } else r) = r := by
    split
    · rename_i hE
      have hL : r.Latest = [] := List.isEmpty_iff.1 hE
      have hD : r.Datasets = [] := by
        apply mapKeys_eq_nil
        rw [← hk, hL]
        rfl
      cases r
      simp only at hL hD
      subst hL hD
      rfl
    · rfl
  unfold recordDataset
  simp only []
  rw [hreset]
  cases hL : mapGet r.Latest name with
  | none =>
    exact ⟨mapSet r.Latest name child, rfl, Or.inl ⟨rfl, rfl⟩⟩
  | some l =>
    simp only []
    by_cases hm : r.Modified > (hX.read l).Modified
    · rw [if_pos hm]
      exact ⟨mapSet r.Latest name child, rfl, Or.inr ⟨⟨l, rfl⟩, Or.inl rfl⟩⟩
    · rw [if_neg hm]
      refine ⟨r.Latest, ?_, Or.inr ⟨⟨l, rfl⟩, Or.inr rfl⟩⟩
      cases r
      rfl

theorem isNamed_name {hh : Heap} {name : String} {child : Nat}
    (hn : hh.isNamed name child = true) (n : String) :
    hh.isNamed n child = decide (n = name) := by
  unfold Heap.isNamed at hn ⊢
  simp only [Bool.and_eq_true, beq_iff_eq] at hn
  rw [hn.1, hn.2]
  by_cases h : n = name
  · subst h
    simp
  · have h2 : ¬ name = n := fun e => h e.symm
    simp [h, h2]

/-- Lines 205 and 217 to 225 of `GetExtracts` leave the pointers of the directory well
formed: the child, a dataset file named `name` of the listing of the URL of the directory,
is appended to its children and recorded in its maps. -/
theorem Pointers_recordDataset {hh : Heap} {r : Record} (hX : Heap) (name : String)
    (child : Nat) (hp : Pointers hh r) (h1 : 1 ≤ r.indexed) (hlt : child < hh.length)
    (hnamed : hh.isNamed name child = true) (hlist : (hh.read child).listing = r.Url)
    (hgr : (hh.read child).Groups = groupsOf r.Url)
    (hb : ∀ c', c' ∈ r.Children → c' < child) :
    Pointers hh
      (recordDataset hX { r with Children := r.Children ++ [child] } name child) := by
  obtain ⟨L', hform, hcase⟩ := recordDataset_form hX
    { r with Children := r.Children ++ [child] } name child hp.keys_eq
  rw [hform]
  simp only [] at hcase ⊢
  have hds : (hh.read child).IsDataset = true := by
    unfold Heap.isNamed at hnamed
    simp only [Bool.and_eq_true] at hnamed
    exact hnamed.1
  have hdn : (hh.read child).DatasetName = some name := by
    unfold Heap.isNamed at hnamed
    simp only [Bool.and_eq_true, beq_iff_eq] at hnamed
    exact hnamed.2
  have hfs : (r.Children ++ [child]).filter (hh.isNamed name)
      = r.Children.filter (hh.isNamed name) ++ [child] := by
    simp [List.filter_append, hnamed]
  have hfn : ∀ n, n ≠ name → (r.Children ++ [child]).filter (hh.isNamed n)
      = r.Children.filter (hh.isNamed n) := by
    intro n hne
    have : hh.isNamed n child = false := by
      rw [isNamed_name hnamed]; simp [hne]
    simp [List.filter_append, this]
  have hgetD : ∀ ds0, mapGet r.Datasets name = some ds0 →
      (mapGet r.Datasets name).getD [] = ds0 := by
    intro ds0 h0
    rw [h0]
    rfl
  refine ⟨?_, ?_, ?_, ?_, ?_, ?_, ?_, ?_⟩
  · -- children_lt
    intro c hc
    rcases List.mem_append.1 hc with hc | hc
    · exact hp.children_lt c hc
    · rw [List.mem_singleton.1 hc]
      exact hlt
  · -- fresh
    intro h0
    simp only [] at h0
    omega
  · exact mapKeys_nodup_mapSet _ _ _ hp.keys_nodup
  · -- keys_eq
    rw [mapKeys_mapSet]
    rcases hcase with ⟨hnone, rfl⟩ | ⟨⟨l, hsome⟩, hL'⟩
    · have hnk : name ∉ mapKeys r.Latest := (mapGet_eq_none_iff _ _).1 hnone
      rw [mapKeys_mapSet, if_neg hnk, hp.keys_eq]
      rw [hp.keys_eq] at hnk
      rw [if_neg hnk]
    · have hk : name ∈ mapKeys r.Latest := by
        by_contra hc
        rw [(mapGet_eq_none_iff _ _).2 hc] at hsome
        cases hsome
      have hk' : name ∈ mapKeys r.Datasets := by rw [← hp.keys_eq]; exact hk
      rw [if_pos hk']
      rcases hL' with rfl | rfl
      · rw [mapKeys_mapSet, if_pos hk, hp.keys_eq]
      · exact hp.keys_eq
  · -- listed
    intro c hc hcd
    rcases List.mem_append.1 hc with hc | hc
    · obtain ⟨n, ds, hn, hm, hin⟩ := hp.listed c hc hcd
      by_cases hnn : name = n
      · subst hnn
        refine ⟨name, _, hn, mapGet_mapSet_self _ _ _, ?_⟩
        rw [hgetD ds hm]
        exact List.mem_append_left _ hin
      · exact ⟨n, ds, hn, by rw [mapGet_mapSet_ne _ _ _ hnn]; exact hm, hin⟩
    · rw [List.mem_singleton.1 hc]
      exact ⟨name, _, hdn, mapGet_mapSet_self _ _ _, by simp⟩
  · -- datasets
    intro n ds c hm hc
    by_cases hnn : name = n
    · subst hnn
      rw [mapGet_mapSet_self] at hm
      simp only [Option.some.injEq] at hm
      subst hm
      rcases List.mem_append.1 hc with hc | hc
      · cases h0 : mapGet r.Datasets name with
        | none =>
          rw [h0] at hc
          cases hc
        | some ds0 =>
          rw [h0] at hc
          exact hp.datasets name ds0 c h0 hc
      · rw [List.mem_singleton.1 hc]
        exact ⟨hlt, hnamed, hlist, hgr⟩
    · rw [mapGet_mapSet_ne _ _ _ hnn] at hm
      exact hp.datasets n ds c hm hc
  · -- latest
    intro n l hm
    have hold : ∀ l, mapGet r.Latest n = some l →
        ∃ ds, mapGet (mapSet r.Datasets name ((mapGet r.Datasets name).getD [] ++ [child])) n
          = some ds ∧ l ∈ ds := by
      intro l hl
      obtain ⟨ds, hd, hin⟩ := hp.latest n l hl
      by_cases hnn : name = n
      · subst hnn
        refine ⟨_, mapGet_mapSet_self _ _ _, ?_⟩
        rw [hgetD ds hd]
        exact List.mem_append_left _ hin
      · exact ⟨ds, by rw [mapGet_mapSet_ne _ _ _ hnn]; exact hd, hin⟩
    have hnew : mapGet (mapSet r.Latest name child) n = some l →
        ∃ ds, mapGet (mapSet r.Datasets name ((mapGet r.Datasets name).getD [] ++ [child])) n
          = some ds ∧ l ∈ ds := by
      intro h
      by_cases hnn : name = n
      · subst hnn
        rw [mapGet_mapSet_self] at h
        cases h
        exact ⟨_, mapGet_mapSet_self _ _ _, by simp⟩
      · rw [mapGet_mapSet_ne _ _ _ hnn] at h
        exact hold l h
    rcases hcase with ⟨_, rfl⟩ | ⟨_, rfl | rfl⟩
    · exact hnew hm
    · exact hnew hm
    · exact hold l hm
  · -- once
    intro hone
    obtain ⟨h_some, h_none, h_pw⟩ := hp.once hone
    have hgetD' : (mapGet r.Datasets name).getD [] = r.Children.filter (hh.isNamed name) := by
      cases h0 : mapGet r.Datasets name with
      | none => simp [h_none name h0]
      | some ds0 => simp [h_some name ds0 h0]
    refine ⟨?_, ?_, ?_⟩
    · intro n ds hm
      by_cases hnn : name = n
      · subst hnn
        rw [mapGet_mapSet_self] at hm
        rw [hfs, ← hgetD']
        exact (Option.some.inj hm).symm
      · rw [mapGet_mapSet_ne _ _ _ hnn] at hm
        rw [hfn n (fun e => hnn e.symm)]
        exact h_some n ds hm
    · intro n hm
      by_cases hnn : name = n
      · subst hnn
        rw [mapGet_mapSet_self] at hm
        cases hm
      · rw [mapGet_mapSet_ne _ _ _ hnn] at hm
        rw [hfn n (fun e => hnn e.symm)]
        exact h_none n hm
    · rw [List.pairwise_append]
      refine ⟨h_pw, List.pairwise_singleton _ _, ?_⟩
      intro a ha b hbm
      rw [List.mem_singleton.1 hbm]
      exact hb a ha
/-! ## A child is indexed -/

theorem Heap.update_update : ∀ (h : Heap) (p : Nat) (f g : Record → Record),
    (h.update p f).update p g = h.update p (fun e => g (f e))
  | [], _, _, _ => rfl
  | _ :: _, 0, _, _ => rfl
  | r :: h, p + 1, f, g => by
    show r :: (Heap.update h p f).update p g = r :: Heap.update h p (fun e => g (f e))
    rw [Heap.update_update h p f g]

theorem Heap.update_comm : ∀ (h : Heap) (p q : Nat) (f g : Record → Record), p ≠ q →
    (h.update p f).update q g = (h.update q g).update p f
  | [], _, _, _, _, _ => rfl
  | _ :: _, 0, 0, _, _, hne => absurd rfl hne
  | _ :: _, 0, _ + 1, _, _, _ => rfl
  | _ :: _, _ + 1, 0, _, _, _ => rfl
  | r :: h, p + 1, q + 1, f, g, hne => by
    show r :: (Heap.update h p f).update q g = r :: (Heap.update h q g).update p f
    rw [Heap.update_comm h p q f g (fun e => hne (by rw [e]))]

theorem recordDataset_same (hX : Heap) (r : Record) (name : String) (child : Nat) :
    (recordDataset hX r name child).header = r.header ∧
      (recordDataset hX r name child).Groups = r.Groups ∧
      (recordDataset hX r name child).indexed = r.indexed ∧
      (recordDataset hX r name child).Children = r.Children := by
  unfold recordDataset
  simp only []
  split <;> split <;> (try split) <;> exact ⟨rfl, rfl, rfl, rfl⟩

/-- A child that is not a dataset file is appended to the children of a directory. -/
theorem Pointers_appendChild {hh : Heap} {r : Record} (child : Nat) (hp : Pointers hh r)
    (h1 : 1 ≤ r.indexed) (hlt : child < hh.length)
    (hnd : (hh.read child).IsDataset = false) (hb : ∀ c', c' ∈ r.Children → c' < child) :
    Pointers hh { r with Children := r.Children ++ [child] } := by
  have hnn : ∀ n, hh.isNamed n child = false := by
    intro n
    unfold Heap.isNamed
    rw [hnd]
    rfl
  have hfil : ∀ n, (r.Children ++ [child]).filter (hh.isNamed n)
      = r.Children.filter (hh.isNamed n) := by
    intro n
    simp [List.filter_append, hnn n]
  refine ⟨?_, ?_, hp.keys_nodup, hp.keys_eq, ?_, hp.datasets, hp.latest, ?_⟩
  · intro c hc
    rcases List.mem_append.1 hc with hc | hc
    · exact hp.children_lt c hc
    · rw [List.mem_singleton.1 hc]
      exact hlt
  · intro h0
    simp only [] at h0
    omega
  · intro c hc hcd
    rcases List.mem_append.1 hc with hc | hc
    · exact hp.listed c hc hcd
    · rw [List.mem_singleton.1 hc, hnd] at hcd
      cases hcd
  · intro hone
    obtain ⟨h_some, h_none, h_pw⟩ := hp.once hone
    refine ⟨?_, ?_, ?_⟩
    · intro n ds hm
      show ds = (r.Children ++ [child]).filter (hh.isNamed n)
      rw [hfil n]
      exact h_some n ds hm
    · intro n hm
      show (r.Children ++ [child]).filter (hh.isNamed n) = []
      rw [hfil n]
      exact h_none n hm
    · show (r.Children ++ [child]).Pairwise (fun a b => a < b)
      rw [List.pairwise_append]
      refine ⟨h_pw, List.pairwise_singleton _ _, ?_⟩
      intro a ha b hbm
      rw [List.mem_singleton.1 hbm]
      exact hb a ha
theorem indexChild_dataset (subDir : String) (i : Nat) (h : Heap) (child : Nat) (name : String)
    (hd : (h.read child).IsDataset = true) (hn : (h.read child).DatasetName = some name) :
    indexChild subDir i h child
      = some (((h.update i (fun e => { e with Children := e.Children ++ [child] })).update child
            (fun e => { e with Groups := groupsOf subDir })).update i
          (fun e => recordDataset
            ((h.update i (fun e => { e with Children := e.Children ++ [child] })).update child
              (fun e => { e with Groups := groupsOf subDir })) e name child)) := by
  unfold indexChild
  simp only [hd, hn, Bool.or_true, if_true]

theorem indexChild_dir (subDir : String) (i : Nat) (h : Heap) (child : Nat)
    (hd : (h.read child).IsDataset = false) (hdir : (h.read child).IsDirectory = true) :
    indexChild subDir i h child
      = some ((h.update i (fun e => { e with Children := e.Children ++ [child] })).update child
          (fun e => { e with Groups := groupsOf (h.read child).Url })) := by
  unfold indexChild
  simp only [hd, hdir, Bool.or_false, if_true, Bool.false_eq_true, if_false]

theorem indexChild_skip (subDir : String) (i : Nat) (h : Heap) (child : Nat)
    (hd : (h.read child).IsDataset = false) (hdir : (h.read child).IsDirectory = false) :
    indexChild subDir i h child = some h := by
  unfold indexChild
  simp only [hd, hdir, Bool.or_false, Bool.false_eq_true, if_false]
/-- Lines 204 to 226 of `GetExtracts`, for one child of the listing of `subDir`: the
statement returns, the memory stays well formed, and only pointers of the directory at `i`
and groups of the child change. -/
theorem indexChild_inv (subDir : String) (i : Nat) (h : Heap) (child : Nat)
    (hinv : HeapInv h) (hdir : (h.read i).IsDirectory = true)
    (hurl : (h.read i).Url = subDir) (hidx : 1 ≤ (h.read i).indexed) (hi : i < h.length)
    (hc : child < h.length) (hl : (h.read child).listing = subDir)
    (hb : ∀ c', c' ∈ (h.read i).Children → c' < child) :
    ∃ h', indexChild subDir i h child = some h' ∧ HeapInv h' ∧ Step h h' ∧
      (∀ c', c' ∈ (h'.read i).Children → c' ≤ child) ∧
      (∀ q, (h'.read q).indexed = (h.read q).indexed) ∧ h'.length = h.length := by
  cases hd : (h.read child).IsDataset with
  | true =>
    obtain ⟨name, hn⟩ := Record_DatasetName_defined _ hd
    have hne : i ≠ child := by
      intro e
      rw [e, Record_not_dir_of_dataset _ hd] at hdir
      cases hdir
    refine ⟨_, indexChild_dataset subDir i h child name hd hn, ?_⟩
    generalize hX : (h.update i (fun e => { e with Children := e.Children ++ [child] })).update
      child (fun e => { e with Groups := groupsOf subDir }) = X
    have hXeq : X = (h.update child (fun e => { e with Groups := groupsOf subDir })).update i
        (fun e => { e with Children := e.Children ++ [child] }) := by
      rw [← hX]
      exact Heap.update_comm h i child _ _ hne
    have hfin : X.update i (fun e => recordDataset X e name child)
        = (h.update child (fun e => { e with Groups := groupsOf subDir })).update i
            (fun e => recordDataset X { e with Children := e.Children ++ [child] } name child) := by
      have key : ∀ Y : Heap, X.update i (fun e => recordDataset Y e name child)
          = (h.update child (fun e => { e with Groups := groupsOf subDir })).update i
              (fun e => recordDataset Y { e with Children := e.Children ++ [child] } name
                child) := by
        intro Y
        rw [hXeq, Heap.update_update]
      exact key X
    rw [hfin]
    -- the groups of the child
    have hsA : Step h (h.update child (fun e => { e with Groups := groupsOf subDir })) := by
      apply Step_update
      · rfl
      · intro hg
        rcases (hinv.groups child).file hd with h0 | h0
        · exact absurd h0 hg
        · show groupsOf subDir = _
          rw [h0, hl]
      · exact Nat.le_refl _
    have hinvA : HeapInv (h.update child (fun e => { e with Groups := groupsOf subDir })) := by
      apply HeapInv_update_groups h child _ hinv hsA rfl rfl rfl rfl rfl
      refine ⟨?_, ?_, ?_⟩
      · intro _
        right
        show groupsOf subDir = groupsOf (h.read child).listing
        rw [hl]
      · intro hd'
        have : (h.read child).IsDirectory = true := hd'
        rw [Record_not_dir_of_dataset _ hd] at this
        cases this
      · intro hd' _
        have : (h.read child).IsDirectory = true := hd'
        rw [Record_not_dir_of_dataset _ hd] at this
        cases this
    generalize hA : h.update child (fun e => { e with Groups := groupsOf subDir }) = A at *
    have hlenA : A.length = h.length := by
      rw [← hA]
      exact Heap.length_update _ _ _
    have hAi : A.read i = h.read i := by
      rw [← hA]
      exact Heap.read_update_ne h child i _ hne
    have hAc : A.read child = { h.read child with Groups := groupsOf subDir } := by
      rw [← hA]
      exact Heap.read_update_self h child _ hc
    have hsame := recordDataset_same X
      { A.read i with Children := (A.read i).Children ++ [child] } name child
    have hsF : Step A (A.update i
        (fun e => recordDataset X { e with Children := e.Children ++ [child] } name child)) := by
      apply Step_update
      · exact hsame.1
      · intro _
        exact hsame.2.1
      · exact Nat.le_of_eq hsame.2.2.1.symm
    generalize hF : A.update i
        (fun e => recordDataset X { e with Children := e.Children ++ [child] } name child) = F
      at *
    have hlenF : F.length = A.length := by
      rw [← hF]
      exact Heap.length_update _ _ _
    have hFi : F.read i
        = recordDataset X { A.read i with Children := (A.read i).Children ++ [child] }
            name child := by
      rw [← hF]
      exact Heap.read_update_self A i _ (by omega)
    have hFne : ∀ q, q ≠ i → F.read q = A.read q := by
      intro q hq
      rw [← hF]
      exact Heap.read_update_ne A i q _ hq
    have hFc : F.read child = A.read child := hFne child (fun e => hne e.symm)
    refine ⟨⟨?_, ?_⟩, Step_trans hsA hsF, ?_, ?_, by omega⟩
    · intro p
      by_cases hp : p = i
      · subst hp
        rw [hFi]
        apply Pointers_recordDataset X name child (Pointers_step (hinvA.pointers p) hsF)
        · rw [hAi]
          exact hidx
        · omega
        · unfold Heap.isNamed
          rw [hFc, hAc]
          show ((h.read child).IsDataset && ((h.read child).DatasetName == some name)) = true
          rw [hd, hn]
          simp
        · rw [hFc, hAc, hAi, hurl]
          exact hl
        · rw [hFc, hAc, hAi, hurl]
        · rw [hAi]
          exact hb
      · rw [hFne p hp]
        exact Pointers_step (hinvA.pointers p) hsF
    · intro p
      by_cases hp : p = i
      · subst hp
        rw [hFi]
        exact OwnGroups_congr (hinvA.groups p) hsame.1 hsame.2.1 hsame.2.2.1
      · rw [hFne p hp]
        exact hinvA.groups p
    · intro c' hc'
      rw [hFi, hsame.2.2.2, hAi] at hc'
      rcases List.mem_append.1 hc' with hc' | hc'
      · exact Nat.le_of_lt (hb c' hc')
      · rw [List.mem_singleton.1 hc']
    · intro q
      by_cases hp : q = i
      · subst hp
        rw [hFi, hsame.2.2.1, hAi]
      · rw [hFne q hp, ← hA, Heap.read_update]
        split
        · rename_i hcase
          rw [hcase.1]
        · rfl
  | false =>
    cases hcd : (h.read child).IsDirectory with
    | false =>
      refine ⟨h, indexChild_skip subDir i h child hd hcd, hinv, Step_refl h, ?_, fun _ => rfl, rfl⟩
      intro c' hc'
      exact Nat.le_of_lt (hb c' hc')
    | true =>
      refine ⟨_, indexChild_dir subDir i h child hd hcd, ?_⟩
      have hsA : Step h (h.update i (fun e => { e with Children := e.Children ++ [child] })) := by
        apply Step_update
        · rfl
        · intro _
          rfl
        · exact Nat.le_refl _
      have hAi0 : (h.update i (fun e => { e with Children := e.Children ++ [child] })).read i
          = { h.read i with Children := (h.read i).Children ++ [child] } :=
        Heap.read_update_self h i _ hi
      have hAne0 : ∀ q, q ≠ i →
          (h.update i (fun e => { e with Children := e.Children ++ [child] })).read q
            = h.read q := fun q hq => Heap.read_update_ne h i q _ hq
      have hlenA0 : (h.update i (fun e => { e with Children := e.Children ++ [child] })).length
          = h.length := Heap.length_update _ _ _
      generalize hA : h.update i (fun e => { e with Children := e.Children ++ [child] }) = A at *
      have hAchild : (A.read child).header = (h.read child).header := hsA.header child hc
      have hinvA : HeapInv A := by
        refine ⟨?_, ?_⟩
        · intro p
          by_cases hp : p = i
          · subst hp
            rw [hAi0]
            apply Pointers_appendChild child (Pointers_step (hinv.pointers p) hsA) hidx
            · omega
            · rw [IsDataset_of_header hAchild]
              exact hd
            · exact hb
          · rw [hAne0 p hp]
            exact Pointers_step (hinv.pointers p) hsA
        · intro p
          by_cases hp : p = i
          · subst hp
            rw [hAi0]
            exact OwnGroups_congr (hinv.groups p) rfl rfl rfl
          · rw [hAne0 p hp]
            exact hinv.groups p
      have hAurl : (A.read child).Url = (h.read child).Url := by
        have := header_eq hAchild
        exact this.2.1
      have hAdir : (A.read child).IsDirectory = true := by
        rw [IsDirectory_of_header hAchild]
        exact hcd
      have hsB : Step A (A.update child
          (fun e => { e with Groups := groupsOf (h.read child).Url })) := by
        apply Step_update
        · rfl
        · intro hg
          rcases (hinvA.groups child).dir hAdir with h0 | h0
          · exact absurd h0 hg
          · show groupsOf (h.read child).Url = _
            rw [h0, hAurl]
        · exact Nat.le_refl _
      have hinvB : HeapInv (A.update child
          (fun e => { e with Groups := groupsOf (h.read child).Url })) := by
        apply HeapInv_update_groups A child _ hinvA hsB rfl rfl rfl rfl rfl
        refine ⟨?_, ?_, ?_⟩
        · intro hd'
          have : (A.read child).IsDataset = true := hd'
          rw [IsDataset_of_header hAchild, hd] at this
          cases this
        · intro _
          right
          show groupsOf (h.read child).Url = groupsOf (A.read child).Url
          rw [hAurl]
        · intro _ _
          show groupsOf (h.read child).Url = groupsOf (A.read child).Url
          rw [hAurl]
      refine ⟨hinvB, Step_trans hsA hsB, ?_, ?_, ?_⟩
      · intro c' hc'
        rw [Heap.read_update] at hc'
        have hc2 : c' ∈ (A.read i).Children := by
          split at hc'
          · rename_i hcase
            rw [hcase.1]
            exact hc'
          · exact hc'
        rw [hAi0] at hc2
        rcases List.mem_append.1 hc2 with hc2 | hc2
        · exact Nat.le_of_lt (hb c' hc2)
        · rw [List.mem_singleton.1 hc2]
      · intro q
        have h1 : ((A.update child
            (fun e => { e with Groups := groupsOf (h.read child).Url })).read q).indexed
            = (A.read q).indexed := by
          rw [Heap.read_update]
          split
          · rename_i hcase
            rw [hcase.1]
          · rfl
        rw [h1]
        by_cases hp : q = i
        · subst hp
          rw [hAi0]
        · rw [hAne0 q hp]
      · rw [Heap.length_update]
        exact hlenA0
theorem header_listing {a b : Record} (h : a.header = b.header) : a.listing = b.listing := by
  unfold Record.header at h
  simp only [Prod.mk.injEq] at h
  exact h.2.2.2.2.2

theorem header_url {a b : Record} (h : a.header = b.header) : a.Url = b.Url := by
  unfold Record.header at h
  simp only [Prod.mk.injEq] at h
  exact h.2.1

/-- Lines 203 to 227 of `GetExtracts`, the loop over the children of the listing of
`subDir`: the loop returns, and the memory stays well formed. -/
theorem indexChildren_inv (subDir : String) (i : Nat) : ∀ (children : List Nat) (h : Heap),
    HeapInv h → (h.read i).IsDirectory = true → (h.read i).Url = subDir →
    1 ≤ (h.read i).indexed → i < h.length →
    (∀ c, c ∈ children → c < h.length ∧ (h.read c).listing = subDir) →
    children.Pairwise (fun a b => a < b) →
    (∀ c', c' ∈ (h.read i).Children → ∀ c, c ∈ children → c' < c) →
    ∃ h', indexChildren subDir i children h = some h' ∧ HeapInv h' ∧ Step h h' ∧
      (∀ q, (h'.read q).indexed = (h.read q).indexed) ∧ h'.length = h.length
  | [], h, hinv, _, _, _, _, _, _, _ => ⟨h, rfl, hinv, Step_refl h, fun _ => rfl, rfl⟩
  | child :: rest, h, hinv, hdir, hurl, hidx, hi, hch, hpw, hb => by
    obtain ⟨hc, hl⟩ := hch child (List.mem_cons_self _ _)
    obtain ⟨h1, hrun, hinv1, hs1, hb1, hidx1, hlen1⟩ :=
      indexChild_inv subDir i h child hinv hdir hurl hidx hi hc hl
        (fun c' hc' => hb c' hc' child (List.mem_cons_self _ _))
    have hhead : (h1.read i).header = (h.read i).header := hs1.header i hi
    obtain ⟨h2, hrun2, hinv2, hs2, hidx2, hlen2⟩ :=
      indexChildren_inv subDir i rest h1 hinv1
        (by rw [IsDirectory_of_header hhead]; exact hdir)
        (by rw [header_url hhead]; exact hurl)
        (by rw [hidx1 i]; exact hidx)
        (by omega)
        (by
          intro c hcm
          obtain ⟨hc2, hl2⟩ := hch c (List.mem_cons_of_mem _ hcm)
          refine ⟨by omega, ?_⟩
          rw [header_listing (hs1.header c hc2)]
          exact hl2)
        (List.Pairwise.of_cons hpw)
        (by
          intro c' hc' c hcm
          have h1' := hb1 c' hc'
          have h2' := List.rel_of_pairwise_cons hpw hcm
          omega)
    refine ⟨h2, ?_, hinv2, Step_trans hs1 hs2, ?_, by omega⟩
    · show (match indexChild subDir i h child with
        | none => none
        | some h => indexChildren subDir i rest h) = some h2
      rw [hrun]
      exact hrun2
    · intro q
      rw [hidx2 q, hidx1 q]
/-! ## The listing of a path -/

theorem append_cancel_left_string (s a b : String) (h : s ++ a = s ++ b) : a = b := by
  have h2 := congrArg String.data h
  simp only [String.data_append] at h2
  exact String.ext (List.append_cancel_left h2)

/-- The ways `fetchListing` returns: with an error and the memory as it was; with the
addresses it already returned for the URL, the memory as it was, and `again` set; or with
records decoded at new addresses. -/
theorem fetchListing_cases {σ : Type} (config : Config) (client : Client σ) (path : String)
    (st st' : Run σ) (res : Except GoError (List Nat))
    (h : fetchListing config client path st = some (res, st')) :
    (∃ err, res = Except.error err ∧ st'.heap = st.heap ∧ st'.served = st.served ∧
        st'.again = st.again) ∨
      (∃ ps, res = Except.ok ps ∧ mapGet st.served (config.ExtractUrl ++ path) = some ps ∧
        st'.heap = st.heap ∧ st'.served = st.served ∧ st'.again = true) ∨
      (∃ l, res = Except.ok (decode st.heap path l).2 ∧ st'.heap = (decode st.heap path l).1 ∧
        st'.again = st.again ∧
        (st'.served = st.served ∨
          (mapGet st.served (config.ExtractUrl ++ path) = none ∧
            st'.served = mapSet st.served (config.ExtractUrl ++ path)
              (decode st.heap path l).2))) := by
  unfold fetchListing at h
  simp only [] at h
  split at h
  · rename_i items hlook
    split at h
    · rename_i ps hserved
      simp only [Option.some.injEq, Prod.mk.injEq] at h
      obtain ⟨h1, h2⟩ := h
      subst h1 h2
      exact Or.inr (Or.inl ⟨ps, rfl, hserved, rfl, rfl, rfl⟩)
    · rename_i hserved
      simp only [Option.some.injEq, Prod.mk.injEq] at h
      obtain ⟨h1, h2⟩ := h
      subst h1 h2
      exact Or.inr (Or.inr ⟨items, rfl, rfl, rfl, Or.inr ⟨hserved, rfl⟩⟩)
  · split at h
    · simp only [Option.some.injEq, Prod.mk.injEq] at h
      obtain ⟨h1, h2⟩ := h
      subst h1 h2
      exact Or.inl ⟨_, rfl, rfl, rfl, rfl⟩
    · rename_i resp world _
      split at h
      · simp only [Option.some.injEq, Prod.mk.injEq] at h
        obtain ⟨h1, h2⟩ := h
        subst h1 h2
        exact Or.inl ⟨_, rfl, rfl, rfl, rfl⟩
      · split at h
        · cases h
        · simp only [Option.some.injEq, Prod.mk.injEq] at h
          obtain ⟨h1, h2⟩ := h
          subst h1 h2
          exact Or.inr (Or.inr ⟨resp.Result, rfl, rfl, rfl, Or.inl rfl⟩)
/-! ## The loop over a listing -/

theorem RunInv_step {σ : Type} (config : Config) (st : Run σ) (heap : Heap)
    (hinv : RunInv config st) (hs : Step st.heap heap) (hh : HeapInv heap) :
    RunInv config { st with heap := heap } := by
  refine ⟨hh, ?_⟩
  intro url ps hm
  obtain ⟨hpw, hall⟩ := hinv.served url ps hm
  refine ⟨hpw, ?_⟩
  intro c hc
  obtain ⟨hlt, hl⟩ := hall c hc
  refine ⟨Nat.lt_of_lt_of_le hlt hs.length_le, ?_⟩
  show config.ExtractUrl ++ (heap.read c).listing = url
  rw [header_listing (hs.header c hlt)]
  exact hl

theorem setGroups_indexed (h : Heap) (i q : Nat) :
    ((setGroups h i).read q).indexed = (h.read q).indexed := by
  unfold setGroups
  split
  · rw [Heap.read_update]
    split
    · rename_i hc
      rw [hc.1]
    · rfl
  · rfl

theorem setGroups_length (h : Heap) (i : Nat) : (setGroups h i).length = h.length := by
  unfold setGroups
  split
  · exact Heap.length_update _ _ _
  · rfl

theorem resetChildren_read (h : Heap) (i : Nat) (hi : i < h.length) :
    (resetChildren h i).read i
      = { h.read i with Children := [], indexed := (h.read i).indexed + 1 } :=
  Heap.read_update_self h i _ hi

theorem resetChildren_read_ne (h : Heap) (i q : Nat) (hq : q ≠ i) :
    (resetChildren h i).read q = h.read q :=
  Heap.read_update_ne h i q _ hq

/-- Lines 202 to 227 of `GetExtracts`, for the directory at `i` and the listing returned for
its URL: the statements return, the memory stays well formed, and `indexed` counts one
more reset of the children of the directory. -/
theorem indexDirectory_inv (subDir : String) (i : Nat) (children : List Nat) (h : Heap)
    (hinv : HeapInv h) (hl : Listing h subDir children) (hi : i < h.length)
    (hdir : (h.read i).IsDirectory = true) (hurl : (h.read i).Url = subDir)
    (hg : (h.read i).Groups = groupsOf (h.read i).Url) :
    ∃ heap, indexChildren subDir i children (resetChildren h i) = some heap ∧ HeapInv heap ∧
      Step h heap ∧ heap.length = h.length ∧
      ∀ q, (heap.read q).indexed
        = if q = i then (h.read i).indexed + 1 else (h.read q).indexed := by
  obtain ⟨hinvR, hsR⟩ := HeapInv_resetChildren h i hinv (fun _ => hg)
  have hlenR : (resetChildren h i).length = h.length := Heap.length_update _ _ _
  have hRi := resetChildren_read h i hi
  obtain ⟨heap, hrun, hinv', hs', hidx', hlen'⟩ :=
    indexChildren_inv subDir i children (resetChildren h i) hinvR
      (by rw [hRi]; exact hdir) (by rw [hRi]; exact hurl)
      (by rw [hRi]; exact Nat.le_add_left 1 _) (by omega)
      (by
        intro c hc
        refine ⟨by rw [hlenR]; exact hl.lt c hc, ?_⟩
        rw [header_listing (hsR.header c (hl.lt c hc))]
        exact hl.listing c hc)
      hl.sorted
      (by
        intro c' hc'
        rw [hRi] at hc'
        cases hc')
  refine ⟨heap, hrun, hinv', Step_trans hsR hs', by omega, ?_⟩
  intro q
  rw [hidx' q]
  by_cases hq : q = i
  · subst hq
    rw [hRi, if_pos rfl]
  · rw [resetChildren_read_ne h i q hq, if_neg hq]
/-- Lines 191 to 229 of `GetExtracts`, the loop over the listing, when every recursive call
satisfies `Post`. -/
theorem indexLoop_post {σ : Type} (config : Config) (recur : String → Run σ → Outcome σ)
    (hrec : ∀ sub s res s', RunInv config s → recur sub s = some (res, s') →
      Post config sub s res s') :
    ∀ (rest : List Nat) (st st' : Run σ) (r : Option GoError), RunInv config st →
      (∀ c, c ∈ rest → c < st.heap.length) → indexLoop recur rest st = some (r, st') →
      RunInv config st' ∧ Step st.heap st'.heap ∧ (st.again = true → st'.again = true) ∧
      (st'.again = false → rest.Pairwise (fun a b => a < b) →
        (∀ c, c ∈ rest → (st.heap.read c).indexed = 0) →
        (∀ q, q < st.heap.length → q ∉ rest →
          (st'.heap.read q).indexed = (st.heap.read q).indexed) ∧
        (∀ q, q ∈ rest → (st'.heap.read q).indexed ≤ 1) ∧
        (∀ q, st.heap.length ≤ q → (st'.heap.read q).indexed ≤ 1))
  | [], st, st', r, hinv, _, h => by
    simp only [indexLoop, Option.some.injEq, Prod.mk.injEq] at h
    obtain ⟨_, h2⟩ := h
    subst h2
    refine ⟨hinv, Step_refl _, fun ha => ha, ?_⟩
    intro _ _ _
    refine ⟨fun _ _ _ => rfl, ?_, ?_⟩
    · intro q hq
      cases hq
    intro q hq
    rw [Heap.read_of_ge _ q hq]
    exact Nat.zero_le 1
  | i :: rest, st, st', r, hinv, hlt, h => by
    have hi : i < st.heap.length := hlt i (List.mem_cons_self _ _)
    rw [indexLoop] at h
    split at h
    · rename_i hdir
      simp only [] at h
      obtain ⟨hinvG, hsG, hgG⟩ := HeapInv_setGroups st.heap i hinv.heap hdir hi
      have hlenG := setGroups_length st.heap i
      have hinv1 : RunInv config { st with heap := setGroups st.heap i } :=
        RunInv_step config st _ hinv hsG hinvG
      have hheadG : ((setGroups st.heap i).read i).header = (st.heap.read i).header :=
        hsG.header i hi
      split at h
      · cases h
      · rename_i err s2 hcall
        simp only [Option.some.injEq, Prod.mk.injEq] at h
        obtain ⟨_, h2⟩ := h
        subst h2
        have hp := hrec _ _ _ _ hinv1 hcall
        refine ⟨hp.inv, Step_trans hsG hp.step, hp.again, ?_⟩
        intro hag _ h0
        obtain ⟨hf1, hf2⟩ := hp.frame hag
        refine ⟨?_, ?_, ?_⟩
        · intro q hq _
          rw [hf1 q (by rw [hlenG]; exact hq)]
          exact setGroups_indexed _ _ _
        · intro q hq
          rw [hf1 q (by rw [hlenG]; exact hlt q hq), setGroups_indexed, h0 q hq]
          exact Nat.zero_le 1
        · intro q hq
          exact hf2 q (by rw [hlenG]; exact hq)
      · rename_i children s2 hcall
        have hp := hrec _ _ _ _ hinv1 hcall
        have hs2 : Step (setGroups st.heap i) s2.heap := hp.step
        have hi2 : i < s2.heap.length := by
          have := hs2.length_le
          omega
        have hhead2 : (s2.heap.read i).header = ((setGroups st.heap i).read i).header :=
          hs2.header i (by omega)
        have hurl2 : (s2.heap.read i).Url = ((setGroups st.heap i).read i).Url :=
          header_url hhead2
        have hg2 : (s2.heap.read i).Groups = groupsOf (s2.heap.read i).Url := by
          rw [hs2.groups i (by rw [hgG]; exact groupsOf_ne_nil _), hgG, hurl2,
            header_url hheadG]
        obtain ⟨heap, hrun, hinvH, hsH, hlenH, hidxH⟩ :=
          indexDirectory_inv _ i children s2.heap hp.inv.heap (hp.listing children rfl) hi2
            (by rw [IsDirectory_of_header hhead2, IsDirectory_of_header hheadG]; exact hdir)
            hurl2 hg2
        rw [hrun] at h
        simp only [] at h
        have hinv3 : RunInv config { s2 with heap := heap } :=
          RunInv_step config s2 heap hp.inv hsH hinvH
        obtain ⟨hI, hS, hA, hF⟩ := indexLoop_post config recur hrec rest _ st' r hinv3
          (by
            intro c hc
            show c < heap.length
            have := hlt c (List.mem_cons_of_mem _ hc)
            have := hs2.length_le
            omega)
          h
        refine ⟨hI, Step_trans hsG (Step_trans hs2 (Step_trans hsH hS)),
          fun ha => hA (hp.again ha), ?_⟩
        intro hag hpw h0
        have hag2 : s2.again = false := by
          cases hb : s2.again with
          | false => rfl
          | true =>
            rw [hA hb] at hag
            cases hag
        obtain ⟨hf1, hf2⟩ := hp.frame hag2
        have hni : i ∉ rest := by
          intro hmem
          have := List.rel_of_pairwise_cons hpw hmem
          omega
        have hold : ∀ q, q < st.heap.length → q ≠ i →
            (heap.read q).indexed = (st.heap.read q).indexed := by
          intro q hq hne
          rw [hidxH q, if_neg hne, hf1 q (by rw [hlenG]; exact hq)]
          exact setGroups_indexed _ _ _
        obtain ⟨hF1, hF2, hF3⟩ := hF hag (List.Pairwise.of_cons hpw)
          (by
            intro c hc
            show (heap.read c).indexed = 0
            rw [hold c (hlt c (List.mem_cons_of_mem _ hc))
              (fun e => hni (by rw [← e]; exact hc))]
            exact h0 c (List.mem_cons_of_mem _ hc))
        have hlen3 : st.heap.length ≤ heap.length := by
          have := hs2.length_le
          omega
        refine ⟨?_, ?_, ?_⟩
        · intro q hq hnm
          have hne : q ≠ i := fun e => hnm (by rw [e]; exact List.mem_cons_self _ _)
          have hnr : q ∉ rest := fun e => hnm (List.mem_cons_of_mem _ e)
          have := hF1 q (by show q < heap.length; omega) hnr
          rw [this]
          exact hold q hq hne
        · intro q hq
          rcases List.mem_cons.1 hq with hq | hq
          · subst hq
            have := hF1 q (by show q < heap.length; omega) hni
            rw [this]
            show (heap.read q).indexed ≤ 1
            rw [hidxH q, if_pos rfl, hf1 q (by rw [hlenG]; exact hi), setGroups_indexed,
              h0 q (List.mem_cons_self _ _)]
          · exact hF2 q hq
        · intro q hq
          by_cases hq3 : q < heap.length
          · have hnr : q ∉ rest := by
              intro hmem
              have := hlt q (List.mem_cons_of_mem _ hmem)
              omega
            have := hF1 q hq3 hnr
            rw [this]
            show (heap.read q).indexed ≤ 1
            rw [hidxH q, if_neg (by omega)]
            exact hf2 q (by rw [hlenG]; exact hq)
          · exact hF3 q (by show heap.length ≤ q; omega)
    · obtain ⟨hI, hS, hA, hF⟩ := indexLoop_post config recur hrec rest st st' r hinv
        (fun c hc => hlt c (List.mem_cons_of_mem _ hc)) h
      refine ⟨hI, hS, hA, ?_⟩
      intro hag hpw h0
      have hni : i ∉ rest := by
        intro hmem
        have := List.rel_of_pairwise_cons hpw hmem
        omega
      obtain ⟨hF1, hF2, hF3⟩ := hF hag (List.Pairwise.of_cons hpw)
        (fun c hc => h0 c (List.mem_cons_of_mem _ hc))
      refine ⟨?_, ?_, hF3⟩
      · intro q hq hnm
        exact hF1 q hq (fun e => hnm (List.mem_cons_of_mem _ e))
      · intro q hq
        rcases List.mem_cons.1 hq with hq | hq
        · subst hq
          rw [hF1 q hi hni, h0 q (List.mem_cons_self _ _)]
          exact Nat.zero_le 1
        · exact hF2 q hq
/-! ## The tree built by `GetExtracts` -/

theorem Listing_step {h h' : Heap} {path : String} {ps : List Nat} (hl : Listing h path ps)
    (hs : Step h h') : Listing h' path ps := by
  refine ⟨fun c hc => Nat.lt_of_lt_of_le (hl.lt c hc) hs.length_le, ?_, hl.sorted⟩
  intro c hc
  rw [header_listing (hs.header c (hl.lt c hc))]
  exact hl.listing c hc

theorem decode_length (h : Heap) (path : String) (l : List RawItem) :
    (decode h path l).1.length = h.length + l.length := by
  simp [decode]

theorem decode_mem (h : Heap) (path : String) (l : List RawItem) (q : Nat) :
    q ∈ (decode h path l).2 ↔ h.length ≤ q ∧ q < h.length + l.length := by
  simp [decode, List.mem_range'_1]

theorem decode_read_old (h : Heap) (path : String) (l : List RawItem) (q : Nat)
    (hq : q < h.length) : (decode h path l).1.read q = h.read q :=
  Heap.read_append_left h _ q hq

/-- What `fetchListing` leaves behind satisfies `RunInv`, and the addresses it returns are
a listing of `path`. -/
theorem fetchListing_inv {σ : Type} (config : Config) (client : Client σ) (path : String)
    (st st' : Run σ) (res : Except GoError (List Nat)) (hinv : RunInv config st)
    (h : fetchListing config client path st = some (res, st')) :
    RunInv config st' ∧ Step st.heap st'.heap ∧
      ∀ ps, res = Except.ok ps → Listing st'.heap path ps := by
  rcases fetchListing_cases config client path st st' res h with
    ⟨err, hres, hheap, hserved, _⟩ | ⟨ps, hres, hget, hheap, hserved, _⟩ |
    ⟨l, hres, hheap, _, hserved⟩
  · refine ⟨⟨by rw [hheap]; exact hinv.heap, ?_⟩, by rw [hheap]; exact Step_refl _, ?_⟩
    · rw [hheap, hserved]
      exact hinv.served
    · intro ps hps
      rw [hres] at hps
      cases hps
  · refine ⟨⟨by rw [hheap]; exact hinv.heap, ?_⟩, by rw [hheap]; exact Step_refl _, ?_⟩
    · rw [hheap, hserved]
      exact hinv.served
    · intro ps' hps
      rw [hres] at hps
      cases hps
      obtain ⟨hpw, hall⟩ := hinv.served _ ps hget
      rw [hheap]
      refine ⟨fun c hc => (hall c hc).1, ?_, hpw⟩
      intro c hc
      exact append_cancel_left_string _ _ _ (hall c hc).2
  · obtain ⟨hinvD, hsD, hlD, _⟩ := HeapInv_decode st.heap path l hinv.heap
    have hold : ∀ url ps, mapGet st.served url = some ps →
        ps.Pairwise (fun a b => a < b) ∧
          ∀ c, c ∈ ps → c < st'.heap.length ∧
            config.ExtractUrl ++ (st'.heap.read c).listing = url := by
      intro url ps hm
      obtain ⟨hpw, hall⟩ := hinv.served url ps hm
      refine ⟨hpw, ?_⟩
      intro c hc
      obtain ⟨hlt, hl⟩ := hall c hc
      rw [hheap]
      refine ⟨Nat.lt_of_lt_of_le hlt hsD.length_le, ?_⟩
      rw [header_listing (hsD.header c hlt)]
      exact hl
    refine ⟨⟨by rw [hheap]; exact hinvD, ?_⟩, by rw [hheap]; exact hsD, ?_⟩
    · rcases hserved with hserved | ⟨_, hserved⟩
      · rw [hserved]
        exact hold
      · rw [hserved]
        intro url ps hm
        by_cases hu : config.ExtractUrl ++ path = url
        · subst hu
          rw [mapGet_mapSet_self] at hm
          cases hm
          refine ⟨hlD.sorted, ?_⟩
          intro c hc
          rw [hheap]
          refine ⟨hlD.lt c hc, ?_⟩
          rw [hlD.listing c hc]
        · rw [mapGet_mapSet_ne _ _ _ hu] at hm
          exact hold url ps hm
    · intro ps hps
      rw [hres] at hps
      cases hps
      rw [hheap]
      exact hlD
/-- Every call of `GetExtracts` that returns, started in a state that satisfies `RunInv`,
satisfies `Post`: the memory is well formed, the addresses returned are a listing of
`path`, and when no listing was served a second time the children of every record were
reset at most once. -/
theorem GetExtracts_post {σ : Type} (config : Config) (client : Client σ) :
    ∀ (fuel : Nat) (path : String) (st : Run σ) (res : Except GoError (List Nat))
      (st' : Run σ), RunInv config st →
      GetExtracts config client fuel path st = some (res, st') → Post config path st res st'
  | 0, _, _, _, _, _, h => by cases h
  | fuel + 1, path, st, res, st', hinv, h => by
    rw [GetExtracts] at h
    split at h
    · cases h
    · rename_i err s1 hfetch
      simp only [Option.some.injEq, Prod.mk.injEq] at h
      obtain ⟨h1, h2⟩ := h
      subst h1 h2
      obtain ⟨hI, hS, _⟩ := fetchListing_inv config client path st _ _ hinv hfetch
      rcases fetchListing_cases config client path st _ _ hfetch with
        ⟨_, _, hheap, _, hag⟩ | ⟨_, hres, _⟩ | ⟨_, hres, _⟩
      · refine ⟨hI, hS, fun ha => by rw [hag]; exact ha, ?_, ?_⟩
        · intro ps hps
          cases hps
        · intro _
          rw [hheap]
          refine ⟨fun _ _ => rfl, ?_⟩
          intro q hq
          rw [Heap.read_of_ge _ q hq]
          exact Nat.zero_le 1
      · cases hres
      · cases hres
    · rename_i extracts s1 hfetch
      obtain ⟨hI, hS, hL⟩ := fetchListing_inv config client path st _ _ hinv hfetch
      have hL1 := hL extracts rfl
      have hrec := GetExtracts_post config client fuel
      split at h
      · cases h
      · rename_i err s2 hloop
        simp only [Option.some.injEq, Prod.mk.injEq] at h
        obtain ⟨h1, h2⟩ := h
        subst h1 h2
        obtain ⟨hI2, hS2, hA2, hF2⟩ := indexLoop_post config _ hrec extracts s1 _ _ hI
          hL1.lt hloop
        rcases fetchListing_cases config client path st _ _ hfetch with
          ⟨_, hres, _⟩ | ⟨ps, hres, _, _, _, hag⟩ | ⟨l, hres, hheap, hag, _⟩
        · cases hres
        · refine ⟨hI2, Step_trans hS hS2, fun _ => hA2 hag, ?_, ?_⟩
          · intro ps hps
            cases hps
          · intro hf
            rw [hA2 hag] at hf
            cases hf
        · cases hres
          refine ⟨hI2, Step_trans hS hS2, fun ha => hA2 (by rw [hag]; exact ha), ?_, ?_⟩
          · intro ps hps
            cases hps
          · intro hf
            obtain ⟨_, _, _, hnew⟩ := HeapInv_decode st.heap path l hinv.heap
            obtain ⟨hF1, hF2, hF3⟩ := hF2 hf hL1.sorted
              (by
                intro c hc
                rw [hheap]
                exact (hnew c hc).2)
            refine ⟨?_, ?_⟩
            · intro q hq
              have hnm : q ∉ (decode st.heap path l).2 := by
                intro hm
                have := ((decode_mem st.heap path l q).1 hm).1
                omega
              rw [hF1 q (by rw [hheap, decode_length]; omega) hnm, hheap]
              rw [decode_read_old st.heap path l q hq]
            · intro q hq
              by_cases hq2 : q < st.heap.length + l.length
              · exact hF2 q ((decode_mem st.heap path l q).2 ⟨hq, hq2⟩)
              · exact hF3 q (by rw [hheap, decode_length]; omega)
      · rename_i s2 hloop
        simp only [Option.some.injEq, Prod.mk.injEq] at h
        obtain ⟨h1, h2⟩ := h
        subst h1 h2
        obtain ⟨hI2, hS2, hA2, hF2⟩ := indexLoop_post config _ hrec extracts s1 _ _ hI
          hL1.lt hloop
        rcases fetchListing_cases config client path st _ _ hfetch with
          ⟨_, hres, _⟩ | ⟨ps, hres, _, _, _, hag⟩ | ⟨l, hres, hheap, hag, _⟩
        · cases hres
        · refine ⟨hI2, Step_trans hS hS2, fun _ => hA2 hag, ?_, ?_⟩
          · intro ps hps
            cases hps
            exact Listing_step hL1 hS2
          · intro hf
            rw [hA2 hag] at hf
            cases hf
        · cases hres
          refine ⟨hI2, Step_trans hS hS2, fun ha => hA2 (by rw [hag]; exact ha), ?_, ?_⟩
          · intro ps hps
            cases hps
            exact Listing_step hL1 hS2
          · intro hf
            obtain ⟨_, _, _, hnew⟩ := HeapInv_decode st.heap path l hinv.heap
            obtain ⟨hF1, hF2, hF3⟩ := hF2 hf hL1.sorted
              (by
                intro c hc
                rw [hheap]
                exact (hnew c hc).2)
            refine ⟨?_, ?_⟩
            · intro q hq
              have hnm : q ∉ (decode st.heap path l).2 := by
                intro hm
                have := ((decode_mem st.heap path l q).1 hm).1
                omega
              rw [hF1 q (by rw [hheap, decode_length]; omega) hnm, hheap]
              rw [decode_read_old st.heap path l q hq]
            · intro q hq
              by_cases hq2 : q < st.heap.length + l.length
              · exact hF2 q ((decode_mem st.heap path l q).2 ⟨hq, hq2⟩)
              · exact hF3 q (by rw [hheap, decode_length]; omega)

theorem RunInv_start {σ : Type} (config : Config) (world : σ) (cache : Option ExtractsCache) :
    RunInv config (Run.start world cache) := by
  refine ⟨⟨?_, ?_⟩, ?_⟩
  · intro p
    exact Pointers_zero _
  · intro p
    exact OwnGroups_empty _ rfl rfl
  · intro url ps hm
    cases hm

/-- The tree of a run: when `GetExtracts`, called first in a run, returns a listing, the
memory is well formed, the addresses are a listing of `path`, and when no listing was
served a second time the children of every record were reset at most once. -/
theorem GetExtracts_run {σ : Type} (config : Config) (client : Client σ) (fuel : Nat)
    (path : String) (world : σ) (cache : Option ExtractsCache) (ptrs : List Nat)
    (st' : Run σ)
    (h : GetExtracts config client fuel path (Run.start world cache)
      = some (Except.ok ptrs, st')) :
    HeapInv st'.heap ∧ Listing st'.heap path ptrs ∧
      (st'.again = false → ∀ q, (st'.heap.read q).indexed ≤ 1) := by
  have hp := GetExtracts_post config client fuel path _ _ _ (RunInv_start config world cache) h
  refine ⟨hp.inv.heap, hp.listing ptrs rfl, ?_⟩
  intro hag q
  exact (hp.frame hag).2 q (Nat.zero_le _)
/-! ## The tree seen through the pointers -/

theorem viewList_map (f : Nat → Option ExtractItem) : ∀ (ps : List Nat) (es : List ExtractItem),
    viewList f ps = some es → es.map some = ps.map f
  | [], es, h => by
    simp only [viewList, Option.some.injEq] at h
    subst h
    rfl
  | p :: ps, es, h => by
    rw [viewList] at h
    split at h
    · rename_i e es' he hes
      simp only [Option.some.injEq] at h
      subst h
      simp only [List.map_cons, he, viewList_map f ps es' hes]
    · cases h

theorem viewList_mem {f : Nat → Option ExtractItem} {ps : List Nat} {es : List ExtractItem}
    (h : viewList f ps = some es) (e : ExtractItem) :
    e ∈ es ↔ ∃ p, p ∈ ps ∧ f p = some e := by
  have hm := viewList_map f ps es h
  constructor
  · intro he
    have : some e ∈ es.map some := List.mem_map.2 ⟨e, he, rfl⟩
    rw [hm] at this
    obtain ⟨p, hp, hfp⟩ := List.mem_map.1 this
    exact ⟨p, hp, hfp⟩
  · rintro ⟨p, hp, hfp⟩
    have : some e ∈ ps.map f := List.mem_map.2 ⟨p, hp, hfp⟩
    rw [← hm] at this
    obtain ⟨e', he', heq⟩ := List.mem_map.1 this
    cases heq
    exact he'

theorem viewDatasets_keys (f : Nat → Option ExtractItem) :
    ∀ (m : List (String × List Nat)) (m' : List (String × List ExtractItem)),
    viewDatasets f m = some m' → mapKeys m' = mapKeys m
  | [], m', h => by
    simp only [viewDatasets, Option.some.injEq] at h
    subst h
    rfl
  | (n, ps) :: m, m', h => by
    rw [viewDatasets] at h
    split at h
    · rename_i es m2 hes hm2
      simp only [Option.some.injEq] at h
      subst h
      have := viewDatasets_keys f m m2 hm2
      simp only [mapKeys, List.map_cons] at this ⊢
      rw [this]
    · cases h

theorem viewDatasets_get (f : Nat → Option ExtractItem) :
    ∀ (m : List (String × List Nat)) (m' : List (String × List ExtractItem)),
    viewDatasets f m = some m' → ∀ n,
      (mapGet m n = none ∧ mapGet m' n = none) ∨
        ∃ ps es, mapGet m n = some ps ∧ mapGet m' n = some es ∧ viewList f ps = some es
  | [], m', h, n => by
    simp only [viewDatasets, Option.some.injEq] at h
    subst h
    exact Or.inl ⟨rfl, rfl⟩
  | (k, ps) :: m, m', h, n => by
    rw [viewDatasets] at h
    split at h
    · rename_i es m2 hes hm2
      simp only [Option.some.injEq] at h
      subst h
      by_cases hk : k = n
      · subst hk
        exact Or.inr ⟨ps, es, by simp [mapGet], by simp [mapGet], hes⟩
      · have := viewDatasets_get f m m2 hm2 n
        simpa [mapGet, hk] using this
    · cases h

theorem viewLatest_keys (f : Nat → Option ExtractItem) :
    ∀ (m : List (String × Nat)) (m' : List (String × ExtractItem)),
    viewLatest f m = some m' → mapKeys m' = mapKeys m
  | [], m', h => by
    simp only [viewLatest, Option.some.injEq] at h
    subst h
    rfl
  | (n, p) :: m, m', h => by
    rw [viewLatest] at h
    split at h
    · rename_i e m2 he hm2
      simp only [Option.some.injEq] at h
      subst h
      have := viewLatest_keys f m m2 hm2
      simp only [mapKeys, List.map_cons] at this ⊢
      rw [this]
    · cases h

theorem viewLatest_get (f : Nat → Option ExtractItem) :
    ∀ (m : List (String × Nat)) (m' : List (String × ExtractItem)),
    viewLatest f m = some m' → ∀ n,
      (mapGet m n = none ∧ mapGet m' n = none) ∨
        ∃ p e, mapGet m n = some p ∧ mapGet m' n = some e ∧ f p = some e
  | [], m', h, n => by
    simp only [viewLatest, Option.some.injEq] at h
    subst h
    exact Or.inl ⟨rfl, rfl⟩
  | (k, p) :: m, m', h, n => by
    rw [viewLatest] at h
    split at h
    · rename_i e m2 he hm2
      simp only [Option.some.injEq] at h
      subst h
      by_cases hk : k = n
      · subst hk
        exact Or.inr ⟨p, e, by simp [mapGet], by simp [mapGet], he⟩
      · have := viewLatest_get f m m2 hm2 n
        simpa [mapGet, hk] using this
    · cases h

/-- A tree seen at the address `p` has the fields of the record at `p`, and its pointers
are seen one level less deep. -/
theorem view_some {h : Heap} {k p : Nat} {d : ExtractItem} (hv : view h k p = some d) :
    ∃ k', k = k' + 1 ∧
      viewDatasets (view h k') (h.read p).Datasets = some d.Datasets ∧
      viewLatest (view h k') (h.read p).Latest = some d.Latest ∧
      viewList (view h k') (h.read p).Children = some d.Children ∧
      d.ptr = p ∧ d.Name = (h.read p).Name ∧ d.Url = (h.read p).Url ∧
      d.Typ = (h.read p).Typ ∧ d.Modified = (h.read p).Modified ∧
      d.Groups = (h.read p).Groups := by
  cases k with
  | zero => cases hv
  | succ k' =>
    refine ⟨k', rfl, ?_⟩
    rw [view] at hv
    split at hv
    · rename_i ds l c hds hl hc
      simp only [Option.some.injEq] at hv
      subst hv
      exact ⟨hds, hl, hc, rfl, rfl, rfl, rfl, rfl, rfl⟩
    · cases hv

theorem view_IsDataset {h : Heap} {k p : Nat} {d : ExtractItem} (hv : view h k p = some d) :
    d.IsDataset = (h.read p).IsDataset ∧ d.DatasetName = (h.read p).DatasetName ∧
      d.IsDirectory = (h.read p).IsDirectory := by
  obtain ⟨_, _, _, _, _, _, hn, _, ht, _, _⟩ := view_some hv
  unfold ExtractItem.IsDataset ExtractItem.DatasetName ExtractItem.IsDirectory
    Record.IsDataset Record.DatasetName Record.IsDirectory
  rw [hn, ht]
  exact ⟨rfl, rfl, rfl⟩

theorem view_isNamed {h : Heap} {k p : Nat} {d : ExtractItem} (hv : view h k p = some d)
    (n : String) : isNamed n d = h.isNamed n p := by
  obtain ⟨h1, h2, _⟩ := view_IsDataset hv
  unfold isNamed Heap.isNamed
  rw [h1, h2]
theorem viewList_filter {f : Nat → Option ExtractItem} (P : Nat → Bool)
    (Q : ExtractItem → Bool) (hPQ : ∀ p e, f p = some e → Q e = P p) :
    ∀ (ps : List Nat) (es : List ExtractItem), viewList f ps = some es →
    viewList f (ps.filter P) = some (es.filter Q)
  | [], es, h => by
    simp only [viewList, Option.some.injEq] at h
    subst h
    rfl
  | p :: ps, es, h => by
    rw [viewList] at h
    split at h
    · rename_i e es' he hes
      simp only [Option.some.injEq] at h
      subst h
      have ih := viewList_filter P Q hPQ ps es' hes
      have hq := hPQ p e he
      cases hp : P p with
      | true =>
        rw [hp] at hq
        rw [List.filter_cons_of_pos hp, List.filter_cons_of_pos hq, viewList, he, ih]
      | false =>
        rw [hp] at hq
        rw [List.filter_cons_of_neg (by simp [hp]), List.filter_cons_of_neg (by simp [hq])]
        exact ih
    · cases h

theorem viewList_ptr (h : Heap) (k : Nat) : ∀ (ps : List Nat) (es : List ExtractItem),
    viewList (view h k) ps = some es → es.map ExtractItem.ptr = ps
  | [], es, hv => by
    simp only [viewList, Option.some.injEq] at hv
    subst hv
    rfl
  | p :: ps, es, hv => by
    rw [viewList] at hv
    split at hv
    · rename_i e es' he hes
      simp only [Option.some.injEq] at hv
      subst hv
      obtain ⟨_, _, _, _, _, hp, _⟩ := view_some he
      simp only [List.map_cons, hp, viewList_ptr h k ps es' hes]
    · cases hv

/-- A directory seen in a well formed memory satisfies `Listed`. -/
theorem Listed_of_view {h : Heap} {k p : Nat} {d : ExtractItem} (hinv : HeapInv h)
    (hv : view h k p = some d) (hdir : d.IsDirectory = true) : Listed d := by
  obtain ⟨k', _, hds, hl, hc, _, _, hurl, _, _, hg⟩ := view_some hv
  have hP := hinv.pointers p
  have hO := hinv.groups p
  have hrdir : (h.read p).IsDirectory = true := by
    rw [← (view_IsDataset hv).2.2]
    exact hdir
  refine ⟨?_, ?_, ?_, ?_, ?_⟩
  · rw [viewDatasets_keys _ _ _ hds]
    exact hP.keys_nodup
  · rw [viewDatasets_keys _ _ _ hds, viewLatest_keys _ _ _ hl]
    exact hP.keys_eq
  · intro e he hed
    obtain ⟨c, hcm, hce⟩ := (viewList_mem hc e).1 he
    have hcd : (h.read c).IsDataset = true := by
      rw [← (view_IsDataset hce).1]
      exact hed
    obtain ⟨name, ds, hn, hm, hin⟩ := hP.listed c hcm hcd
    rcases viewDatasets_get _ _ _ hds name with ⟨hnone, _⟩ | ⟨ps, es, hps, hes, hvl⟩
    · rw [hnone] at hm
      cases hm
    · rw [hm] at hps
      cases hps
      refine ⟨name, es, ?_, hes, (viewList_mem hvl e).2 ⟨c, hin, hce⟩⟩
      rw [(view_IsDataset hce).2.1]
      exact hn
  · intro n es e hm he
    rcases viewDatasets_get _ _ _ hds n with ⟨_, hnone⟩ | ⟨ps, es', hps, hes, hvl⟩
    · rw [hnone] at hm
      cases hm
    · rw [hm] at hes
      cases hes
      obtain ⟨c, hcm, hce⟩ := (viewList_mem hvl e).1 he
      obtain ⟨_, hnamed, _, hgr⟩ := hP.datasets n ps c hps hcm
      refine ⟨by rw [view_isNamed hce]; exact hnamed, ?_⟩
      have h1 : 1 ≤ (h.read p).indexed := by
        by_contra hcon
        have h0 : (h.read p).indexed = 0 := by omega
        rw [(hP.fresh h0).2.1] at hps
        cases hps
      obtain ⟨_, _, _, _, _, _, _, _, _, _, hge⟩ := view_some hce
      rw [hge, hgr, hg, hO.processed hrdir h1]
  · intro n e hm
    rcases viewLatest_get _ _ _ hl n with ⟨_, hnone⟩ | ⟨c, e', hps, hes, hce⟩
    · rw [hnone] at hm
      cases hm
    · rw [hm] at hes
      cases hes
      obtain ⟨ds, hd, hin⟩ := hP.latest n c hps
      rcases viewDatasets_get _ _ _ hds n with ⟨hnone, _⟩ | ⟨ps, es, hps2, hes2, hvl⟩
      · rw [hnone] at hd
        cases hd
      · rw [hd] at hps2
        cases hps2
        exact ⟨es, hes2, (viewList_mem hvl e).2 ⟨c, hin, hce⟩⟩

/-- A directory whose children were reset at most once satisfies `Once`. -/
theorem Once_of_view {h : Heap} {k p : Nat} {d : ExtractItem} (hinv : HeapInv h)
    (hv : view h k p = some d) (hidx : (h.read p).indexed ≤ 1) : Once d := by
  obtain ⟨k', _, hds, hl, hc, _, _, hurl, _, _, hg⟩ := view_some hv
  have hP := hinv.pointers p
  by_cases h0 : (h.read p).indexed = 0
  · obtain ⟨hC, hD, _⟩ := hP.fresh h0
    rw [hC] at hc
    rw [hD] at hds
    simp only [viewList, viewDatasets, Option.some.injEq] at hc hds
    refine ⟨?_, ?_⟩
    · intro n ds hm
      rw [← hds] at hm
      cases hm
    · rw [← hc]
      exact List.Pairwise.nil
  · have h1 : (h.read p).indexed = 1 := by omega
    obtain ⟨h_some, _, h_pw⟩ := hP.once h1
    refine ⟨?_, ?_⟩
    · intro n es hm
      rcases viewDatasets_get _ _ _ hds n with ⟨_, hnone⟩ | ⟨ps, es', hps, hes, hvl⟩
      · rw [hnone] at hm
        cases hm
      · rw [hm] at hes
        cases hes
        rw [h_some n ps hps] at hvl
        have := viewList_filter (h.isNamed n) (isNamed n)
          (fun c e hce => view_isNamed hce n) _ _ hc
        rw [this] at hvl
        exact (Option.some.inj hvl).symm
    · rw [viewList_ptr h k' _ _ hc]
      exact h_pw

theorem directories_cons (i : ExtractItem) (items : List ExtractItem) :
    directories (i :: items) = directoriesOf i ++ directories items := by
  rw [directories]

theorem directoriesOf_dir (d : ExtractItem) (h : d.IsDirectory = true) :
    directoriesOf d = d :: directories d.Children := by
  cases d with
  | mk p n u t m s ds l c g =>
    have ht : t = "dir" := by simpa [ExtractItem.IsDirectory, ExtractItem.Typ] using h
    rw [directoriesOf, if_pos ht]
    rfl

theorem directoriesOf_not_dir (d : ExtractItem) (h : d.IsDirectory = false) :
    directoriesOf d = [] := by
  cases d with
  | mk p n u t m s ds l c g =>
    have ht : ¬ t = "dir" := by simpa [ExtractItem.IsDirectory, ExtractItem.Typ] using h
    rw [directoriesOf, if_neg ht]

/-- Every directory of a tree seen through the pointers is a directory seen at some
address. -/
theorem directories_view (h : Heap) : ∀ (k : Nat) (ps : List Nat) (tree : List ExtractItem),
    viewList (view h k) ps = some tree → ∀ d, d ∈ directories tree →
    d.IsDirectory = true ∧ ∃ k' p, view h k' p = some d
  | _, [], tree, hv, d, hd => by
    simp only [viewList, Option.some.injEq] at hv
    subst hv
    rw [directories] at hd
    cases hd
  | k, p :: ps, tree, hv, d, hd => by
    rw [viewList] at hv
    split at hv
    · rename_i e es he hes
      simp only [Option.some.injEq] at hv
      subst hv
      rw [directories_cons] at hd
      rcases List.mem_append.1 hd with hd | hd
      · cases hdir : e.IsDirectory with
        | false =>
          rw [directoriesOf_not_dir e hdir] at hd
          cases hd
        | true =>
          rw [directoriesOf_dir e hdir] at hd
          rcases List.mem_cons.1 hd with hd | hd
          · subst hd
            exact ⟨hdir, k, p, he⟩
          · obtain ⟨k', hk, _, _, hc, _⟩ := view_some he
            subst hk
            exact directories_view h k' _ _ hc d hd
      · exact directories_view h k ps es hes d hd
    · cases hv
termination_by k ps => (k, ps.length)
/-! ## Properties of the index of a directory -/

theorem contains_iff (str : String) : ∀ list : List String, contains str list = true ↔ str ∈ list
  | [] => by simp [contains]
  | entry :: list => by
    unfold contains
    by_cases h : entry = str
    · simp [h]
    · have h2 : ¬ str = entry := fun e => h e.symm
      simp [h, h2, contains_iff str list]

theorem matchGroups_true (gf : List String) : ∀ groups : List String,
    matchGroups gf groups true = true
  | [] => rfl
  | g :: groups => by
    unfold matchGroups
    simp [matchGroups_true gf groups]

theorem matchGroups_false (gf : List String) : ∀ groups : List String,
    matchGroups gf groups false = true → ∃ g, g ∈ groups ∧ g ∈ gf
  | [], h => by
    unfold matchGroups at h
    cases h
  | g :: groups, h => by
    unfold matchGroups at h
    by_cases hc : contains g gf = true
    · exact ⟨g, List.mem_cons_self _ _, (contains_iff g gf).1 hc⟩
    · simp only [hc, Bool.false_eq_true, if_false] at h
      obtain ⟨g', hg', hgf⟩ := matchGroups_false gf groups h
      exact ⟨g', List.mem_cons_of_mem _ hg', hgf⟩

/-- In a directory of a tree, `Latest[n]` is an entry of `Datasets[n]`, for every entry
`(n, ds)` of `Datasets`. -/
theorem Listed_latest_of_mem {d : ExtractItem} (hd : Listed d) {n : String}
    {ds : List ExtractItem} (h : (n, ds) ∈ d.Datasets) :
    mapGet d.Datasets n = some ds ∧ ∃ l, mapGet d.Latest n = some l ∧ l ∈ ds := by
  have hget := mapGet_of_mem n ds d.Datasets hd.keys_nodup h
  refine ⟨hget, ?_⟩
  have hk : n ∈ mapKeys d.Latest := by
    rw [hd.keys_eq]
    exact List.mem_map.2 ⟨(n, ds), h, rfl⟩
  cases hl : mapGet d.Latest n with
  | none => exact absurd hk ((mapGet_eq_none_iff n d.Latest).1 hl)
  | some l =>
    obtain ⟨ds', hds', hin⟩ := hd.latest n l hl
    rw [hget] at hds'
    cases hds'
    exact ⟨l, rfl, hin⟩

theorem Once_ptrs_of_mem {d : ExtractItem} (hd : Once d) {n : String}
    {ds : List ExtractItem} (h : mapGet d.Datasets n = some ds) :
    (ds.map ExtractItem.ptr).Pairwise (fun a b => a < b) := by
  rw [hd.datasets n ds h]
  exact List.Pairwise.sublist (List.Sublist.map _ (List.filter_sublist _)) hd.ptrs

theorem filter_ptr_eq : ∀ (ds : List ExtractItem) (l : ExtractItem),
    (ds.map ExtractItem.ptr).Pairwise (fun a b => a < b) → l ∈ ds →
    ds.filter (fun x => decide (x.ptr = l.ptr)) = [l]
  | [], _, _, h => by cases h
  | x :: ds, l, hp, h => by
    simp only [List.map_cons, List.pairwise_cons] at hp
    rcases List.mem_cons.1 h with rfl | hin
    · have hrest : ds.filter (fun x => decide (x.ptr = l.ptr)) = [] := by
        rw [List.filter_eq_nil_iff]
        intro y hy
        have := hp.1 y.ptr (List.mem_map.2 ⟨y, hy, rfl⟩)
        simp only [decide_eq_true_eq]
        omega
      simp [List.filter_cons, hrest]
    · have hlt := hp.1 l.ptr (List.mem_map.2 ⟨l, hin, rfl⟩)
      have hne : ¬ x.ptr = l.ptr := by omega
      simp only [List.filter_cons, hne, decide_False, Bool.false_eq_true, if_false]
      exact filter_ptr_eq ds l hp.2 hin

/-- With `latestOnly` and no other filter, a directory whose children were reset at most
once gives one file for each key of `Datasets`: that of `Latest` for the key. -/
theorem emit_latest {d : ExtractItem} (hd : Listed d) (ho : Once d) :
    ∀ (m : List (String × List ExtractItem)), (∀ kv, kv ∈ m → kv ∈ d.Datasets) →
    (emitDatasets d [] none true m []).map some = (mapKeys m).map (latestFile d)
  | [], _ => by simp [emitDatasets, mapKeys]
  | (n, ds) :: m, hm => by
    have ih := emit_latest hd ho m (fun kv hkv => hm kv (List.mem_cons_of_mem _ hkv))
    have hmem : (n, ds) ∈ d.Datasets := hm _ (List.mem_cons_self _ _)
    obtain ⟨hget, l, hl, hlds⟩ := Listed_latest_of_mem hd hmem
    have hkeep : keeps d n [] none true = fun x => decide (x.ptr = l.ptr) := by
      funext x
      simp [keeps, isLatest, hl]
    rw [emitDatasets, emitDatasets_eq, emitFiles_eq, hkeep,
      filter_ptr_eq ds l (Once_ptrs_of_mem ho hget) hlds]
    rw [emitDatasets_eq] at ih
    simp only [List.nil_append] at ih
    simp only [List.nil_append, List.map_cons, List.map_nil, List.singleton_append, mapKeys]
    rw [ih]
    simp [latestFile, hl, mapKeys]

/-- The directories of a tree of `GetExtracts`: in every run each of them satisfies
`Listed`, and `Once` when no listing was served a second time. -/
theorem GetExtracts_tree {σ : Type} (config : Config) (client : Client σ) (fuel : Nat)
    (path : String) (world : σ) (cache : Option ExtractsCache) (ptrs : List Nat)
    (st' : Run σ) (depth : Nat) (tree : List ExtractItem)
    (h : GetExtracts config client fuel path (Run.start world cache)
      = some (Except.ok ptrs, st'))
    (hv : viewAll st'.heap depth ptrs = some tree) (d : ExtractItem)
    (hd : d ∈ directories tree) : Listed d ∧ (st'.again = false → Once d) := by
  obtain ⟨hinv, _, hidx⟩ := GetExtracts_run config client fuel path world cache ptrs st' h
  obtain ⟨hdir, k, p, hview⟩ := directories_view st'.heap depth ptrs tree hv d hd
  exact ⟨Listed_of_view hinv hview hdir, fun hag => Once_of_view hinv hview (hidx hag p)⟩
/-! ## Runs without a loaded snapshot -/

theorem cacheRecord_no_snapshot (cache cache' : Option ExtractsCache) (url : String)
    (listing : List RawItem) (h : cacheRecord cache url listing = some cache')
    (hno : ∀ u, cacheLookup cache u = none) : ∀ u, cacheLookup cache' u = none := by
  unfold cacheRecord at h
  cases cache with
  | none =>
    simp only [Option.some.injEq] at h
    subst h
    exact hno
  | some c =>
    simp only [] at h
    cases hr : c.Responses with
    | none => rw [hr] at h; cases h
    | some m =>
      rw [hr] at h
      simp only [Option.some.injEq] at h
      subst h
      intro u
      simp [cacheLookup, Time.IsZero]

theorem fetchListing_no_snapshot {σ : Type} (config : Config) (client : Client σ)
    (path : String) (st st' : Run σ) (r : Except GoError (List Nat))
    (h : fetchListing config client path st = some (r, st'))
    (hno : ∀ u, cacheLookup st.cache u = none) :
    st'.again = st.again ∧ ∀ u, cacheLookup st'.cache u = none := by
  unfold fetchListing at h
  simp only [hno] at h
  split at h
  · simp only [Option.some.injEq, Prod.mk.injEq] at h
    rw [← h.2]
    exact ⟨rfl, hno⟩
  · split at h
    · simp only [Option.some.injEq, Prod.mk.injEq] at h
      rw [← h.2]
      exact ⟨rfl, hno⟩
    · split at h
      · cases h
      · rename_i cache' hrec
        simp only [Option.some.injEq, Prod.mk.injEq] at h
        rw [← h.2]
        exact ⟨rfl, cacheRecord_no_snapshot _ _ _ _ hrec hno⟩

theorem indexLoop_no_snapshot {σ : Type} (recur : String → Run σ → Outcome σ)
    (hrec : ∀ p st r st', recur p st = some (r, st') →
      (∀ u, cacheLookup st.cache u = none) →
      st'.again = st.again ∧ ∀ u, cacheLookup st'.cache u = none) :
    ∀ (es : List Nat) (st st' : Run σ) (r : Option GoError),
      indexLoop recur es st = some (r, st') → (∀ u, cacheLookup st.cache u = none) →
      st'.again = st.again ∧ ∀ u, cacheLookup st'.cache u = none
  | [], st, st', r, h, hno => by
    simp only [indexLoop, Option.some.injEq, Prod.mk.injEq] at h
    rw [← h.2]
    exact ⟨rfl, hno⟩
  | e :: rest, st, st', r, h, hno => by
    rw [indexLoop] at h
    split at h
    · simp only [] at h
      split at h
      · cases h
      · rename_i err s2 hcall
        simp only [Option.some.injEq, Prod.mk.injEq] at h
        rw [← h.2]
        have hs1 : s2.again = ({ st with heap := setGroups st.heap e } : Run σ).again ∧
            ∀ u, cacheLookup s2.cache u = none := hrec _ _ _ _ hcall hno
        exact hs1
      · rename_i children s2 hcall
        have hs1 : s2.again = ({ st with heap := setGroups st.heap e } : Run σ).again ∧
            ∀ u, cacheLookup s2.cache u = none := hrec _ _ _ _ hcall hno
        split at h
        · cases h
        · rename_i heap _
          have hs2 : st'.again = ({ s2 with heap := heap } : Run σ).again ∧
              ∀ u, cacheLookup st'.cache u = none :=
            indexLoop_no_snapshot recur hrec rest _ st' r h hs1.2
          exact ⟨hs2.1.trans hs1.1, hs2.2⟩
    · exact indexLoop_no_snapshot recur hrec rest st st' r h hno

/-- A run in which the cache gives no listing, because caching is disabled or because no
valid snapshot was loaded, takes no listing from the cache: `again` stays as it was. -/
theorem GetExtracts_no_snapshot {σ : Type} (config : Config) (client : Client σ) :
    ∀ (fuel : Nat) (path : String) (st : Run σ) (r : Except GoError (List Nat))
      (st' : Run σ),
      GetExtracts config client fuel path st = some (r, st') →
      (∀ u, cacheLookup st.cache u = none) →
      st'.again = st.again ∧ ∀ u, cacheLookup st'.cache u = none
  | 0, _, _, _, _, h, _ => by cases h
  | fuel + 1, path, st, r, st', h, hno => by
    rw [GetExtracts] at h
    split at h
    · cases h
    · rename_i err s1 hfetch
      simp only [Option.some.injEq, Prod.mk.injEq] at h
      rw [← h.2]
      exact fetchListing_no_snapshot config client path st s1 _ hfetch hno
    · rename_i extracts s1 hfetch
      have hs1 := fetchListing_no_snapshot config client path st s1 _ hfetch hno
      split at h
      · cases h
      · rename_i err s2 hloop
        simp only [Option.some.injEq, Prod.mk.injEq] at h
        rw [← h.2]
        have hs2 := indexLoop_no_snapshot _ (GetExtracts_no_snapshot config client fuel)
          extracts s1 s2 _ hloop hs1.2
        exact ⟨hs2.1.trans hs1.1, hs2.2⟩
      · rename_i s2 hloop
        simp only [Option.some.injEq, Prod.mk.injEq] at h
        rw [← h.2]
        have hs2 := indexLoop_no_snapshot _ (GetExtracts_no_snapshot config client fuel)
          extracts s1 s2 _ hloop hs1.2
        exact ⟨hs2.1.trans hs1.1, hs2.2⟩

/-- With caching disabled, no run takes a listing from the cache a second time. -/
theorem GetExtracts_disabled {σ : Type} (config : Config) (client : Client σ) (fuel : Nat)
    (path : String) (world : σ) (r : Except GoError (List Nat)) (st' : Run σ)
    (h : GetExtracts config client fuel path (Run.start world none) = some (r, st')) :
    st'.again = false :=
  (GetExtracts_no_snapshot config client fuel path _ r st' h (fun _ => rfl)).1
/-! ## The index of a directory (C1, C10) -/

theorem sampleRun_eq :
    GetExtracts sampleConfig sampleClient 2 "" (Run.start () none)
      = some (Except.ok samplePtrs, sampleEnd) := by
  rfl

theorem sampleTree_eq : viewAll sampleEnd.heap 2 samplePtrs = some sampleTree := by
  rfl

theorem sharedRun_eq :
    GetExtracts cachingConfig forbiddenClient 3 "" (Run.start () (some sharedSnapshot))
      = some (Except.ok [0, 1], sharedEnd) := by
  rfl

theorem sharedTree_eq : viewAll sharedEnd.heap 3 [0, 1] = some sharedTree := by
  rfl

theorem sampleDir_mem : sampleDir ∈ directories sampleTree := by
  rw [sampleTree, directories_cons, directoriesOf_dir _ (by decide)]
  exact List.mem_cons_self _ _

theorem sharedDir_mem : sharedDir ∈ directories sharedTree := by
  rw [sharedTree, directories_cons, directoriesOf_dir _ (by decide)]
  refine List.mem_cons_of_mem _ (List.mem_append_left _ ?_)
  show sharedDir ∈ directories [sharedDir]
  rw [directories_cons, directoriesOf_dir _ (by decide)]
  exact List.mem_cons_self _ _

/-- C10 as stated fails: `sharedSnapshot` is a valid snapshot in which two directories of
the root listing have the URL `/a/`. `GetExtracts` takes the listing of `/a/` from the cache
twice, the same records both times, so the directory `b` of that listing is indexed twice:
line 202 resets its `Children` and nothing resets its `Datasets`. In the tree returned,
`b.Children` is the two files at the addresses 3 and 4 and `b.Datasets["android"]` is
these files twice, which is not a sub-list of `b.Children`. -/
theorem GetExtracts_datasets_not_sublist :
    ReadExtractsCache cachingConfig readTime (CacheFile.snapshot sharedSnapshot)
      = some (some sharedSnapshot) ∧
    GetExtracts cachingConfig forbiddenClient 3 "" (Run.start () (some sharedSnapshot))
      = some (Except.ok [0, 1], sharedEnd) ∧
    viewAll sharedEnd.heap 3 [0, 1] = some sharedTree ∧
    sharedDir ∈ directories sharedTree ∧
    sharedDir.Name = "b" ∧
    sharedDir.Children.map ExtractItem.ptr = [3, 4] ∧
    (mapGet sharedDir.Datasets "android").map (fun ds => ds.map ExtractItem.ptr)
      = some [3, 4, 3, 4] ∧
    ¬ ∃ ds, mapGet sharedDir.Datasets "android" = some ds ∧ ds.Sublist sharedDir.Children := by
  refine ⟨by decide, sharedRun_eq, sharedTree_eq, sharedDir_mem, by decide, by decide,
    by decide, ?_⟩
  rintro ⟨ds, hget, hsub⟩
  have hlen := hsub.length_le
  have h1 : (mapGet sharedDir.Datasets "android").map List.length = some 4 := by decide
  have h2 : sharedDir.Children.length = 2 := by decide
  rw [hget] at h1
  simp only [Option.map_some', Option.some.injEq] at h1
  omega

/-- C10, amended: in every directory of a tree returned by `GetExtracts`, `Latest` and
`Datasets` have the same keys, and for every key `n` the entry `Latest[n]` is a member of
`Datasets[n]`, whose entries are dataset files whose `DatasetName` is `n`; and when no
listing of the run was taken from the cache a second time (`again = false`, as in every
run without a loaded snapshot: `GetExtracts_no_snapshot`), `Datasets[n]` is a sub-list of
`Children`. -/
theorem GetExtracts_latest_mem_datasets {σ : Type} (config : Config) (client : Client σ)
    (fuel : Nat) (path : String) (world : σ) (cache : Option ExtractsCache)
    (ptrs : List Nat) (st' : Run σ) (depth : Nat) (tree : List ExtractItem)
    (h : GetExtracts config client fuel path (Run.start world cache)
      = some (Except.ok ptrs, st'))
    (hv : viewAll st'.heap depth ptrs = some tree)
    (d : ExtractItem) (hd : d ∈ directories tree) :
    (∀ n, n ∈ mapKeys d.Latest ↔ n ∈ mapKeys d.Datasets) ∧
    (∀ n, n ∈ mapKeys d.Datasets → ∃ l ds, mapGet d.Latest n = some l ∧
      mapGet d.Datasets n = some ds ∧ l ∈ ds ∧
      (∀ c, c ∈ ds → c.IsDataset = true ∧ c.DatasetName = some n) ∧
      (st'.again = false → ds.Sublist d.Children)) := by
  obtain ⟨hL, hO⟩ := GetExtracts_tree config client fuel path world cache ptrs st' depth tree
    h hv d hd
  refine ⟨fun n => by rw [hL.keys_eq], ?_⟩
  intro n hn
  obtain ⟨⟨n', ds⟩, hmem, hfst⟩ := List.mem_map.1 hn
  simp only at hfst
  subst hfst
  obtain ⟨hget, l, hl, hlds⟩ := Listed_latest_of_mem hL hmem
  refine ⟨l, ds, hl, hget, hlds, ?_, ?_⟩
  · intro c hc
    have := (hL.datasets n' ds c hget hc).1
    unfold isNamed at this
    simp only [Bool.and_eq_true, beq_iff_eq] at this
    exact this
  · intro hag
    rw [(hO hag).datasets n' ds hget]
    exact List.filter_sublist _

theorem GetExtracts_latest_mem_datasets_witness :
    (∀ n, n ∈ mapKeys sampleDir.Latest ↔ n ∈ mapKeys sampleDir.Datasets) ∧
    (∀ n, n ∈ mapKeys sampleDir.Datasets → ∃ l ds,
      mapGet sampleDir.Latest n = some l ∧
      mapGet sampleDir.Datasets n = some ds ∧ l ∈ ds ∧
      (∀ c, c ∈ ds → c.IsDataset = true ∧ c.DatasetName = some n) ∧
      (sampleEnd.again = false → ds.Sublist sampleDir.Children)) :=
  GetExtracts_latest_mem_datasets sampleConfig sampleClient 2 "" () none samplePtrs sampleEnd
    2 sampleTree (by rfl) (by rfl) sampleDir sampleDir_mem

/-- C1 (the code at a failing input): in the tree of `sampleClient`, the directory
`android` (mtime 3000) has the files of mtime 2000 and 1000 in `Datasets["android"]`, in
this order, and `Latest["android"]` is the file of mtime 1000: the comparison of line 223
reads the mtime of the directory, not that of the child. -/
theorem GetExtracts_latest_not_greatest :
    GetExtracts sampleConfig sampleClient 2 "" (Run.start () none)
      = some (Except.ok samplePtrs, sampleEnd) ∧
    viewAll sampleEnd.heap 2 samplePtrs = some sampleTree ∧
    (directories sampleTree).map (fun d =>
      (d.Name, d.Modified, (mapGet d.Latest "android").map ExtractItem.Modified,
       ((mapGet d.Datasets "android").getD []).map ExtractItem.Modified))
    = [("android", 3000, some 1000, [2000, 1000]), ("desktop", 3000, none, [])] := by
  refine ⟨by rfl, by rfl, ?_⟩
  decide
/-! ## `FilterFiles` on the trees of `GetExtracts` (C2 to C5) -/

/-- C2 as stated fails: the root listing of `sampleClient` holds the dataset file
`summary_2022-05-01.zip`, and `FilterFiles` without any filter returns no file for it. -/
theorem FilterFiles_skips_root_files :
    GetExtracts sampleConfig sampleClient 2 "" (Run.start () none)
      = some (Except.ok samplePtrs, sampleEnd) ∧
    viewAll sampleEnd.heap 2 samplePtrs = some sampleTree ∧
    ∃ e, e ∈ sampleTree ∧ e.IsDataset = true ∧
      ¬ ∃ f, f ∈ FilterFiles MapOrder.insertion sampleTree [] [] none false [] ∧ f.Item = e := by
  refine ⟨by rfl, by rfl, sampleRootFile,
    List.mem_cons_of_mem _ (List.mem_cons_of_mem _ (List.mem_cons_self sampleRootFile [])),
    by decide, ?_⟩
  rintro ⟨f, hf, he⟩
  have hn : f.Item.Name ∈
      (FilterFiles MapOrder.insertion sampleTree [] [] none false []).map (fun f => f.Item.Name) :=
    List.mem_map.2 ⟨f, hf, rfl⟩
  rw [he] at hn
  revert hn
  decide

/-- C2, amended: without any filter, `FilterFiles` returns every dataset file that is a
child of a directory of the tree: for every directory `d` of a tree returned by
`GetExtracts`, in every run, and every entry `e` of `d.Children` with `e.IsDataset()`,
some returned `ExtractFile` has `e` as its `Item`. -/
theorem FilterFiles_no_filter {σ : Type} (o : MapOrder) (config : Config) (client : Client σ)
    (fuel : Nat) (path : String) (world : σ) (cache : Option ExtractsCache)
    (ptrs : List Nat) (st' : Run σ) (depth : Nat) (tree : List ExtractItem)
    (h : GetExtracts config client fuel path (Run.start world cache)
      = some (Except.ok ptrs, st'))
    (hv : viewAll st'.heap depth ptrs = some tree)
    (d : ExtractItem) (hd : d ∈ directories tree)
    (e : ExtractItem) (he : e ∈ d.Children) (hds : e.IsDataset = true) :
    ∃ f, f ∈ FilterFiles o tree [] [] none false [] ∧ f.Item = e := by
  have hL := (GetExtracts_tree config client fuel path world cache ptrs st' depth tree
    h hv d hd).1
  obtain ⟨name, ds, _, hg, hin⟩ := hL.listed e he hds
  refine ⟨fileOf d name e, ?_, rfl⟩
  rw [FilterFiles_eq]
  simp only [List.nil_append, List.mem_flatMap]
  refine ⟨d, hd, mem_emits.2 ⟨matchGroups_true _ _, name, ds, e, mem_of_mapGet _ _ _ hg, hin,
    ?_, rfl⟩⟩
  simp [keeps]

theorem sharedChild_mem : sharedChild ∈ sharedDir.Children :=
  List.mem_cons_self sharedChild [sharedOlder]

theorem FilterFiles_no_filter_witness :
    sharedEnd.again = true ∧ sharedChild.IsDataset = true ∧
    ∃ f, f ∈ FilterFiles MapOrder.insertion sharedTree [] [] none false [] ∧
      f.Item = sharedChild :=
  ⟨by decide, by decide, FilterFiles_no_filter MapOrder.insertion cachingConfig forbiddenClient
    3 "" () (some sharedSnapshot) [0, 1] sharedEnd 3 sharedTree (by rfl) (by rfl) sharedDir
    sharedDir_mem sharedChild sharedChild_mem (by decide)⟩

/-- C3 as stated fails: in the tree `GetExtracts` builds from the valid snapshot
`sharedSnapshot`, the directory `b` was indexed twice and `Datasets["android"]` holds each
of its two files twice. `FilterFiles` with `latestOnly` visits `b` under each of the two
directories of the root listing and returns the file `Latest["android"]` twice per visit:
four files for the pair (`b`, `android`), which the tree holds twice. -/
theorem FilterFiles_latest_only_repeats :
    ReadExtractsCache cachingConfig readTime (CacheFile.snapshot sharedSnapshot)
      = some (some sharedSnapshot) ∧
    GetExtracts cachingConfig forbiddenClient 3 "" (Run.start () (some sharedSnapshot))
      = some (Except.ok [0, 1], sharedEnd) ∧
    viewAll sharedEnd.heap 3 [0, 1] = some sharedTree ∧
    (FilterFiles MapOrder.insertion sharedTree [] [] none true []).map
        (fun f => (f.Dataset, f.Name, f.Item.ptr, f.Latest))
      = [("android", "android_2022-05-01.zip", 3, true),
         ("android", "android_2022-05-01.zip", 3, true),
         ("android", "android_2022-05-01.zip", 3, true),
         ("android", "android_2022-05-01.zip", 3, true)] ∧
    (datasetPairs MapOrder.insertion sharedTree).map (fun p => (p.1.Name, p.1.ptr, p.2))
      = [("b", 2, "android"), ("b", 2, "android")] ∧
    (FilterFiles MapOrder.insertion sharedTree [] [] none true []).length
      ≠ (datasetPairs MapOrder.insertion sharedTree).length := by
  refine ⟨by decide, sharedRun_eq, sharedTree_eq, by decide, by decide, by decide⟩

/-- C3, amended: on a tree returned by `GetExtracts` in a run in which no listing was taken
from the cache a second time (`again = false`, as in every run without a loaded snapshot:
`GetExtracts_no_snapshot`), `FilterFiles` with `latestOnly`, no cutoff and empty filters
returns one file for each pair of a directory of the tree and a key of its `Datasets`,
that of `Latest` for the key: position by position, the files returned are those of the
pairs, and there are as many files as pairs. In every run, every file returned has
`Latest = true`. -/
theorem FilterFiles_latest_only {σ : Type} (o : MapOrder) (config : Config) (client : Client σ)
    (fuel : Nat) (path : String) (world : σ) (cache : Option ExtractsCache)
    (ptrs : List Nat) (st' : Run σ) (depth : Nat) (tree : List ExtractItem)
    (h : GetExtracts config client fuel path (Run.start world cache)
      = some (Except.ok ptrs, st'))
    (hv : viewAll st'.heap depth ptrs = some tree) :
    (st'.again = false →
      (FilterFiles o tree [] [] none true []).map some
        = (datasetPairs o tree).map (fun p => latestFile p.1 p.2) ∧
      (FilterFiles o tree [] [] none true []).length = (datasetPairs o tree).length) ∧
    ∀ f, f ∈ FilterFiles o tree [] [] none true [] → f.Latest = true := by
  have hgood := GetExtracts_tree config client fuel path world cache ptrs st' depth tree h hv
  refine ⟨?_, ?_⟩
  · intro hag
    have hmap : (FilterFiles o tree [] [] none true []).map some
        = (datasetPairs o tree).map (fun p => latestFile p.1 p.2) := by
      rw [FilterFiles_eq]
      unfold datasetPairs
      simp only [List.nil_append, Option.isSome_none, Bool.false_eq_true, if_false]
      have key : ∀ dirs : List ExtractItem, (∀ d, d ∈ dirs → Listed d ∧ Once d) →
          (dirs.flatMap (emits o [] [] none true)).map some
            = (dirs.flatMap (fun d => (mapKeys (o.run d.Datasets)).map (fun n => (d, n)))).map
                (fun p => latestFile p.1 p.2) := by
        intro dirs
        induction dirs with
        | nil => intro _; rfl
        | cons d dirs ih =>
          intro hall
          have hd := hall d (List.mem_cons_self _ _)
          simp only [List.flatMap_cons, List.map_append]
          rw [ih (fun x hx => hall x (List.mem_cons_of_mem _ hx))]
          congr 1
          unfold emits
          have hm : matchGroups [] d.Groups (decide (([] : List String).length = 0)) = true :=
            matchGroups_true _ _
          rw [if_pos hm,
            emit_latest hd.1 hd.2 (o.run d.Datasets) (fun kv hkv => (o.perm _).mem_iff.1 hkv)]
          simp [List.map_map, Function.comp]
      exact key _ (fun d hd => ⟨(hgood d hd).1, (hgood d hd).2 hag⟩)
    refine ⟨hmap, ?_⟩
    have := congrArg List.length hmap
    simpa using this
  · intro f hf
    rw [FilterFiles_eq] at hf
    simp only [List.nil_append, List.mem_flatMap] at hf
    obtain ⟨d, _, hfd⟩ := hf
    obtain ⟨_, name, ds, x, _, _, hk, rfl⟩ := mem_emits.1 hfd
    unfold keeps at hk
    simp only [Option.isSome_none, Bool.false_eq_true, if_false, Bool.not_true, Bool.false_or,
      Bool.and_eq_true] at hk
    exact hk.1.2

theorem FilterFiles_latest_only_witness :
    sampleEnd.again = false ∧
    ((sampleEnd.again = false →
      (FilterFiles MapOrder.insertion sampleTree [] [] none true []).map some
        = (datasetPairs MapOrder.insertion sampleTree).map (fun p => latestFile p.1 p.2) ∧
      (FilterFiles MapOrder.insertion sampleTree [] [] none true []).length
        = (datasetPairs MapOrder.insertion sampleTree).length) ∧
    ∀ f, f ∈ FilterFiles MapOrder.insertion sampleTree [] [] none true [] → f.Latest = true) :=
  ⟨by decide, FilterFiles_latest_only MapOrder.insertion sampleConfig sampleClient 2 "" () none
    samplePtrs sampleEnd 2 sampleTree (by rfl) (by rfl)⟩

/-- C4: on a tree returned by `GetExtracts`, in every run, with a non-empty group filter
`G` and any other filters, every file returned by `FilterFiles` has an entry whose groups
intersect `G`: some element of `f.Item.Groups` is an element of `G`. -/
theorem FilterFiles_groups {σ : Type} (o : MapOrder) (config : Config) (client : Client σ)
    (fuel : Nat) (path : String) (world : σ) (cache : Option ExtractsCache)
    (ptrs : List Nat) (st' : Run σ) (depth : Nat) (tree : List ExtractItem)
    (h : GetExtracts config client fuel path (Run.start world cache)
      = some (Except.ok ptrs, st'))
    (hv : viewAll st'.heap depth ptrs = some tree)
    (G : List String) (hG : G ≠ []) (ff : List String) (since : Option Time) (lo : Bool)
    (f : ExtractFile) (hf : f ∈ FilterFiles o tree G ff since lo []) :
    ∃ g, g ∈ f.Item.Groups ∧ g ∈ G := by
  have hgood := GetExtracts_tree config client fuel path world cache ptrs st' depth tree h hv
  rw [FilterFiles_eq] at hf
  simp only [List.nil_append, List.mem_flatMap] at hf
  obtain ⟨d, hd, hfd⟩ := hf
  have hL := (hgood d hd).1
  obtain ⟨hm, name, ds, x, hmem, hx, _, rfl⟩ := mem_emits.1 hfd
  have hlen : decide (G.length = 0) = false := by
    cases G with
    | nil => exact absurd rfl hG
    | cons a G => simp
  rw [hlen] at hm
  obtain ⟨g, hg, hgG⟩ := matchGroups_false G d.Groups hm
  refine ⟨g, ?_, hgG⟩
  have hget := mapGet_of_mem name ds d.Datasets hL.keys_nodup hmem
  show g ∈ x.Groups
  rw [(hL.datasets name ds x hget hx).2]
  exact hg

theorem sampleMatch_mem :
    sampleMatch ∈ FilterFiles MapOrder.insertion sampleTree ["android"] [] none false [] :=
  (List.mem_cons_self sampleMatch
    (FilterFiles MapOrder.insertion sampleTree ["android"] [] none false []).tail :
    sampleMatch ∈ sampleMatch :: _)

theorem FilterFiles_groups_witness :
    sampleMatch.Name = "android_2022-05-01.zip" ∧
    ∃ g, g ∈ sampleMatch.Item.Groups ∧ g ∈ ["android"] :=
  ⟨by decide, FilterFiles_groups MapOrder.insertion sampleConfig sampleClient 2 "" () none
    samplePtrs sampleEnd 2 sampleTree (by rfl) (by rfl) ["android"] (by decide) [] none false
    sampleMatch sampleMatch_mem⟩

/-- C5 (the code at a failing input): `FilterFiles` has no dataset filter; whatever the
dataset filter of the caller, here `desktop`, the files of every dataset are returned. On
`sampleTree` two of the three files returned are of the dataset `android`. -/
theorem FilterFiles_ignores_dataset_filter :
    GetExtracts sampleConfig sampleClient 2 "" (Run.start () none)
      = some (Except.ok samplePtrs, sampleEnd) ∧
    viewAll sampleEnd.heap 2 samplePtrs = some sampleTree ∧
    (FilterFiles MapOrder.insertion sampleTree [] [] none false []).map
        (fun f => (f.Dataset, contains f.Dataset ["desktop"]))
      = [("android", false), ("android", false), ("desktop", true)] := by
  refine ⟨by rfl, by rfl, ?_⟩
  decide

theorem sampleRecent_mem :
    sampleRecent ∈
      FilterFiles MapOrder.insertion sampleTree [] [] (some (UnixMilli 1500)) true [] :=
  (List.mem_cons_self sampleRecent
    (FilterFiles MapOrder.insertion sampleTree [] [] (some (UnixMilli 1500)) true []).tail :
    sampleRecent ∈ sampleRecent :: _)

theorem FilterFiles_since_witness :
    sampleRecent.Name = "android_2022-05-01.zip" ∧
    (sampleRecent.Updated = UnixMilli sampleRecent.Item.Modified ∧
      UnixMilli 1500 ≤ sampleRecent.Updated) :=
  ⟨by decide, FilterFiles_since MapOrder.insertion sampleTree [] [] (UnixMilli 1500) true
    sampleRecent sampleRecent_mem⟩
/-! ## Failures of the requests (C7, C8) -/

theorem setGroups_url (h : Heap) (i q : Nat) :
    ((setGroups h i).read q).Url = (h.read q).Url := by
  unfold setGroups
  split
  · rw [Heap.read_update]
    split
    · rename_i hc
      rw [hc.1]
    · rfl
  · rfl

/-- An error returned by the recursive call made for a directory of the listing is returned
by the loop over the listing. -/
theorem indexLoop_error {σ : Type} (recur : String → Run σ → Outcome σ) (d : Nat)
    (post : List Nat) (err : GoError) (st1 st2 : Run σ)
    (hd : (st1.heap.read d).IsDirectory = true)
    (herr : recur (st1.heap.read d).Url { st1 with heap := setGroups st1.heap d }
      = some (Except.error err, st2)) :
    ∀ (pre : List Nat) (st : Run σ),
      indexLoop recur pre st = some (none, st1) →
      indexLoop recur (pre ++ d :: post) st = some (some err, st2)
  | [], st, h => by
    simp only [indexLoop, Option.some.injEq, Prod.mk.injEq, true_and] at h
    subst h
    simp only [List.nil_append]
    rw [indexLoop, if_pos hd]
    simp only [setGroups_url, herr]
  | e :: pre, st, h => by
    simp only [List.cons_append]
    rw [indexLoop] at h ⊢
    split
    · rename_i hdir
      rw [if_pos hdir] at h
      simp only [] at h ⊢
      split at h
      · cases h
      · cases h
      · rename_i children sta hcall
        cases hidx : indexChildren ((setGroups st.heap e).read e).Url e children
            (resetChildren sta.heap e) with
        | none =>
          rw [hidx] at h
          cases h
        | some heap =>
          rw [hidx] at h
          exact indexLoop_error recur d post err st1 st2 hd herr pre _ h
    · rename_i hdir
      rw [if_neg hdir] at h
      exact indexLoop_error recur d post err st1 st2 hd herr pre st h
/-- C7 as stated fails: `missingDirClient` answers the request for the listing of `/android/`
with status 404; `GetExtracts` for that path returns an empty listing and no error, and the
call for the root returns a tree in which the directory `android` has no children. -/
theorem GetExtracts_ignores_status_below_root :
    missingDirClient () (sampleConfig.ExtractUrl ++ "/android/")
      = (Except.ok { StatusCode := 404, Result := [] }, ()) ∧
    GetExtracts sampleConfig missingDirClient 1 "/android/" sampleStart
      = some (Except.ok [], sampleStart) ∧
    GetExtracts sampleConfig missingDirClient 2 "" sampleStart
      = some (Except.ok [0], missingDirEnd) ∧
    viewAll missingDirEnd.heap 1 [0]
      = some [ExtractItem.mk 0 "android" "/android/" "dir" 3000 0 [] [] [] ["android"]] :=
  ⟨by rfl, by rfl, by rfl, by rfl⟩

/-- C7, amended: when the request for the listing of a path fails with an error of the
HTTP client, `GetExtracts` for that path returns that error and no listing; and when the
recursive call made for a directory of a listing returns an error, the enclosing call
returns that error, so no partial tree is returned. -/
theorem GetExtracts_transport_error {σ : Type} (config : Config) (client : Client σ)
    (fuel : Nat) :
    (∀ (path : String) (st : Run σ) (err : GoError) (world : σ),
      cacheLookup st.cache (config.ExtractUrl ++ path) = none →
      client st.world (config.ExtractUrl ++ path) = (Except.error err, world) →
      GetExtracts config client (fuel + 1) path st
        = some (Except.error err, { st with world := world })) ∧
    (∀ (path : String) (st st0 st1 st2 : Run σ) (pre post : List Nat) (d : Nat)
      (err : GoError),
      fetchListing config client path st = some (Except.ok (pre ++ d :: post), st0) →
      indexLoop (GetExtracts config client fuel) pre st0 = some (none, st1) →
      (st1.heap.read d).IsDirectory = true →
      GetExtracts config client fuel (st1.heap.read d).Url
          { st1 with heap := setGroups st1.heap d }
        = some (Except.error err, st2) →
      GetExtracts config client (fuel + 1) path st = some (Except.error err, st2)) := by
  constructor
  · intro path st err world hmiss hreq
    unfold GetExtracts fetchListing
    simp only [hmiss, hreq]
  · intro path st st0 st1 st2 pre post d err hfetch hpre hd herr
    rw [GetExtracts, hfetch]
    simp only []
    rw [indexLoop_error _ d post err st1 st2 hd herr pre st0 hpre]

theorem GetExtracts_transport_error_witness :
    GetExtracts sampleConfig failingClient 1 "/desktop/" sampleStart
      = some (Except.error (GoError.transport "timeout"), sampleStart) ∧
    GetExtracts sampleConfig failingClient 2 "" sampleStart
      = some (Except.error (GoError.transport "timeout"), failingEnd) :=
  ⟨(GetExtracts_transport_error sampleConfig failingClient 0).1 "/desktop/" sampleStart
      (GoError.transport "timeout") () (by rfl) (by rfl),
    (GetExtracts_transport_error sampleConfig failingClient 1).2 "" sampleStart failingFetched
      failingIndexed failingEnd [0] [] 1 (GoError.transport "timeout") (by rfl) (by rfl)
      (by rfl) (by rfl)⟩

/-- C8 as stated fails: `notModifiedClient` answers the root request with status 304, which
is not 2xx, and `GetExtracts` returns an empty listing and no error. -/
theorem GetExtracts_root_status_304 :
    notModifiedClient () (sampleConfig.ExtractUrl ++ "")
      = (Except.ok { StatusCode := 304, Result := [] }, ()) ∧
    GetExtracts sampleConfig notModifiedClient 1 "" sampleStart
      = some (Except.ok [], sampleStart) :=
  ⟨by rfl, by rfl⟩

/-- C8, amended: for the root path, without a cache hit, and every response whose status is
an error status (400 or more), `GetExtracts` returns no listing and an error chosen by
status: `ErrAuth` for 401 and for 403, `ErrNoExtract` for 404, `ErrServerError` for 500 and
`ErrUnknownStatus` for every other error status. -/
theorem GetExtracts_root_status {σ : Type} (config : Config) (client : Client σ) (fuel : Nat)
    (st : Run σ) (resp : Response) (world : σ)
    (hmiss : cacheLookup st.cache (config.ExtractUrl ++ "") = none)
    (hreq : client st.world (config.ExtractUrl ++ "") = (Except.ok resp, world))
    (hstatus : 400 ≤ resp.StatusCode) :
    ∃ err : GoError,
      GetExtracts config client (fuel + 1) "" st
        = some (Except.error err, { st with world := world }) ∧
      (resp.StatusCode = 401 ∨ resp.StatusCode = 403 → err = GoError.ErrAuth) ∧
      (resp.StatusCode = 404 → err = GoError.ErrNoExtract) ∧
      (resp.StatusCode = 500 → err = GoError.ErrServerError) ∧
      (resp.StatusCode ≠ 401 ∧ resp.StatusCode ≠ 403 ∧ resp.StatusCode ≠ 404 ∧
        resp.StatusCode ≠ 500 → err = GoError.ErrUnknownStatus) := by
  refine ⟨statusError resp.StatusCode, ?_, ?_, ?_, ?_, ?_⟩
  · have hE : resp.IsError = true := by
      unfold Response.IsError
      simp only [decide_eq_true_eq]
      omega
    unfold GetExtracts fetchListing
    simp only [hmiss, hreq, hE]
    simp
  · intro h
    simp [statusError, h]
  · intro h
    simp [statusError, h]
  · intro h
    simp [statusError, h]
  · rintro ⟨h1, h2, h3, h4⟩
    simp [statusError, h1, h2, h3, h4]

theorem GetExtracts_root_status_witness :
    ∃ err : GoError,
      GetExtracts sampleConfig forbiddenClient 1 "" sampleStart
        = some (Except.error err, sampleStart) ∧
      ((403 : Nat) = 401 ∨ (403 : Nat) = 403 → err = GoError.ErrAuth) ∧
      ((403 : Nat) = 404 → err = GoError.ErrNoExtract) ∧
      ((403 : Nat) = 500 → err = GoError.ErrServerError) ∧
      ((403 : Nat) ≠ 401 ∧ (403 : Nat) ≠ 403 ∧ (403 : Nat) ≠ 404 ∧ (403 : Nat) ≠ 500 →
        err = GoError.ErrUnknownStatus) :=
  GetExtracts_root_status sampleConfig forbiddenClient 0 sampleStart
    { StatusCode := 403, Result := [] } () (by rfl) (by rfl) (by decide)
/-! ## The cutoff and the filename filter (C11, C12) -/

/-- C11: with a cutoff `s`, for every tree, group filter, filename filter and accumulator,
`FilterFiles` with `latestOnly = true` returns the list it returns with `latestOnly = false`;
and at every depth the test of `Latest` is off: the list is the accumulator followed, for
each directory of the tree, by the files the directory gives with `latestOnly = false`. -/
theorem FilterFiles_cutoff_clears_latestOnly (o : MapOrder) (tree : List ExtractItem)
    (gf ff : List String) (s : Time) (files : List ExtractFile) :
    FilterFiles o tree gf ff (some s) true files = FilterFiles o tree gf ff (some s) false files ∧
    FilterFiles o tree gf ff (some s) true files
      = files ++ (directories tree).flatMap (emits o gf ff (some s) false) := by
  constructor
  · rfl
  · rw [FilterFiles_eq]
    rfl

/-- C12: with a non-empty filename filter `F`, for every tree and every setting of the
other filters, every file `f` returned by `FilterFiles` has `f.Name` in `F`, and `f.Name`
is `f.Item.Name`. -/
theorem FilterFiles_filenames (o : MapOrder) (tree : List ExtractItem) (gf F : List String)
    (hF : F ≠ []) (since : Option Time) (lo : Bool) (f : ExtractFile)
    (hf : f ∈ FilterFiles o tree gf F since lo []) :
    f.Name ∈ F ∧ f.Name = f.Item.Name := by
  rw [FilterFiles_eq] at hf
  simp only [List.nil_append, List.mem_flatMap] at hf
  obtain ⟨d, _, hfd⟩ := hf
  obtain ⟨_, name, ds, x, _, _, hk, rfl⟩ := mem_emits.1 hfd
  refine ⟨?_, rfl⟩
  have hlen : decide (F.length = 0) = false := by
    cases F with
    | nil => exact absurd rfl hF
    | cons a F => simp
  unfold keeps at hk
  rw [hlen] at hk
  simp only [Bool.false_or, Bool.and_eq_true] at hk
  exact (contains_iff x.Name F).1 hk.1.1

theorem sampleNamed_mem :
    sampleNamed ∈ FilterFiles MapOrder.insertion sampleTree []
      ["android_2022-04-01.zip", "desktop_2022-04-01.zip"] none true [] :=
  (List.mem_cons_self sampleNamed
    (FilterFiles MapOrder.insertion sampleTree []
      ["android_2022-04-01.zip", "desktop_2022-04-01.zip"] none true []).tail :
    sampleNamed ∈ sampleNamed :: _)

theorem FilterFiles_filenames_witness :
    sampleNamed.Item.Name = "android_2022-04-01.zip" ∧
    (sampleNamed.Name ∈ ["android_2022-04-01.zip", "desktop_2022-04-01.zip"] ∧
      sampleNamed.Name = sampleNamed.Item.Name) :=
  ⟨by decide, FilterFiles_filenames MapOrder.insertion sampleTree []
    ["android_2022-04-01.zip", "desktop_2022-04-01.zip"] (by decide) none true sampleNamed
    sampleNamed_mem⟩

/-! ## The counts of the downloads (C14) -/

theorem countResults_eq : ∀ (results : List DownloadResult) (counts : DownloadCounts),
    countResults results counts =
      { downloaded := counts.downloaded
          + results.countP (fun r => r.err.isNone && r.success)
        skipped := counts.skipped + results.countP (fun r => r.err.isNone && !r.success)
        errors := counts.errors + results.countP (fun r => r.err.isSome) }
  | [], counts => by simp [countResults]
  | r :: results, counts => by
    rw [countResults, countResults_eq results]
    cases he : r.err with
    | some e => simp [he, List.countP_cons]; omega
    | none =>
      cases hs : r.success with
      | true => simp [he, hs, List.countP_cons]; omega
      | false => simp [he, hs, List.countP_cons]; omega

/-- C14: for every sequence of download outcomes, the aggregation of `ExtractHandler`
counts as errored the outcomes that carry an error, as downloaded those without error and
with `success = true`, as skipped those without error and with `success = false`; the three
counts add up to the number of outcomes. -/
theorem ExtractHandlerCounts_partition (results : List DownloadResult) :
    (ExtractHandlerCounts results).errors = results.countP (fun r => r.err.isSome) ∧
    (ExtractHandlerCounts results).downloaded
      = results.countP (fun r => r.err.isNone && r.success) ∧
    (ExtractHandlerCounts results).skipped
      = results.countP (fun r => r.err.isNone && !r.success) ∧
    (ExtractHandlerCounts results).downloaded + (ExtractHandlerCounts results).skipped
      + (ExtractHandlerCounts results).errors = results.length := by
  unfold ExtractHandlerCounts
  rw [countResults_eq]
  simp only [Nat.zero_add, true_and]
  induction results with
  | nil => simp
  | cons r results ih =>
    simp only [List.countP_cons, List.length_cons]
    cases he : r.err with
    | some e => simp [he]; omega
    | none =>
      cases hs : r.success with
      | true => simp [he, hs]; omega
      | false => simp [he, hs]; omega

/-! ## The cache file (C13) -/

theorem CacheStep_refl (a : Option ExtractsCache) : CacheStep a a :=
  Or.inl rfl

theorem CacheStep_trans {a b c : Option ExtractsCache} (h1 : CacheStep a b)
    (h2 : CacheStep b c) : CacheStep a c := by
  rcases h2 with rfl | h2
  · exact h1
  · exact Or.inr h2

theorem cacheRecord_step (cache : Option ExtractsCache) (url : String) (listing : List RawItem)
    (cache' : Option ExtractsCache) (h : cacheRecord cache url listing = some cache') :
    CacheStep cache cache' := by
  unfold cacheRecord at h
  cases cache with
  | none =>
    simp only [Option.some.injEq] at h
    exact Or.inl h.symm
  | some c =>
    simp only [] at h
    cases hr : c.Responses with
    | none => rw [hr] at h; cases h
    | some m =>
      rw [hr] at h
      simp only [Option.some.injEq] at h
      exact Or.inr ⟨_, h.symm, rfl⟩

theorem fetchListing_step {σ : Type} (config : Config) (client : Client σ) (path : String)
    (st st' : Run σ) (r : Except GoError (List Nat))
    (h : fetchListing config client path st = some (r, st')) : CacheStep st.cache st'.cache := by
  unfold fetchListing at h
  simp only [] at h
  split at h
  · split at h
    · simp only [Option.some.injEq, Prod.mk.injEq] at h
      rw [← h.2]
      exact Or.inl rfl
    · simp only [Option.some.injEq, Prod.mk.injEq] at h
      rw [← h.2]
      exact Or.inl rfl
  · split at h
    · simp only [Option.some.injEq, Prod.mk.injEq] at h
      rw [← h.2]
      exact Or.inl rfl
    · split at h
      · simp only [Option.some.injEq, Prod.mk.injEq] at h
        rw [← h.2]
        exact Or.inl rfl
      · split at h
        · cases h
        · rename_i cache' hrec
          simp only [Option.some.injEq, Prod.mk.injEq] at h
          rw [← h.2]
          exact cacheRecord_step _ _ _ _ hrec

theorem indexLoop_step {σ : Type} (recur : String → Run σ → Outcome σ)
    (hrec : ∀ p st r st', recur p st = some (r, st') → CacheStep st.cache st'.cache) :
    ∀ (es : List Nat) (st st' : Run σ) (r : Option GoError),
      indexLoop recur es st = some (r, st') → CacheStep st.cache st'.cache
  | [], st, st', r, h => by
    simp only [indexLoop, Option.some.injEq, Prod.mk.injEq] at h
    rw [← h.2]
    exact Or.inl rfl
  | e :: rest, st, st', r, h => by
    rw [indexLoop] at h
    split at h
    · simp only [] at h
      split at h
      · cases h
      · rename_i err s2 hcall
        simp only [Option.some.injEq, Prod.mk.injEq] at h
        rw [← h.2]
        have hs1 : CacheStep
            ({ st with heap := setGroups st.heap e } : Run σ).cache s2.cache :=
          hrec _ _ _ _ hcall
        exact hs1
      · rename_i children s2 hcall
        have hs1 : CacheStep
            ({ st with heap := setGroups st.heap e } : Run σ).cache s2.cache :=
          hrec _ _ _ _ hcall
        have hs1 : CacheStep st.cache s2.cache := hs1
        split at h
        · cases h
        · rename_i heap _
          have hs2 : CacheStep ({ s2 with heap := heap } : Run σ).cache st'.cache :=
            indexLoop_step recur hrec rest _ st' r h
          exact CacheStep_trans hs1 hs2
    · exact indexLoop_step recur hrec rest st st' r h

/-- A call of `GetExtracts` leaves the cache as it was or with a zero timestamp. -/
theorem GetExtracts_step {σ : Type} (config : Config) (client : Client σ) :
    ∀ (fuel : Nat) (path : String) (st : Run σ) (r : Except GoError (List Nat))
      (st' : Run σ),
      GetExtracts config client fuel path st = some (r, st') → CacheStep st.cache st'.cache
  | 0, _, _, _, _, h => by cases h
  | fuel + 1, path, st, r, st', h => by
    rw [GetExtracts] at h
    split at h
    · cases h
    · rename_i err s1 hfetch
      simp only [Option.some.injEq, Prod.mk.injEq] at h
      rw [← h.2]
      exact fetchListing_step config client path st s1 _ hfetch
    · rename_i extracts s1 hfetch
      have hs1 := fetchListing_step config client path st s1 _ hfetch
      split at h
      · cases h
      · rename_i err s2 hloop
        simp only [Option.some.injEq, Prod.mk.injEq] at h
        rw [← h.2]
        exact CacheStep_trans hs1
          (indexLoop_step _ (GetExtracts_step config client fuel) extracts s1 s2 _ hloop)
      · rename_i s2 hloop
        simp only [Option.some.injEq, Prod.mk.injEq] at h
        rw [← h.2]
        exact CacheStep_trans hs1
          (indexLoop_step _ (GetExtracts_step config client fuel) extracts s1 s2 _ hloop)

theorem wrapInt64_le (x : Int) : wrapInt64 x ≤ maxDuration := by
  unfold wrapInt64 maxDuration
  have := Int.emod_lt_of_pos (x + 9223372036854775808)
    (show (0 : Int) < 18446744073709551616 by decide)
  omega

/-- A snapshot that passes the test of line 126 at a time after 1970 has a timestamp that
is not zero. -/
theorem valid_not_zero (config : Config) (now : Time) (c : ExtractsCache) (hnow : 0 ≤ now)
    (hvalid : Time.Sub now c.Timestamp < cacheDuration config) : c.Timestamp ≠ zeroTime := by
  intro hz
  rw [hz] at hvalid
  have hle := wrapInt64_le (config.CacheDurationMinutes * 60000000000)
  unfold cacheDuration at hvalid
  have hbig : Time.Sub now zeroTime = maxDuration := by
    have h1 : now - zeroTime > maxDuration := by
      have hz0 : zeroTime = -62135596800000000000 := by decide
      have hm : maxDuration = 9223372036854775807 := rfl
      rw [hz0, hm]
      linarith
    unfold Time.Sub
    rw [if_pos h1]
  rw [hbig] at hvalid
  exact absurd hvalid (not_lt.2 hle)

/-- C13 as stated fails: `otherSnapshot` is a valid snapshot, one minute old, and
`ReadExtractsCache` loads it; it holds no listing for the root URL of `cachingConfig`, so
`GetExtracts` requests the listing and resets the timestamp, and `WriteExtractsCache`
writes the snapshot again, with the fetched listings and the time of the write. -/
theorem ExtractHandler_rewrites_loaded_snapshot :
    cachingConfig.CacheDurationMinutes > 0 ∧
    ReadExtractsCache cachingConfig readTime (CacheFile.snapshot otherSnapshot)
      = some (some otherSnapshot) ∧
    Time.Sub readTime otherSnapshot.Timestamp < cacheDuration cachingConfig ∧
    (ExtractHandlerTree cachingConfig sampleClient writeFileOk 2 readTime writeTime ()
        (CacheFile.snapshot otherSnapshot)).map
      (fun r => (r.1.toOption,
        decide (r.2 = CacheFile.snapshot otherSnapshot),
        match r.2 with
        | CacheFile.snapshot c => some (c.Timestamp, (c.Responses.getD []).map Prod.fst)
        | _ => none))
      = some (some [0, 1, 2], false,
          some (writeTime, ["http://old/extracts", "http://h/extracts",
            "http://h/extracts/android/", "http://h/extracts/desktop/"])) := by
  refine ⟨by decide, by decide, by decide, ?_⟩
  decide

/-- `WriteExtractsCache` leaves another cache file only when the cache it is given has a
zero timestamp. -/
theorem WriteExtractsCache_writes_only_zero (config : Config) (now : Time)
    (writeFile : ExtractsCache → CacheFile → CacheFile) (cache : Option ExtractsCache)
    (file : CacheFile) (h : (WriteExtractsCache config now writeFile cache file).2 ≠ file) :
    ∃ c, cache = some c ∧ c.Timestamp = zeroTime := by
  unfold WriteExtractsCache at h
  split at h
  · cases cache with
    | none => exact absurd rfl h
    | some c =>
      simp only [] at h
      by_cases hz : c.Timestamp.IsZero = true
      · refine ⟨c, rfl, ?_⟩
        simpa [Time.IsZero] using hz
      · rw [if_neg hz] at h
        exact absurd rfl h
  · exact absurd rfl h

/-- C13, amended: with caching enabled, when `ReadExtractsCache` finds on disk a snapshot
`c` that is valid at a time after 1970, it loads it, and a run of `GetExtracts` from the
root that returns a tree ends in one of two ways. Either the cache is still `c` (no fetched
listing was recorded): then `WriteExtractsCache` writes nothing and the cache file is
unchanged. Or a fetched listing was recorded and the timestamp of the cache is zero: then
`WriteExtractsCache` writes the snapshot with the time of the write. When `GetExtracts`
returns an error the cache file is unchanged. In every case `WriteExtractsCache` changes
the cache file only if the timestamp of the cache it is given is zero. -/
theorem ExtractHandler_cache_file {σ : Type} (config : Config) (client : Client σ)
    (writeFile : ExtractsCache → CacheFile → CacheFile) (fuel : Nat) (readTime writeTime : Time)
    (world : σ) (c : ExtractsCache) (hdur : config.CacheDurationMinutes > 0)
    (hnow : 0 ≤ readTime) (hvalid : Time.Sub readTime c.Timestamp < cacheDuration config) :
    ReadExtractsCache config readTime (CacheFile.snapshot c) = some (some c) ∧
    (∀ (extracts : List Nat) (st : Run σ),
      GetExtracts config client fuel "" (Run.start world (some c))
        = some (Except.ok extracts, st) →
      (st.cache = some c ∧
        WriteExtractsCache config writeTime writeFile st.cache (CacheFile.snapshot c)
          = (some c, CacheFile.snapshot c) ∧
        ExtractHandlerTree config client writeFile fuel readTime writeTime world
          (CacheFile.snapshot c) = some (Except.ok extracts, CacheFile.snapshot c)) ∨
      (∃ c', st.cache = some c' ∧ c'.Timestamp = zeroTime ∧
        ExtractHandlerTree config client writeFile fuel readTime writeTime world
          (CacheFile.snapshot c)
          = some (Except.ok extracts,
              if marshalOk writeTime then
                writeFile { Timestamp := writeTime, Responses := c'.Responses }
                  (CacheFile.snapshot c)
              else CacheFile.snapshot c))) ∧
    (∀ (err : GoError) (st : Run σ),
      GetExtracts config client fuel "" (Run.start world (some c))
        = some (Except.error err, st) →
      ExtractHandlerTree config client writeFile fuel readTime writeTime world
        (CacheFile.snapshot c) = some (Except.error err, CacheFile.snapshot c)) ∧
    (∀ (cache : Option ExtractsCache) (file : CacheFile),
      (WriteExtractsCache config writeTime writeFile cache file).2 ≠ file →
      ∃ c0, cache = some c0 ∧ c0.Timestamp = zeroTime) := by
  have hread : ReadExtractsCache config readTime (CacheFile.snapshot c) = some (some c) := by
    unfold ReadExtractsCache
    simp only [hdur, if_true, hvalid]
  have hnz : c.Timestamp.IsZero = false := by
    have := valid_not_zero config readTime c hnow hvalid
    simpa [Time.IsZero] using this
  refine ⟨hread, ?_, ?_, fun cache file h =>
    WriteExtractsCache_writes_only_zero config writeTime writeFile cache file h⟩
  · intro extracts st hrun
    rcases GetExtracts_step config client fuel "" _ _ st hrun with hsame | ⟨c', hc', hz⟩
    · left
      have hsame' : st.cache = some c := hsame
      have hw : WriteExtractsCache config writeTime writeFile st.cache (CacheFile.snapshot c)
          = (some c, CacheFile.snapshot c) := by
        rw [hsame']
        unfold WriteExtractsCache
        simp only [hdur, if_true, hnz, Bool.false_eq_true, if_false]
      refine ⟨hsame', hw, ?_⟩
      unfold ExtractHandlerTree
      simp only [hread, hrun, hw]
    · right
      refine ⟨c', hc', hz, ?_⟩
      have hzz : c'.Timestamp.IsZero = true := by
        simp [Time.IsZero, hz]
      unfold ExtractHandlerTree
      simp only [hread, hrun]
      unfold WriteExtractsCache
      simp only [hdur, if_true, hc', hzz]
  · intro err st hrun
    unfold ExtractHandlerTree
    simp only [hread, hrun]

theorem ExtractHandler_cache_file_witness :
    ReadExtractsCache cachingConfig readTime (CacheFile.snapshot fullSnapshot)
      = some (some fullSnapshot) ∧
    WriteExtractsCache cachingConfig writeTime writeFileOk (some fullSnapshot)
        (CacheFile.snapshot fullSnapshot)
      = (some fullSnapshot, CacheFile.snapshot fullSnapshot) ∧
    ExtractHandlerTree cachingConfig forbiddenClient writeFileOk 2 readTime writeTime ()
        (CacheFile.snapshot fullSnapshot)
      = some (Except.ok [0], CacheFile.snapshot fullSnapshot) := by
  have h := ExtractHandler_cache_file cachingConfig forbiddenClient writeFileOk 2 readTime
    writeTime () fullSnapshot (by decide) (by decide) (by decide)
  rcases h.2.1 [0] cachedEnd (by rfl) with ⟨_, hw, ht⟩ | ⟨c', hc', hz, _⟩
  · exact ⟨h.1, hw, ht⟩
  · have hc2 : some fullSnapshot = some c' := hc'
    simp only [Option.some.injEq] at hc2
    subst hc2
    exact absurd hz (by decide)

end Speedtest
